import Mathlib

/-!
Formal model of the benchmark-result normalization logic of the
`compression-comparison` repository (directory `data-visualization/`).

The Python sources embedded here are:
* `analyze_compression.py` — `parse_time`, `extract_data`, the best-value
  computation of `generate_summary_table`, the efficiency computation of
  `plot_compression_efficiency`, and the per-level percentage of the
  detailed table;
* `visualize.py` — the integer-only level parse of `extract_data` and the
  best-level percentage of `create_overview_table`;
* `visualize_json.py` — `process_data` and the best-value computation of
  `create_html_summary`.

Numbers: Python floats are modelled as exact rationals (`Rat`).  Every
concrete value appearing in the claims (`62.0`, `3723.0`, `4000.0`,
`70.0`, `0.3`, …) is exactly representable and the quoted IEEE-754 double
computations (e.g. `4.0 / (0.0 + 0.001) == 4000.0`) round to exactly the
same values, so the rational model agrees with the Python float results
on all inputs considered here.  Python exceptions (`ValueError`,
`IndexError`, `StopIteration`) are modelled by `Option`: a `none` result
means the Python code raises and the surrounding script aborts.
-/

namespace CompressionComparison

/-! ## Python numeric-string parsing

`int(s)` and `float(s)` on the decimal forms that occur in benchmark
data: an optional sign followed by digits (for `int`), or by
`digits [. digits]` / `. digits` (for `float`).  Exotic `float` spellings
(exponents, `inf`, `nan`, underscores, surrounding whitespace) do not
occur in the data and are not modelled.  `none` models `ValueError`. -/

def digitsToNat (cs : List Char) : Nat :=
  cs.foldl (fun a c => 10 * a + (c.toNat - '0'.toNat)) 0

/-- Value of `int(s)` on an optional sign followed by one or more digits;
`none` models `ValueError`. -/
def pyInt (s : String) : Option Int :=
  match s.data with
  | '-' :: rest =>
      if rest ≠ [] && rest.all (·.isDigit) then some (-(digitsToNat rest : Int)) else none
  | '+' :: rest =>
      if rest ≠ [] && rest.all (·.isDigit) then some (digitsToNat rest : Int) else none
  | cs =>
      if cs ≠ [] && cs.all (·.isDigit) then some (digitsToNat cs : Int) else none

/-- Unsigned part of `float(s)`: `digits`, `digits.digits`, `digits.` or
`.digits`. -/
def pyFloatMag (cs : List Char) : Option Rat :=
  let ip := cs.takeWhile (·.isDigit)
  let rest := cs.dropWhile (·.isDigit)
  match rest with
  | [] => if ip = [] then none else some (digitsToNat ip : Rat)
  | '.' :: rest2 =>
      let fp := rest2.takeWhile (·.isDigit)
      let rest3 := rest2.dropWhile (·.isDigit)
      if rest3 = [] && (ip ≠ [] || fp ≠ []) then
        some ((digitsToNat ip : Rat) + (digitsToNat fp : Rat) / ((10 : Rat) ^ fp.length))
      else none
  | _ => none

/-- Value of `float(s)`; `none` models `ValueError`. -/
def pyFloat (s : String) : Option Rat :=
  match s.data with
  | '-' :: rest => (pyFloatMag rest).map (fun q => -q)
  | '+' :: rest => pyFloatMag rest
  | cs => pyFloatMag cs

/-- Python `str.split(sep)` on the character list of a string:
`"a:b".split(":") == ["a","b"]`, `"".split(":") == [""]`,
`":".split(":") == ["",""]`. -/
def splitChar (sep : Char) : List Char → List (List Char)
  | [] => [[]]
  | c :: rest =>
      let r := splitChar sep rest
      if c = sep then [] :: r
      else
        match r with
        | [] => [[c]]
        | h :: t => (c :: h) :: t

/-- Python `s.split(sep)` for a one-character separator. -/
def pySplit (sep : Char) (s : String) : List String :=
  (splitChar sep s.data).map (fun cs => String.mk cs)

/-! ## `parse_time` (identical in all three scripts)

```python
def parse_time(time_str):
    if not time_str:
        return 0.0
    parts = time_str.split(':')
    if len(parts) == 2:
        minutes, seconds = float(parts[0]), float(parts[1])
        return minutes * 60 + seconds
    elif len(parts) == 3:
        hours, minutes, seconds = float(parts[0]), float(parts[1]), float(parts[2])
        return hours * 3600 + minutes * 60 + seconds
    else:
        return 0.0
```

The argument may be `None` (falsy) or a string; `if not time_str` is true
exactly for `None` and `""`. -/
def parse_time (time_str : Option String) : Option Rat :=
  match time_str with
  | none => some 0
  | some s =>
      if s = "" then some 0
      else
        let parts := pySplit ':' s
        if parts.length = 2 then do
          let minutes ← pyFloat (parts.getD 0 "")
          let seconds ← pyFloat (parts.getD 1 "")
          pure (minutes * 60 + seconds)
        else if parts.length = 3 then do
          let hours ← pyFloat (parts.getD 0 "")
          let minutes ← pyFloat (parts.getD 1 "")
          let seconds ← pyFloat (parts.getD 2 "")
          pure (hours * 3600 + minutes * 60 + seconds)
        else some 0

/-- Level parse of `analyze_compression.extract_data`:
`try: level_int = int(level) except ValueError: level_int = float(level)`;
a failure of both is an uncaught `ValueError` (`none`). -/
def parseLevelA (level : String) : Option Rat :=
  match pyInt level with
  | some n => some (n : Rat)
  | none => pyFloat level

/-- Level parse of `visualize.extract_data` and
`visualize_json.process_data`: `int(level)` with no fallback; a
non-integer level is an uncaught `ValueError` (`none`). -/
def parseLevelV (level : String) : Option Int :=
  pyInt level

/-! ## `np.argsort`

All three scripts order series with `indices = np.argsort(levels)` and
`[xs[i] for i in indices]`.  `np.argsort` with the default
`kind='quicksort'` runs numpy's introsort (`aquicksort_` in
`npysort/quicksort.c.src`): median-of-3 quicksort on an index array,
switching to insertion sort for partitions of at most
`SMALL_QUICKSORT = 15` pointer difference (16 elements) and to heapsort
(`aheapsort_`) when the shared depth budget `2 * msb(n)` is exhausted.
This sort is *not* stable.  The transcription below is parameterized by
the boolean comparison `lt a b = (keys[a] < keys[b])` on index values;
all mutations of the index list are swaps (the C insertion sort's and
heapsort's hole-shifting loops place elements exactly as the equivalent
swap/functional formulations do), so the result is a permutation of
`range n` by construction. -/

/-- Swap two positions of a list (identity when out of range; the
transcribed algorithm only swaps in range). -/
def swapList (l : List Nat) (i j : Nat) : List Nat :=
  if i < l.length && j < l.length then
    (l.set i (l.getD j 0)).set j (l.getD i 0)
  else l

/-- `do ++pi; while (LT(v[*pi], vp))`: first position `q > i` whose key is
not less than the pivot key.  The fuel is an upper bound on the scan
length; the algorithm guarantees termination at the pivot sentinel. -/
def scanUp (lt : Nat → Nat → Bool) (t : List Nat) (vi : Nat) : Nat → Nat → Nat
  | i, 0 => i + 1
  | i, fu + 1 => if lt (t.getD (i + 1) 0) vi then scanUp lt t vi (i + 1) fu else i + 1

/-- `do --pj; while (LT(vp, v[*pj]))`: first position `q < j` whose key is
not greater than the pivot key. -/
def scanDown (lt : Nat → Nat → Bool) (t : List Nat) (vi : Nat) : Nat → Nat → Nat
  | j, 0 => j - 1
  | j, fu + 1 => if lt vi (t.getD (j - 1) 0) then scanDown lt t vi (j - 1) fu else j - 1

/-- The inner swap loop of the partition step. Returns the final list and
the final `pi`. -/
def partitionLoop (lt : Nat → Nat → Bool) (vi : Nat) :
    Nat → List Nat → Nat → Nat → List Nat × Nat
  | 0, t, pi, _ => (t, pi)
  | fu + 1, t, pi, pj =>
      let pi' := scanUp lt t vi pi t.length
      let pj' := scanDown lt t vi pj t.length
      if pj' ≤ pi' then (t, pi')
      else partitionLoop lt vi fu (swapList t pi' pj') pi' pj'

/-- One median-of-3 partition step on segment `[pl, pr]`; returns the new
index list and the pivot position `pi`. -/
def partitionStep (lt : Nat → Nat → Bool) (t : List Nat) (pl pr : Nat) :
    List Nat × Nat :=
  let pm := pl + (pr - pl) / 2
  let t1 := if lt (t.getD pm 0) (t.getD pl 0) then swapList t pm pl else t
  let t2 := if lt (t1.getD pr 0) (t1.getD pm 0) then swapList t1 pr pm else t1
  let t3 := if lt (t2.getD pm 0) (t2.getD pl 0) then swapList t2 pm pl else t2
  let vi := t3.getD pm 0
  let t4 := swapList t3 pm (pr - 1)
  let tp := partitionLoop lt vi (pr + 2) t4 pl (pr - 1)
  (swapList tp.1 tp.2 (pr - 1), tp.2)

/-- Stable insertion of `i` into an already processed index list: `i` goes
in front of the first index whose key is strictly greater (so after all
equal keys), exactly where the C insertion sort's shifting loop puts it. -/
def insertAfterEq (lt : Nat → Nat → Bool) (i : Nat) : List Nat → List Nat
  | [] => [i]
  | j :: rest => if lt i j then i :: j :: rest else j :: insertAfterEq lt i rest

/-- The argsort insertion sort, as a left fold of `insertAfterEq`. -/
def insertionArgsort (lt : Nat → Nat → Bool) (l : List Nat) : List Nat :=
  l.foldl (fun acc i => insertAfterEq lt i acc) []

/-- Insertion-sort the segment `[pl, pr]` of the index list in place. -/
def insSortSeg (lt : Nat → Nat → Bool) (t : List Nat) (pl pr : Nat) : List Nat :=
  let tail := t.drop pl
  t.take pl ++ insertionArgsort lt (tail.take (pr + 1 - pl)) ++ tail.drop (pr + 1 - pl)

/-- Sift-down of `aheapsort_` on the 1-based segment heap `a[k] =
t[pl + k - 1]`, `k ∈ [1, nseg]`, in the result-equivalent swap form. -/
def siftDown (lt : Nat → Nat → Bool) (pl : Nat) :
    Nat → List Nat → Nat → Nat → List Nat
  | 0, t, _, _ => t
  | fu + 1, t, nseg, i =>
      let j := 2 * i
      if j ≤ nseg then
        let j := if j < nseg && lt (t.getD (pl + j - 1) 0) (t.getD (pl + j) 0) then j + 1 else j
        if lt (t.getD (pl + i - 1) 0) (t.getD (pl + j - 1) 0) then
          siftDown lt pl fu (swapList t (pl + i - 1) (pl + j - 1)) nseg j
        else t
      else t

/-- Heap construction: sift roots `nseg/2, …, 1`. -/
def heapify (lt : Nat → Nat → Bool) (pl : Nat) (t : List Nat) (nseg : Nat) : List Nat :=
  (List.range (nseg / 2)).foldl (fun t k => siftDown lt pl (nseg + 1) t nseg (nseg / 2 - k)) t

/-- Heap extraction phase of `aheapsort_`. -/
def heapExtract (lt : Nat → Nat → Bool) (pl : Nat) : Nat → List Nat → Nat → List Nat
  | 0, t, _ => t
  | fu + 1, t, n =>
      if n ≤ 1 then t
      else
        let t := swapList t pl (pl + n - 1)
        heapExtract lt pl fu (siftDown lt pl n t (n - 1) 1) (n - 1)

/-- `aheapsort_` on segment `[pl, pr]`. -/
def heapsortSeg (lt : Nat → Nat → Bool) (t : List Nat) (pl pr : Nat) : List Nat :=
  let nseg := pr + 1 - pl
  heapExtract lt pl (nseg + 1) (heapify lt pl t nseg) nseg

/-- Main introsort loop of `aquicksort_`: explicit segment stack, shared
depth budget.  Each outer iteration either performs one partition step
(the current segment shrinks by at least the pivot) or finishes the
current segment by insertion sort/heapsort and pops the stack, so
`2 * n + 4` fuel is more than the loop can consume. -/
def argsortLoop (lt : Nat → Nat → Bool) :
    Nat → List Nat → List (Nat × Nat) → Nat → Nat → Int → List Nat
  | 0, t, _, _, _, _ => t
  | fuel + 1, t, stack, pl, pr, depth =>
      if 15 < pr - pl then
        if depth < 0 then
          let t := heapsortSeg lt t pl pr
          match stack with
          | [] => t
          | (pl', pr') :: rest => argsortLoop lt fuel t rest pl' pr' (depth - 1)
        else
          let tp := partitionStep lt t pl pr
          if tp.2 - pl < pr - tp.2 then
            argsortLoop lt fuel tp.1 ((tp.2 + 1, pr) :: stack) pl (tp.2 - 1) (depth - 1)
          else
            argsortLoop lt fuel tp.1 ((pl, tp.2 - 1) :: stack) (tp.2 + 1) pr (depth - 1)
      else
        let t := insSortSeg lt t pl pr
        match stack with
        | [] => t
        | (pl', pr') :: rest => argsortLoop lt fuel t rest pl' pr' depth

/-- `np.argsort` on `n` indices compared by `lt`. -/
def argsortCore (lt : Nat → Nat → Bool) (n : Nat) : List Nat :=
  argsortLoop lt (2 * n + 4) (List.range n) [] 0 (n - 1) (2 * (Nat.log2 n : Int))

/-- `np.argsort` of a list of (rational-valued) keys. -/
def argsortRat (keys : List Rat) : List Nat :=
  argsortCore (fun a b => decide (keys.getD a 0 < keys.getD b 0)) keys.length

/-- `np.argsort` of a list of integer keys. -/
def argsortInt (keys : List Int) : List Nat :=
  argsortCore (fun a b => decide (keys.getD a 0 < keys.getD b 0)) keys.length

/-- `[xs[i] for i in indices]`. -/
def applyPerm (idx : List Nat) (xs : List α) (d : α) : List α :=
  idx.map (fun i => xs.getD i d)

/-- The strict (key, original position) lexicographic order on index
values, used to state stability: an argsort is stable iff its output is
pairwise ordered by this relation. -/
def lexLtKeys (keys : List Rat) (a b : Nat) : Prop :=
  keys.getD a 0 < keys.getD b 0 ∨ (keys.getD a 0 = keys.getD b 0 ∧ a < b)

/-! ## Sortedness of the full introsort -/

def keyLtF (f : Nat → Rat) (a b : Nat) : Bool := decide (f a < f b)

def sortedPos (f : Nat → Rat) (t : List Nat) : Prop :=
  ∀ p q : Nat, p < q → q < t.length → f (t.getD p 0) ≤ f (t.getD q 0)

def inSeg (s : Nat × Nat) (p : Nat) : Prop := s.1 ≤ p ∧ p ≤ s.2

def segsWF (n : Nat) (segs : List (Nat × Nat)) : Prop :=
  (∀ s ∈ segs, s.1 ≤ s.2 ∧ s.2 < n) ∧
  segs.Pairwise (fun s s' => s.2 < s'.1 ∨ s'.2 < s.1)

def crossSorted (f : Nat → Rat) (t : List Nat) (segs : List (Nat × Nat)) : Prop :=
  ∀ p q : Nat, p < q → q < t.length →
    (∀ s ∈ segs, ¬ (inSeg s p ∧ inSeg s q)) →
    f (t.getD p 0) ≤ f (t.getD q 0)

def segWeight (s : Nat × Nat) : Nat := 2 * (s.2 + 1 - s.1) + 1

def stackMeasure (segs : List (Nat × Nat)) : Nat := (segs.map segWeight).sum

def segOf (t : List Nat) (pl pr : Nat) : List Nat := (t.drop pl).take (pr + 1 - pl)

def inSubtree (r j : Nat) : Prop := ∃ c, j / 2 ^ c = r

def heapEdge (f : Nat → Rat) (t : List Nat) (pl j : Nat) : Prop :=
  f (t.getD (pl + j - 1) 0) ≤ f (t.getD (pl + j / 2 - 1) 0)

/-! ## Input data model

A parsed input JSON document: a list of objects mapping file/test name →
algorithm name → level-identifier string → `{compression, decompression}`
records.  JSON objects are modelled as association lists preserving
insertion order (Python 3.7+ dicts are ordered, and `json.load` preserves
order).  The `compressedPercentage` field is string-encoded in the JSON
but always a well-formed decimal; the scripts convert it with `float()`,
so it is modelled by its parsed value.  The `real` duration fields stay
strings (`Option String`, as `parse_time` also accepts `None`). -/

structure CompressionInfo where
  originalSize : Int
  compressedSize : Int
  ratioVal : Rat
  pctVal : Rat
  real : Option String
  max : Int
  deriving DecidableEq

structure DecompressionInfo where
  real : Option String
  max : Int
  deriving DecidableEq

structure LevelMetrics where
  compression : CompressionInfo
  decompression : DecompressionInfo
  deriving DecidableEq

/-- An (insertion-ordered) JSON object, as an association list. -/
abbrev Table (V : Type) := List (String × V)

abbrev LevelTable := Table LevelMetrics
abbrev AlgoTable := Table LevelTable
/-- One top-level entry of the input document. -/
abbrev Entry := Table AlgoTable
abbrev InputDoc := List Entry

/-- Python `d[k]` for the first (unique, in real dicts) matching key. -/
def getA {V : Type} : Table V → String → Option V
  | [], _ => none
  | (k', v) :: rest, k => if k' = k then some v else getA rest k

/-- Python `d[k] = v`: update in place, or append a new key at the end. -/
def setA {V : Type} : Table V → String → V → Table V
  | [], k, v => [(k, v)]
  | (k', v') :: rest, k, v =>
      if k' = k then (k, v) :: rest else (k', v') :: setA rest k v

/-- Two-level lookup `results[file][alg]`. -/
def getA2 {V : Type} (m : Table (Table V)) (file alg : String) : Option V :=
  (getA m file).bind (fun t => getA t alg)

/-! ## `analyze_compression.extract_data`

```python
def extract_data(json_data):
    results = {}
    for file_data in json_data:
        for filename, algorithms in file_data.items():
            if filename not in results:
                results[filename] = {}
            for algorithm, levels in algorithms.items():
                if algorithm not in results[filename]:
                    results[filename][algorithm] = {...empty lists..., 'original_size': None}
                if results[filename][algorithm]['original_size'] is None:
                    first_level = list(levels.keys())[0]
                    results[filename][algorithm]['original_size'] = \
                        levels[first_level]['compression']['originalSize']
                for level, metrics in levels.items():
                    try: level_int = int(level)
                    except ValueError: level_int = float(level)
                    ... append level_int, compressionRatio, float(compressedPercentage),
                        parse_time(real), parse_time(real), compressedSize, max ...
    # then sort every list field by np.argsort(compression_levels)
    return results
```

`none` results model uncaught exceptions (`ValueError` from parses,
`IndexError` from `list(levels.keys())[0]` on an empty level object). -/

structure SeriesData where
  compression_levels : List Rat
  compression_ratios : List Rat
  compressed_percentage : List Rat
  compression_time : List Rat
  decompression_time : List Rat
  original_size : Option Int
  compressed_size : List Int
  memory_usage : List Int
  deriving DecidableEq

def emptySeries : SeriesData :=
  ⟨[], [], [], [], [], none, [], []⟩

/-- The seven values appended for one level by `extract_data`'s inner
loop. -/
structure RecordA where
  level : Rat
  ratioVal : Rat
  pct : Rat
  ctime : Rat
  dtime : Rat
  csize : Int
  mem : Int
  deriving DecidableEq

/-- Parse the fallible parts of one level record (`int`/`float` level
fallback, the two `parse_time` calls). -/
def parseRecordA (lvl : String) (m : LevelMetrics) : Option RecordA := do
  let levelKey ← parseLevelA lvl
  let ct ← parse_time m.compression.real
  let dt ← parse_time m.decompression.real
  pure ⟨levelKey, m.compression.ratioVal, m.compression.pctVal, ct, dt,
        m.compression.compressedSize, m.compression.max⟩

/-- Append one level's values to every per-level list. -/
def appendRec (s : SeriesData) (r : RecordA) : SeriesData :=
  { s with
    compression_levels := s.compression_levels ++ [r.level]
    compression_ratios := s.compression_ratios ++ [r.ratioVal]
    compressed_percentage := s.compressed_percentage ++ [r.pct]
    compression_time := s.compression_time ++ [r.ctime]
    decompression_time := s.decompression_time ++ [r.dtime]
    compressed_size := s.compressed_size ++ [r.csize]
    memory_usage := s.memory_usage ++ [r.mem] }

/-- `for level, metrics in levels.items(): ...` -/
def processLevels (s : SeriesData) : LevelTable → Option SeriesData
  | [] => some s
  | (lvl, m) :: rest => do
      let r ← parseRecordA lvl m
      processLevels (appendRec s r) rest

/-- Process one `(algorithm, levels)` item against the current state of
`results[filename][algorithm]` (`none` = key absent). -/
def processAlgoA (s0 : Option SeriesData) (levels : LevelTable) : Option SeriesData := do
  let s := s0.getD emptySeries
  let s ←
    if s.original_size.isNone then do
      let fl ← levels.head?
      pure { s with original_size := some fl.2.compression.originalSize }
    else pure s
  processLevels s levels

/-- One step of the inner `for algorithm, levels in algorithms.items()`
loop: update `results[filename][algorithm]`. -/
def algoStep (ft : Table SeriesData) (al : String × LevelTable) :
    Option (Table SeriesData) := do
  let s' ← processAlgoA (getA ft al.1) al.2
  pure (setA ft al.1 s')

/-- Process one `(filename, algorithms)` item. -/
def processFileA (res : Table (Table SeriesData)) (filename : String)
    (algos : AlgoTable) : Option (Table (Table SeriesData)) := do
  let ftab ← algos.foldlM algoStep ((getA res filename).getD [])
  pure (setA res filename ftab)

/-- Process one top-level entry (`for filename, algorithms in
file_data.items()`). -/
def entryFoldA (res : Table (Table SeriesData)) (entry : Entry) :
    Option (Table (Table SeriesData)) :=
  entry.foldlM (fun res fd => processFileA res fd.1 fd.2) res

/-- The accumulation phase of `extract_data` (before sorting). -/
def extractRaw (input : InputDoc) : Option (Table (Table SeriesData)) :=
  input.foldlM entryFoldA []

/-- The sorting phase: permute every list field by
`np.argsort(compression_levels)`. -/
def sortSeriesA (s : SeriesData) : SeriesData :=
  let idx := argsortRat s.compression_levels
  { compression_levels := applyPerm idx s.compression_levels 0
    compression_ratios := applyPerm idx s.compression_ratios 0
    compressed_percentage := applyPerm idx s.compressed_percentage 0
    compression_time := applyPerm idx s.compression_time 0
    decompression_time := applyPerm idx s.decompression_time 0
    original_size := s.original_size
    compressed_size := applyPerm idx s.compressed_size 0
    memory_usage := applyPerm idx s.memory_usage 0 }

def sortResults (res : Table (Table SeriesData)) : Table (Table SeriesData) :=
  res.map (fun ft => (ft.1, ft.2.map (fun alg => (alg.1, sortSeriesA alg.2))))

/-- `analyze_compression.extract_data`. -/
def extract_data (input : InputDoc) : Option (Table (Table SeriesData)) :=
  (extractRaw input).map sortResults

/-! ## `visualize_json.process_data`

```python
def process_data(json_data):
    results = {}
    for test_data in json_data:
        for test_name, algorithms in test_data.items():
            results[test_name] = {}
            for algorithm, levels in algorithms.items():
                results[test_name][algorithm] = {...empty..., 'original_size': None}
                first_level = next(iter(levels.values()))
                results[test_name][algorithm]['original_size'] = first_level['compression']['originalSize']
                for level, data in levels.items():
                    ... append int(level), compressionRatio, compressedSize,
                        parse_time(real), parse_time(real), max ...
                indices = np.argsort(...['levels'])
                ... permute the six list fields ...
    return results
```

Note: `results[test_name] = {}` *overwrites* any previous entry with the
same test name, and each series is created fresh, unlike `extract_data`
which merges.  `int(level)` has no float fallback.  `none` models
uncaught `ValueError`/`StopIteration`. -/

structure JSeriesData where
  levels : List Int
  ratios : List Rat
  compressed_sizes : List Int
  compression_times : List Rat
  decompression_times : List Rat
  memory_usage : List Int
  original_size : Option Int
  deriving DecidableEq

def emptyJSeries : JSeriesData := ⟨[], [], [], [], [], [], none⟩

structure RecordJ where
  level : Int
  ratioVal : Rat
  csize : Int
  ctime : Rat
  dtime : Rat
  mem : Int
  deriving DecidableEq

def parseRecordJ (lvl : String) (m : LevelMetrics) : Option RecordJ := do
  let levelKey ← parseLevelV lvl
  let ct ← parse_time m.compression.real
  let dt ← parse_time m.decompression.real
  pure ⟨levelKey, m.compression.ratioVal, m.compression.compressedSize, ct, dt,
        m.compression.max⟩

def appendRecJ (s : JSeriesData) (r : RecordJ) : JSeriesData :=
  { s with
    levels := s.levels ++ [r.level]
    ratios := s.ratios ++ [r.ratioVal]
    compressed_sizes := s.compressed_sizes ++ [r.csize]
    compression_times := s.compression_times ++ [r.ctime]
    decompression_times := s.decompression_times ++ [r.dtime]
    memory_usage := s.memory_usage ++ [r.mem] }

def processLevelsJ (s : JSeriesData) : LevelTable → Option JSeriesData
  | [] => some s
  | (lvl, m) :: rest => do
      let r ← parseRecordJ lvl m
      processLevelsJ (appendRecJ s r) rest

/-- The inline per-algorithm sort of `process_data`. -/
def sortSeriesJ (s : JSeriesData) : JSeriesData :=
  let idx := argsortInt s.levels
  { levels := applyPerm idx s.levels 0
    ratios := applyPerm idx s.ratios 0
    compressed_sizes := applyPerm idx s.compressed_sizes 0
    compression_times := applyPerm idx s.compression_times 0
    decompression_times := applyPerm idx s.decompression_times 0
    memory_usage := applyPerm idx s.memory_usage 0
    original_size := s.original_size }

def processAlgoJ (levels : LevelTable) : Option JSeriesData := do
  let fl ← levels.head?
  let s0 := { emptyJSeries with original_size := some fl.2.compression.originalSize }
  let s ← processLevelsJ s0 levels
  pure (sortSeriesJ s)

/-- One step of `process_data`'s algorithm loop:
`results[test_name][algorithm] = {...}` built fresh (a repeated
algorithm key is overwritten). -/
def jAlgoStep (ft : Table JSeriesData) (al : String × LevelTable) :
    Option (Table JSeriesData) := do
  let s ← processAlgoJ al.2
  pure (setA ft al.1 s)

def processFileJ (algos : AlgoTable) : Option (Table JSeriesData) :=
  algos.foldlM jAlgoStep []

/-- One step of `process_data`'s file loop: `results[test_name] = {}`
then the algorithm loop — a repeated test name is overwritten wholesale. -/
def jFileStep (res : Table (Table JSeriesData)) (td : String × AlgoTable) :
    Option (Table (Table JSeriesData)) := do
  let ft ← processFileJ td.2
  pure (setA res td.1 ft)

def jEntryFold (res : Table (Table JSeriesData)) (entry : Entry) :
    Option (Table (Table JSeriesData)) :=
  entry.foldlM jFileStep res

/-- `visualize_json.process_data`. -/
def process_data (input : InputDoc) : Option (Table (Table JSeriesData)) :=
  input.foldlM jEntryFold []

/-- The algorithms objects supplied for file `f` by one entry, in
order. -/
def algosInEntry (entry : Entry) (f : String) : List AlgoTable :=
  entry.foldr (fun fd acc => (if fd.1 = f then [fd.2] else []) ++ acc) []

/-- The algorithms objects supplied for file `f` by the whole document. -/
def algosFor (input : InputDoc) (f : String) : List AlgoTable :=
  input.foldr (fun e acc => algosInEntry e f ++ acc) []

/-! ## Best-value computations of the summary tables -/

/-- Python `min(xs)` on a nonempty list of floats; `none` models the
`ValueError` raised on an empty sequence. -/
def pyMinList : List Rat → Option Rat
  | [] => none
  | x :: xs => some (xs.foldl min x)

/-- Python `max(xs)`. -/
def pyMaxList : List Rat → Option Rat
  | [] => none
  | x :: xs => some (xs.foldl max x)

/-- `min(min(alg[times]) for alg in algorithms.values() if min(alg[times]) > 0)`
from `analyze_compression.generate_summary_table` (lines 301–302):
the inner `min` raises on an empty list, the outer `min` raises when the
filtered generator is empty. -/
def minOfMinsPos (ls : List (List Rat)) : Option Rat := do
  let mins ← ls.mapM pyMinList
  pyMinList (mins.filter (fun m => decide (0 < m)))

def bestCompTimeA (ftab : Table SeriesData) : Option Rat :=
  minOfMinsPos (ftab.map (fun al => al.2.compression_time))

def bestDecompTimeA (ftab : Table SeriesData) : Option Rat :=
  minOfMinsPos (ftab.map (fun al => al.2.decompression_time))

/-- `min` against a running best initialised to `float('inf')`
(modelled by `none`). -/
def optMin : Option Rat → Option Rat → Option Rat
  | none, b => b
  | some a, none => some a
  | some a, some b => some (min a b)

/-- `best_comp_time = min(best_comp_time, min(metrics['compression_times'])
if metrics['compression_times'] else float('inf'))` from
`visualize_json.create_html_summary` (lines 307–315): a plain minimum
with *no* positivity filter. -/
def bestCompTimeJ (ftab : Table JSeriesData) : Option Rat :=
  ftab.foldl (fun acc al => optMin acc (pyMinList al.2.compression_times)) none

def bestDecompTimeJ (ftab : Table JSeriesData) : Option Rat :=
  ftab.foldl (fun acc al => optMin acc (pyMinList al.2.decompression_times)) none

/-- The series whose own minimum duration is strictly positive (the ones
`generate_summary_table` keeps). -/
def posMinSeries (ls : List (List Rat)) : List (List Rat) :=
  ls.filter (fun l => (pyMinList l).elim false (fun m => decide (0 < m)))

/-- Modelled from the spec: `fastest_compression` as the claim words it,
"the minimum duration strictly greater than zero across all (algorithm,
level) pairs". -/
def specFastestAllPairs (ls : List (List Rat)) : Option Rat :=
  pyMinList (ls.flatten.filter (fun d => decide (0 < d)))

/-! ## Derived metrics -/

/-- `efficiency = [ratio / (time + 0.001) for ratio, time in
zip(metrics['compression_ratio'], metrics['compression_time'])]` from
`analyze_compression.plot_compression_efficiency` (lines 169–171; the
same expression appears in `visualize.py` lines 312–315 and
`visualize_json.py` line 231). -/
def efficiencyA (metrics : SeriesData) : List Rat :=
  (metrics.compression_ratios.zip metrics.compression_time).map
    (fun rt => rt.1 / (rt.2 + 1 / 1000))

/-- `np.argmax(xs)`: index of the first maximum; `none` models the
`ValueError` on an empty sequence. -/
def npArgmaxAux (bi : Nat) (bv : Rat) (i : Nat) : List Rat → Nat
  | [] => bi
  | y :: ys => if bv < y then npArgmaxAux i y (i + 1) ys else npArgmaxAux bi bv (i + 1) ys

def npArgmax : List Rat → Option Nat
  | [] => none
  | x :: rest => some (npArgmaxAux 0 x 1 rest)

/-- `100 - float(metrics['compressed_percentage'][i])` from the detailed
table of `analyze_compression.generate_summary_table` (line 381). -/
def detailPercA (s : SeriesData) (i : Nat) : Rat :=
  100 - s.compressed_percentage.getD i 0

/-- `idx = np.argmax(data['compression_ratio']);
perc = 100 - data['compressed_percentage'][idx]` from
`visualize.create_overview_table` (lines 397–400). -/
def overviewPercV (s : SeriesData) : Option Rat :=
  (npArgmax s.compression_ratios).map (fun idx => 100 - s.compressed_percentage.getD idx 0)

/-! ## Reference views of the input used to state theorems -/

/-- The level tables supplied for algorithm `a` by one algorithms
object, in order. -/
def tablesInAlgos (algos : AlgoTable) (a : String) : List LevelTable :=
  algos.filterMap (fun al => if al.1 = a then some al.2 else none)

/-- The level tables supplied for `(f, a)` by one top-level entry. -/
def tablesInEntry (entry : Entry) (f a : String) : List LevelTable :=
  entry.foldr (fun fd acc => (if fd.1 = f then tablesInAlgos fd.2 a else []) ++ acc) []

/-- All level tables supplied for `(f, a)` by the whole document, in
encounter order. -/
def levelTablesFor (input : InputDoc) (f a : String) : List LevelTable :=
  input.foldr (fun entry acc => tablesInEntry entry f a ++ acc) []

/-- Replay of `extract_data`'s per-(file, algorithm) processing: the
successive `processAlgoA` calls a series receives, one per occurrence of
its `(file, algorithm)` pair.  The outer `Option` models an uncaught
exception, the inner one the presence of the series. -/
def procTables (s0 : Option SeriesData) : List LevelTable → Option (Option SeriesData)
  | [] => some s0
  | t :: ts => (processAlgoA s0 t).bind (fun s' => procTables (some s') ts)

/-- The total number of level records supplied for `(f, a)` by the
document (duplicate level keys counted as often as they occur). -/
def countRecs (input : InputDoc) (f a : String) : Nat :=
  ((levelTablesFor input f a).map List.length).sum

/-- The lengths of all seven per-level lists of a series. -/
def lensOf (s : SeriesData) : List Nat :=
  [s.compression_levels.length, s.compression_ratios.length,
   s.compressed_percentage.length, s.compression_time.length,
   s.decompression_time.length, s.compressed_size.length,
   s.memory_usage.length]

/-! ## Concrete inputs used in counterexamples and witnesses -/

/-- A level record with the given contents. -/
def mkLvl (orig csize : Int) (rv pv : Rat) (creal dreal : String) (cmax dmax : Int) :
    LevelMetrics :=
  ⟨⟨orig, csize, rv, pv, some creal, cmax⟩, ⟨some dreal, dmax⟩⟩

/-- One top-level entry carrying a single level `"0"` for `("f","gz")`
whose compressionRatio is `k` (used to make records distinguishable). -/
def c1Entry (k : Nat) : Entry :=
  [("f", [("gz", [("0", mkLvl 1000 500 (k : Rat) 50 "0:01" "0:01" 100 100)])])]

/-- 17 entries, each contributing one record with the same level key `0`
for the same `("f","gz")` series. -/
def c1Input : InputDoc := (List.range 17).map c1Entry

/-- Two-level input; the second level's `originalSize` is a parameter. -/
def c5Input (orig2 : Int) : InputDoc :=
  [[("fileA",
     [("zstd",
       [("1", mkLvl 1000 600 (5/3) 60 "0:01" "0:00.1" 500 100),
        ("3", mkLvl orig2 400 (5/2) 40 "0:02" "0:00.2" 600 120)])])]]

/-- The same level key `"1"` supplied twice for `("f","gz")` (in two
top-level entries), with different payloads. -/
def c8Input : InputDoc :=
  [[("f", [("gz", [("1", mkLvl 1000 500 1 50 "0:01" "0:01" 100 100)])])],
   [("f", [("gz", [("1", mkLvl 1000 250 2 25 "0:02" "0:02" 200 200)])])]]

/-- The same file name in two top-level entries with disjoint levels. -/
def c10Input : InputDoc :=
  [[("f", [("gz", [("1", mkLvl 1000 500 2 50 "0:01" "0:01" 100 100)])])],
   [("f", [("gz", [("2", mkLvl 1000 250 4 25 "0:02" "0:02" 200 200)])])]]

/-- Every duration of every algorithm is `"0:00"`. -/
def c3Input : InputDoc :=
  [[("f",
     [("A",
       [("1", mkLvl 1000 500 2 50 "0:00" "0:00" 100 100),
        ("2", mkLvl 1000 400 (5/2) 40 "0:00" "0:00" 120 120)]),
      ("B",
       [("1", mkLvl 1000 600 (5/3) 60 "0:00" "0:00" 90 90)])])]]

/-- Algorithm `A` with compression durations `[0.0, 0.0]`, algorithm `B`
with `[0.5, 0.3]` (the example used by the claim). -/
def c2Input : InputDoc :=
  [[("f",
     [("A",
       [("1", mkLvl 1000 500 2 50 "0:00" "0:00" 100 100),
        ("2", mkLvl 1000 400 (5/2) 40 "0:00" "0:00" 120 120)]),
      ("B",
       [("1", mkLvl 1000 600 (5/3) 60 "0:00.5" "0:00.1" 90 90),
        ("2", mkLvl 1000 550 (20/11) 55 "0:00.3" "0:00.2" 95 95)])])]]

/-- A single-entry input whose two levels arrive out of order (`"3"`
then `"1"`). -/
def c1SmallInput : InputDoc :=
  [[("f",
     [("gz",
       [("3", mkLvl 1000 400 (5/2) 40 "0:02" "0:02" 600 120),
        ("1", mkLvl 1000 600 (5/3) 60 "0:01" "0:01" 500 100)])])]]

/-- The claim's example as a finalized per-file table: algorithm `A`
with compression durations `[0.0, 0.0]`, `B` with `[0.5, 0.3]` (and
decompression durations `[0.0, 0.0]` / `[0.1, 0.2]`). -/
def c2Ftab : Table SeriesData :=
  [("A", ⟨[1, 2], [2, 5/2], [50, 40], [0, 0], [0, 0], some 1000, [500, 400], [100, 120]⟩),
   ("B", ⟨[1, 2], [5/3, 20/11], [60, 55], [1/2, 3/10], [1/10, 1/5], some 1000,
          [600, 550], [90, 95]⟩)]

/-- The spec's end-to-end sample input (§8): two zstd levels for
`fileA`. -/
def sampleInput : InputDoc :=
  [[("fileA",
     [("zstd",
       [("1", mkLvl 1000 600 (167/100) 60 "0:01" "0:00.1" 500 100),
        ("3", mkLvl 1000 400 (5/2) 40 "0:02" "0:00.2" 600 120)])])]]

/-! ## Sanity checks of the parsing layer -/

example : pyInt "12" = some 12 := by decide
example : pyInt "-3" = some (-3) := by decide
example : pyInt "1.5" = none := by decide
example : pyFloat "1.5" = some (3/2 : Rat) := by with_unfolding_all rfl
example : pyFloat "02.345" = some (2345/1000 : Rat) := by with_unfolding_all rfl
example : pyFloat "" = none := by rfl
example : parse_time (some "1:02") = some 62 := by with_unfolding_all rfl
example : parse_time (some "1:02:03") = some 3723 := by with_unfolding_all rfl
example : parse_time (some "5") = some 0 := by rfl
example : parse_time (some "0:00.1") = some (1/10 : Rat) := by with_unfolding_all rfl

/-! ## Helper lemmas -/

theorem getD_map_zip (f : Rat × Rat → Rat) :
    ∀ (as bs : List Rat) (i : Nat), i < as.length → i < bs.length →
      ((as.zip bs).map f).getD i 0 = f (as.getD i 0, bs.getD i 0) := by
  intro as
  induction as with
  | nil => intro bs i h1 _; exact absurd h1 (by simp)
  | cons a as ih =>
      intro bs i h1 h2
      cases bs with
      | nil => exact absurd h2 (by simp)
      | cons b bs =>
          cases i with
          | zero => rfl
          | succ i =>
              simp only [List.zip_cons_cons, List.map_cons, List.getD_cons_succ]
              exact ih bs i (by simpa using h1) (by simpa using h2)

/-! ## Association-table lemmas -/

theorem getA_setA_self {V : Type} : ∀ (m : Table V) (k : String) (v : V),
    getA (setA m k v) k = some v := by
  intro m k v
  induction m with
  | nil => simp [setA, getA]
  | cons p m ih =>
      obtain ⟨k', v'⟩ := p
      by_cases h : k' = k
      · simp [setA, h, getA]
      · simp [setA, h, getA, ih]

theorem getA_setA_ne {V : Type} : ∀ (m : Table V) (k k2 : String) (v : V), k2 ≠ k →
    getA (setA m k v) k2 = getA m k2 := by
  intro m k k2 v hne
  have hkk2 : ¬ k = k2 := fun h => hne h.symm
  induction m with
  | nil => simp [setA, getA, hkk2]
  | cons p m ih =>
      obtain ⟨k', v'⟩ := p
      by_cases h : k' = k
      · subst h
        simp [setA, getA, hkk2]
      · simp only [setA, if_neg h, getA]
        split
        · rfl
        · exact ih

theorem getA_map_snd {V W : Type} (g : V → W) : ∀ (m : Table V) (k : String),
    getA (m.map (fun p => (p.1, g p.2))) k = (getA m k).map g := by
  intro m k
  induction m with
  | nil => rfl
  | cons p m ih =>
      obtain ⟨k', v'⟩ := p
      by_cases h : k' = k
      · simp [getA, h]
      · simp [getA, h, ih]

theorem getA2_sortResults (res : Table (Table SeriesData)) (f a : String) :
    getA2 (sortResults res) f a = (getA2 res f a).map sortSeriesA := by
  rw [getA2, getA2, sortResults, getA_map_snd]
  cases getA res f with
  | none => rfl
  | some ft => simp [getA_map_snd]

theorem getA_getD_empty {V : Type} (res : Table (Table V)) (fn a : String) :
    getA ((getA res fn).getD []) a = getA2 res fn a := by
  rw [getA2]
  cases getA res fn <;> rfl

/-! ## Characterization of `extract_data`'s accumulation

`procTables` replays, per `(file, algorithm)` pair, exactly the
`processAlgoA` calls that `extract_data` makes for it; the fold lemmas
below prove that replay faithful. -/

theorem procTables_append : ∀ (ts1 ts2 : List LevelTable) (s0 : Option SeriesData),
    procTables s0 (ts1 ++ ts2) = (procTables s0 ts1).bind (fun os => procTables os ts2) := by
  intro ts1
  induction ts1 with
  | nil => intro ts2 s0; rfl
  | cons t ts1 ih =>
      intro ts2 s0
      simp only [List.cons_append, procTables]
      cases processAlgoA s0 t with
      | none => rfl
      | some s' => simp [ih]

theorem foldAlgos_char : ∀ (algos : AlgoTable) (ft ft' : Table SeriesData),
    algos.foldlM algoStep ft = some ft' →
    ∀ a, procTables (getA ft a) (tablesInAlgos algos a) = some (getA ft' a) := by
  intro algos
  induction algos with
  | nil =>
      intro ft ft' h a
      simp only [List.foldlM_nil] at h
      cases h
      rfl
  | cons al algos ih =>
      intro ft ft' h a
      rw [List.foldlM_cons] at h
      cases hstep : algoStep ft al with
      | none => rw [hstep] at h; simp at h
      | some ft1 =>
          rw [hstep] at h
          simp only [Option.bind_eq_bind, Option.some_bind] at h
          rw [algoStep] at hstep
          cases hpa : processAlgoA (getA ft al.1) al.2 with
          | none => rw [hpa] at hstep; simp at hstep
          | some s' =>
              rw [hpa] at hstep
              simp only [Option.bind_eq_bind, Option.some_bind, Option.pure_def, Option.some_inj] at hstep
              by_cases ha : al.1 = a
              · subst ha
                have htab : tablesInAlgos (al :: algos) al.1
                    = al.2 :: tablesInAlgos algos al.1 := by
                  simp [tablesInAlgos]
                rw [htab, procTables, hpa, Option.some_bind]
                have h2 := ih ft1 ft' h al.1
                rw [← hstep, getA_setA_self] at h2
                exact h2
              · have htab : tablesInAlgos (al :: algos) a = tablesInAlgos algos a := by
                  simp [tablesInAlgos, ha]
                rw [htab]
                have h2 := ih ft1 ft' h a
                rw [← hstep, getA_setA_ne _ _ _ _ (Ne.symm ha)] at h2
                exact h2

theorem processFileA_char (res res' : Table (Table SeriesData)) (fn : String)
    (algos : AlgoTable) (h : processFileA res fn algos = some res') :
    ∀ f a, procTables (getA2 res f a) (if fn = f then tablesInAlgos algos a else [])
      = some (getA2 res' f a) := by
  intro f a
  rw [processFileA] at h
  cases hfold : algos.foldlM algoStep ((getA res fn).getD []) with
  | none => rw [hfold] at h; simp at h
  | some ftab =>
      rw [hfold] at h
      simp only [Option.bind_eq_bind, Option.some_bind, Option.pure_def, Option.some_inj] at h
      by_cases hf : fn = f
      · subst hf
        rw [if_pos rfl]
        have h2 := foldAlgos_char algos _ ftab hfold a
        rw [getA_getD_empty] at h2
        have h3 : getA2 (setA res fn ftab) fn a = getA ftab a := by
          rw [getA2, getA_setA_self]
          rfl
        rw [← h, h3]
        exact h2
      · rw [if_neg hf]
        have h3 : getA2 (setA res fn ftab) f a = getA2 res f a := by
          rw [getA2, getA_setA_ne _ _ _ _ (Ne.symm hf), getA2]
        rw [← h, h3]
        rfl

theorem tablesInEntry_cons (fd : String × AlgoTable) (entry : Entry) (f a : String) :
    tablesInEntry (fd :: entry) f a
      = (if fd.1 = f then tablesInAlgos fd.2 a else []) ++ tablesInEntry entry f a := rfl

theorem entryFold_char : ∀ (entry : Entry) (res res' : Table (Table SeriesData)),
    entryFoldA res entry = some res' →
    ∀ f a, procTables (getA2 res f a) (tablesInEntry entry f a) = some (getA2 res' f a) := by
  intro entry
  induction entry with
  | nil =>
      intro res res' h f a
      rw [entryFoldA, List.foldlM_nil] at h
      cases h
      rfl
  | cons fd entry ih =>
      intro res res' h f a
      rw [entryFoldA, List.foldlM_cons] at h
      cases hfile : processFileA res fd.1 fd.2 with
      | none => rw [hfile] at h; simp at h
      | some res1 =>
          rw [hfile] at h
          simp only [Option.bind_eq_bind, Option.some_bind] at h
          rw [tablesInEntry_cons, procTables_append,
            processFileA_char res res1 fd.1 fd.2 hfile f a, Option.some_bind]
          exact ih res1 res' h f a

theorem levelTablesFor_cons (entry : Entry) (input : InputDoc) (f a : String) :
    levelTablesFor (entry :: input) f a
      = tablesInEntry entry f a ++ levelTablesFor input f a := rfl

theorem extractRawGo_char : ∀ (input : InputDoc) (res0 res : Table (Table SeriesData)),
    input.foldlM entryFoldA res0 = some res →
    ∀ f a, procTables (getA2 res0 f a) (levelTablesFor input f a) = some (getA2 res f a) := by
  intro input
  induction input with
  | nil =>
      intro res0 res h f a
      simp only [List.foldlM_nil] at h
      cases h
      rfl
  | cons entry input ih =>
      intro res0 res h f a
      rw [List.foldlM_cons] at h
      cases hentry : entryFoldA res0 entry with
      | none => rw [hentry] at h; simp at h
      | some res1 =>
          rw [hentry] at h
          simp only [Option.bind_eq_bind, Option.some_bind] at h
          rw [levelTablesFor_cons, procTables_append,
            entryFold_char entry res0 res1 hentry f a, Option.some_bind]
          exact ih res1 res h f a

/-- Master characterization: after a successful `extractRaw`, the series
stored for `(f, a)` is exactly the replay of its occurrence list. -/
theorem extractRaw_char (input : InputDoc) (res : Table (Table SeriesData))
    (h : extractRaw input = some res) (f a : String) :
    procTables none (levelTablesFor input f a) = some (getA2 res f a) := by
  have h2 := extractRawGo_char input [] res h f a
  simpa [getA2, getA] using h2

/-! ## Per-series content lemmas -/

theorem processLevels_map : ∀ (lvls : LevelTable) (s : SeriesData),
    processLevels s lvls
      = (lvls.mapM (fun lm => parseRecordA lm.1 lm.2)).map (fun recs => recs.foldl appendRec s) := by
  intro lvls
  induction lvls with
  | nil => intro s; rfl
  | cons lm rest ih =>
      intro s
      obtain ⟨lvl, m⟩ := lm
      rw [processLevels, List.mapM_cons]
      cases hp : parseRecordA lvl m with
      | none => rfl
      | some r =>
          simp only [Option.bind_eq_bind, Option.some_bind, ih]
          cases hr : rest.mapM (fun lm => parseRecordA lm.1 lm.2) with
          | none => rfl
          | some recs => simp

theorem foldl_appendRec_eq : ∀ (recs : List RecordA) (s : SeriesData),
    recs.foldl appendRec s =
      ⟨s.compression_levels ++ recs.map (fun r => r.level),
       s.compression_ratios ++ recs.map (fun r => r.ratioVal),
       s.compressed_percentage ++ recs.map (fun r => r.pct),
       s.compression_time ++ recs.map (fun r => r.ctime),
       s.decompression_time ++ recs.map (fun r => r.dtime),
       s.original_size,
       s.compressed_size ++ recs.map (fun r => r.csize),
       s.memory_usage ++ recs.map (fun r => r.mem)⟩ := by
  intro recs
  induction recs with
  | nil => intro s; cases s; simp
  | cons r recs ih =>
      intro s
      rw [List.foldl_cons, ih]
      simp [appendRec]

theorem processLevels_orig (lvls : LevelTable) (s s' : SeriesData)
    (h : processLevels s lvls = some s') : s'.original_size = s.original_size := by
  rw [processLevels_map] at h
  cases hm : lvls.mapM (fun lm => parseRecordA lm.1 lm.2) with
  | none => rw [hm] at h; simp at h
  | some recs =>
      rw [hm] at h
      simp only [Option.map_some', Option.some_inj] at h
      rw [← h, foldl_appendRec_eq]

theorem processAlgoA_some_isSome (s : SeriesData) (hs : s.original_size.isSome)
    (lvls : LevelTable) : processAlgoA (some s) lvls = processLevels s lvls := by
  rw [processAlgoA]
  have : s.original_size.isNone = false := by
    cases hv : s.original_size
    · rw [hv] at hs; simp at hs
    · rfl
  simp [this]

theorem processAlgoA_none_char (lvls : LevelTable) (s' : SeriesData)
    (h : processAlgoA none lvls = some s') :
    ∃ fl, lvls.head? = some fl ∧
      processLevels { emptySeries with original_size := some fl.2.compression.originalSize }
        lvls = some s' := by
  rw [processAlgoA] at h
  cases hh : lvls.head? with
  | none => simp [hh, emptySeries] at h
  | some fl =>
      refine ⟨fl, rfl, ?_⟩
      simp only [Option.getD_none, hh, emptySeries] at h
      simp [emptySeries] at h
      convert h using 2

theorem procTables_orig_keep : ∀ (tables : List LevelTable) (s s' : SeriesData),
    procTables (some s) tables = some (some s') → s.original_size.isSome →
    s'.original_size = s.original_size := by
  intro tables
  induction tables with
  | nil =>
      intro s s' h _
      simp only [procTables, Option.some_inj] at h
      rw [← h]
  | cons t ts ih =>
      intro s s' h hs
      rw [procTables] at h
      cases hpa : processAlgoA (some s) t with
      | none => rw [hpa] at h; simp at h
      | some s1 =>
          rw [hpa] at h
          simp only [Option.some_bind] at h
          rw [processAlgoA_some_isSome s hs t] at hpa
          have horig : s1.original_size = s.original_size := processLevels_orig t s s1 hpa
          have h1 := ih s1 s' h (by rw [horig]; exact hs)
          rw [h1, horig]

theorem procTables_none_orig : ∀ (tables : List LevelTable) (s' : SeriesData),
    procTables none tables = some (some s') →
    s'.original_size = (tables.head?.bind (fun t => t.head?)).map
      (fun fl => fl.2.compression.originalSize) := by
  intro tables s' h
  cases tables with
  | nil => simp only [procTables, Option.some_inj] at h; exact absurd h (by simp)
  | cons t ts =>
      rw [procTables] at h
      cases hpa : processAlgoA none t with
      | none => rw [hpa] at h; simp at h
      | some s1 =>
          rw [hpa] at h
          simp only [Option.some_bind] at h
          obtain ⟨fl, hfl, hpl⟩ := processAlgoA_none_char t s1 hpa
          have h1 : s1.original_size = some fl.2.compression.originalSize := by
            rw [processLevels_orig _ _ _ hpl]
          have h2 := procTables_orig_keep ts s1 s' h (by rw [h1]; rfl)
          rw [h2, h1]
          simp [List.head?_cons, hfl]

/-! ## Length lemmas -/

theorem foldl_appendRec_lens (recs : List RecordA) (s : SeriesData) :
    lensOf (recs.foldl appendRec s) = (lensOf s).map (· + recs.length) := by
  rw [foldl_appendRec_eq]
  simp [lensOf]

theorem mapM_length_option {α β : Type} (f : α → Option β) :
    ∀ (l : List α) (l2 : List β), l.mapM f = some l2 → l2.length = l.length := by
  intro l
  induction l with
  | nil =>
      intro l2 h
      simp only [List.mapM_nil, Option.pure_def, Option.some_inj] at h
      rw [← h]
      rfl
  | cons a l ih =>
      intro l2 h
      rw [List.mapM_cons] at h
      cases hf : f a with
      | none => rw [hf] at h; simp at h
      | some b =>
          rw [hf] at h
          cases hm : l.mapM f with
          | none => rw [hm] at h; simp at h
          | some rest =>
              rw [hm] at h
              simp only [Option.bind_eq_bind, Option.some_bind, Option.pure_def,
                Option.map_some', Option.some_inj] at h
              rw [← h]
              simp [ih rest hm]

theorem processLevels_lens (lvls : LevelTable) (s s' : SeriesData)
    (h : processLevels s lvls = some s') :
    lensOf s' = (lensOf s).map (· + lvls.length) := by
  rw [processLevels_map] at h
  cases hm : lvls.mapM (fun lm => parseRecordA lm.1 lm.2) with
  | none => rw [hm] at h; simp at h
  | some recs =>
      rw [hm] at h
      simp only [Option.map_some', Option.some_inj] at h
      have hlen : recs.length = lvls.length := mapM_length_option _ lvls recs hm
      rw [← h, foldl_appendRec_lens, hlen]

theorem lensOf_set_orig (s : SeriesData) (v : Option Int) :
    lensOf { s with original_size := v } = lensOf s := rfl

theorem processAlgoA_lens (s0 : Option SeriesData) (lvls : LevelTable) (s' : SeriesData)
    (h : processAlgoA s0 lvls = some s') :
    lensOf s' = (lensOf (s0.getD emptySeries)).map (· + lvls.length) := by
  rw [processAlgoA] at h
  cases ho : (s0.getD emptySeries).original_size.isNone with
  | true =>
      simp only [ho, if_true] at h
      cases hh : lvls.head? with
      | none => simp [hh] at h
      | some fl =>
          simp only [hh, Option.bind_eq_bind, Option.some_bind, Option.pure_def] at h
          have h2 := processLevels_lens lvls _ s' h
          rw [h2, lensOf_set_orig]
  | false =>
      simp only [ho, Bool.false_eq_true, if_false, Option.bind_eq_bind, Option.some_bind,
        Option.pure_def] at h
      exact processLevels_lens lvls _ s' h

theorem procTables_lens : ∀ (tables : List LevelTable) (s0 : Option SeriesData)
    (s' : SeriesData), procTables s0 tables = some (some s') →
    lensOf s' = (lensOf (s0.getD emptySeries)).map (· + (tables.map List.length).sum) := by
  intro tables
  induction tables with
  | nil =>
      intro s0 s' h
      simp only [procTables, Option.some_inj] at h
      rw [h]
      simp
  | cons t ts ih =>
      intro s0 s' h
      rw [procTables] at h
      cases hpa : processAlgoA s0 t with
      | none => rw [hpa] at h; simp at h
      | some s1 =>
          rw [hpa] at h
          simp only [Option.some_bind] at h
          have h1 := ih (some s1) s' h
          have h2 := processAlgoA_lens s0 t s1 hpa
          rw [h1]
          simp only [Option.getD_some]
          rw [h2, List.map_map]
          have hfun : ((fun x => x + (ts.map List.length).sum) ∘ (fun x => x + t.length))
              = (fun x => x + ((t :: ts).map List.length).sum) := by
            funext x
            simp [Function.comp, List.sum_cons]
            omega
          rw [hfun]

/-! ## Permutation facts about the argsort machinery

Every mutation of the index list is a swap or a segment rewrite by a
permutation, so every intermediate list — with any fuel — is a
permutation of the initial `range n`. -/

theorem cons_set_perm : ∀ (t : List Nat) (m a : Nat), m < t.length →
    List.Perm (t.getD m 0 :: t.set m a) (a :: t) := by
  intro t
  induction t with
  | nil => intro m a h; exact absurd h (by simp)
  | cons b t ih =>
      intro m a h
      cases m with
      | zero => exact List.Perm.swap a b t
      | succ k =>
          have hk : k < t.length := by simpa using h
          simp only [List.getD_cons_succ, List.set_cons_succ]
          have h1 : List.Perm (t.getD k 0 :: b :: t.set k a) (b :: t.getD k 0 :: t.set k a) :=
            List.Perm.swap _ _ _
          have h2 : List.Perm (b :: t.getD k 0 :: t.set k a) (b :: a :: t) :=
            (ih k a hk).cons b
          have h3 : List.Perm (b :: a :: t) (a :: b :: t) := List.Perm.swap _ _ _
          exact (h1.trans h2).trans h3

theorem swapList_perm : ∀ (t : List Nat) (i j : Nat), List.Perm (swapList t i j) t := by
  intro t i j
  rw [swapList]
  split
  case isFalse => exact List.Perm.refl t
  case isTrue hb =>
    rw [Bool.and_eq_true, decide_eq_true_eq, decide_eq_true_eq] at hb
    obtain ⟨hi, hj⟩ := hb
    induction t generalizing i j with
    | nil => simp at hi
    | cons a t ih =>
        cases i with
        | zero =>
            cases j with
            | zero => simp
            | succ j =>
                have hj' : j < t.length := by simpa using hj
                simp only [List.getD_cons_zero, List.getD_cons_succ, List.set_cons_zero,
                  List.set_cons_succ]
                exact cons_set_perm t j a hj'
        | succ i =>
            cases j with
            | zero =>
                have hi' : i < t.length := by simpa using hi
                simp only [List.getD_cons_zero, List.getD_cons_succ, List.set_cons_zero,
                  List.set_cons_succ]
                exact cons_set_perm t i a hi'
            | succ j =>
                have hi' : i < t.length := by simpa using hi
                have hj' : j < t.length := by simpa using hj
                simp only [List.getD_cons_succ, List.set_cons_succ]
                exact (ih i j hi' hj').cons a

theorem iteSwap_perm (c : Prop) [Decidable c] (t : List Nat) (i j : Nat) :
    List.Perm (if c then swapList t i j else t) t := by
  split
  · exact swapList_perm t i j
  · exact List.Perm.refl t

theorem insertAfterEq_perm (lt : Nat → Nat → Bool) (i : Nat) :
    ∀ (l : List Nat), List.Perm (insertAfterEq lt i l) (i :: l) := by
  intro l
  induction l with
  | nil => exact List.Perm.refl _
  | cons j rest ih =>
      rw [insertAfterEq]
      split
      · exact List.Perm.refl _
      · exact (ih.cons j).trans (List.Perm.swap _ _ _)

theorem insertionFold_perm (lt : Nat → Nat → Bool) :
    ∀ (l acc : List Nat),
      List.Perm (l.foldl (fun acc i => insertAfterEq lt i acc) acc) (acc ++ l) := by
  intro l
  induction l with
  | nil => intro acc; simp
  | cons i l ih =>
      intro acc
      simp only [List.foldl_cons]
      refine (ih (insertAfterEq lt i acc)).trans ?_
      refine (((insertAfterEq_perm lt i acc).append_right l).trans ?_)
      exact List.perm_middle.symm

theorem insertionArgsort_perm (lt : Nat → Nat → Bool) (l : List Nat) :
    List.Perm (insertionArgsort lt l) l := by
  simpa using insertionFold_perm lt l []

theorem insSortSeg_perm (lt : Nat → Nat → Bool) (t : List Nat) (pl pr : Nat) :
    List.Perm (insSortSeg lt t pl pr) t := by
  rw [insSortSeg, List.append_assoc]
  have hperm : List.Perm
      (t.take pl ++ (insertionArgsort lt ((t.drop pl).take (pr + 1 - pl))
        ++ (t.drop pl).drop (pr + 1 - pl)))
      (t.take pl ++ ((t.drop pl).take (pr + 1 - pl) ++ (t.drop pl).drop (pr + 1 - pl))) :=
    ((insertionArgsort_perm lt _).append_right _).append_left _
  refine hperm.trans ?_
  rw [List.take_append_drop, List.take_append_drop]

theorem siftDown_perm (lt : Nat → Nat → Bool) (pl : Nat) :
    ∀ (fu : Nat) (t : List Nat) (nseg i : Nat), List.Perm (siftDown lt pl fu t nseg i) t := by
  intro fu
  induction fu with
  | zero => intro t nseg i; exact List.Perm.refl t
  | succ fu ih =>
      intro t nseg i
      rw [siftDown]
      dsimp only
      repeat' split
      all_goals first
        | exact (ih _ _ _).trans (swapList_perm _ _ _)
        | exact List.Perm.refl t

theorem foldl_perm_invariant (f : List Nat → Nat → List Nat)
    (hf : ∀ t x, List.Perm (f t x) t) :
    ∀ (l : List Nat) (t : List Nat), List.Perm (l.foldl f t) t := by
  intro l
  induction l with
  | nil => intro t; exact List.Perm.refl t
  | cons x l ih =>
      intro t
      simp only [List.foldl_cons]
      exact (ih (f t x)).trans (hf t x)

theorem heapify_perm (lt : Nat → Nat → Bool) (pl : Nat) (t : List Nat) (nseg : Nat) :
    List.Perm (heapify lt pl t nseg) t := by
  rw [heapify]
  exact foldl_perm_invariant _ (fun t x => siftDown_perm lt pl _ t _ _) _ t

theorem heapExtract_perm (lt : Nat → Nat → Bool) (pl : Nat) :
    ∀ (fu : Nat) (t : List Nat) (n : Nat), List.Perm (heapExtract lt pl fu t n) t := by
  intro fu
  induction fu with
  | zero => intro t n; exact List.Perm.refl t
  | succ fu ih =>
      intro t n
      rw [heapExtract]
      split
      · exact List.Perm.refl t
      · exact ((ih _ _).trans (siftDown_perm lt pl _ _ _ _)).trans (swapList_perm _ _ _)

theorem heapsortSeg_perm (lt : Nat → Nat → Bool) (t : List Nat) (pl pr : Nat) :
    List.Perm (heapsortSeg lt t pl pr) t := by
  rw [heapsortSeg]
  exact (heapExtract_perm lt pl _ _ _).trans (heapify_perm lt pl t _)

theorem partitionLoop_perm (lt : Nat → Nat → Bool) (vi : Nat) :
    ∀ (fu : Nat) (t : List Nat) (pi pj : Nat),
      List.Perm (partitionLoop lt vi fu t pi pj).1 t := by
  intro fu
  induction fu with
  | zero => intro t pi pj; exact List.Perm.refl t
  | succ fu ih =>
      intro t pi pj
      rw [partitionLoop]
      split
      · exact List.Perm.refl t
      · exact (ih _ _ _).trans (swapList_perm _ _ _)

theorem partitionStep_perm (lt : Nat → Nat → Bool) (t : List Nat) (pl pr : Nat) :
    List.Perm (partitionStep lt t pl pr).1 t := by
  rw [partitionStep]
  refine (swapList_perm _ _ _).trans ?_
  refine (partitionLoop_perm lt _ _ _ _ _).trans ?_
  refine (swapList_perm _ _ _).trans ?_
  refine (iteSwap_perm _ _ _ _).trans ?_
  refine (iteSwap_perm _ _ _ _).trans ?_
  exact iteSwap_perm _ _ _ _

theorem argsortLoop_perm (lt : Nat → Nat → Bool) :
    ∀ (fuel : Nat) (t : List Nat) (stack : List (Nat × Nat)) (pl pr : Nat) (depth : Int),
      List.Perm (argsortLoop lt fuel t stack pl pr depth) t := by
  intro fuel
  induction fuel with
  | zero => intro t stack pl pr depth; exact List.Perm.refl t
  | succ fuel ih =>
      intro t stack pl pr depth
      rw [argsortLoop]
      dsimp only
      repeat' split
      all_goals first
        | exact heapsortSeg_perm lt t pl pr
        | exact insSortSeg_perm lt t pl pr
        | exact (ih _ _ _ _ _).trans (heapsortSeg_perm lt t pl pr)
        | exact (ih _ _ _ _ _).trans (insSortSeg_perm lt t pl pr)
        | exact (ih _ _ _ _ _).trans (partitionStep_perm lt t pl pr)

theorem argsortCore_perm (lt : Nat → Nat → Bool) (n : Nat) :
    List.Perm (argsortCore lt n) (List.range n) :=
  argsortLoop_perm lt _ _ _ _ _ _

theorem argsortCore_length (lt : Nat → Nat → Bool) (n : Nat) :
    (argsortCore lt n).length = n := by
  have h := (argsortCore_perm lt n).length_eq
  simpa using h

theorem argsortCore_mem_lt (lt : Nat → Nat → Bool) (n : Nat) :
    ∀ x ∈ argsortCore lt n, x < n := by
  intro x hx
  have : x ∈ List.range n := (argsortCore_perm lt n).mem_iff.mp hx
  simpa using this

/-! ## The small-array path of `aquicksort_` and its stability

For at most 16 elements (`pr - pl ≤ 15`), the introsort loop performs a
single insertion sort over the whole identity index array, which is
stable; this is the only regime in which numpy's argsort is stable. -/

theorem argsortLoop_small (lt : Nat → Nat → Bool) (fuel : Nat) (t : List Nat)
    (pl pr : Nat) (depth : Int) (h : ¬ 15 < pr - pl) :
    argsortLoop lt (fuel + 1) t [] pl pr depth = insSortSeg lt t pl pr := by
  rw [argsortLoop, if_neg h]

theorem argsortCore_small (lt : Nat → Nat → Bool) (n : Nat) (h : n ≤ 16) :
    argsortCore lt n = insertionArgsort lt (List.range n) := by
  rw [argsortCore]
  have hc : ¬ 15 < (n - 1) - 0 := by omega
  have hfe : 2 * n + 4 = (2 * n + 3) + 1 := rfl
  rw [hfe, argsortLoop_small lt (2 * n + 3) (List.range n) 0 (n - 1) _ hc]
  rw [insSortSeg]
  have h1 : (List.range n).take (n - 1 + 1 - 0) = List.range n := by
    apply List.take_of_length_le
    simp
    omega
  have h2 : (List.range n).drop (n - 1 + 1 - 0) = [] := by
    apply List.drop_eq_nil_of_le
    simp
    omega
  simp only [List.drop_zero, List.take_zero, h1, h2, List.append_nil, List.nil_append]

theorem insertAfterEq_pairwise (keys : List Rat) (i : Nat) :
    ∀ (acc : List Nat), acc.Pairwise (lexLtKeys keys) → (∀ j ∈ acc, j < i) →
    (insertAfterEq (fun a b => decide (keys.getD a 0 < keys.getD b 0)) i acc).Pairwise
      (lexLtKeys keys) := by
  intro acc
  induction acc with
  | nil => intro _ _; simp [insertAfterEq]
  | cons j rest ih =>
      intro hacc hlt
      rw [insertAfterEq]
      split
      case isTrue hd =>
          have hij : keys.getD i 0 < keys.getD j 0 := of_decide_eq_true hd
          rw [List.pairwise_cons]
          refine ⟨?_, hacc⟩
          intro x hx
          rcases List.mem_cons.mp hx with hxj | hxr
          · rw [hxj]; exact Or.inl hij
          · have hjx := (List.pairwise_cons.mp hacc).1 x hxr
            left
            rcases hjx with h1 | ⟨h1, _⟩
            · exact lt_trans hij h1
            · exact h1 ▸ hij
      case isFalse hd =>
          have hij : ¬ keys.getD i 0 < keys.getD j 0 := by simpa using hd
          obtain ⟨hjall, hrest⟩ := List.pairwise_cons.mp hacc
          rw [List.pairwise_cons]
          constructor
          · intro x hx
            have hx2 := (insertAfterEq_perm _ i rest).mem_iff.mp hx
            rcases List.mem_cons.mp hx2 with hxi | hxr
            · rw [hxi]
              rcases lt_or_eq_of_le (le_of_not_lt hij) with h1 | h1
              · exact Or.inl h1
              · exact Or.inr ⟨h1, hlt j (by simp)⟩
            · exact hjall x hxr
          · exact ih hrest (fun k hk => hlt k (List.mem_cons_of_mem _ hk))

theorem insertionFold_pairwise (keys : List Rat) :
    ∀ (l acc : List Nat), acc.Pairwise (lexLtKeys keys) →
      (∀ j ∈ acc, ∀ x ∈ l, j < x) → l.Pairwise (· < ·) →
      (l.foldl (fun acc i =>
        insertAfterEq (fun a b => decide (keys.getD a 0 < keys.getD b 0)) i acc) acc).Pairwise
        (lexLtKeys keys) := by
  intro l
  induction l with
  | nil => intro acc h _ _; simpa using h
  | cons i l ih =>
      intro acc hacc hsep hl
      simp only [List.foldl_cons]
      apply ih
      · exact insertAfterEq_pairwise keys i acc hacc (fun j hj => hsep j hj i (by simp))
      · intro j hj x hx
        have hj2 := (insertAfterEq_perm _ i acc).mem_iff.mp hj
        rcases List.mem_cons.mp hj2 with hji | hja
        · rw [hji]; exact (List.pairwise_cons.mp hl).1 x hx
        · exact hsep j hja x (List.mem_cons_of_mem _ hx)
      · exact (List.pairwise_cons.mp hl).2

theorem argsortRat_small_pairwise (keys : List Rat) (h : keys.length ≤ 16) :
    (argsortRat keys).Pairwise (lexLtKeys keys) := by
  rw [argsortRat, argsortCore_small _ _ h, insertionArgsort]
  apply insertionFold_pairwise keys (List.range keys.length) []
  · exact List.Pairwise.nil
  · intro j hj
    simp at hj
  · exact List.pairwise_lt_range _

theorem applyPerm_sorted (keys : List Rat) (idx : List Nat)
    (hp : idx.Pairwise (lexLtKeys keys)) :
    (applyPerm idx keys 0).Pairwise (· ≤ ·) := by
  rw [applyPerm, List.pairwise_map]
  apply hp.imp
  intro a b hab
  rcases hab with h1 | ⟨h1, _⟩
  · exact le_of_lt h1
  · exact le_of_eq h1

theorem keyLtF_true {f : Nat → Rat} {a b : Nat} : keyLtF f a b = true ↔ f a < f b := by
  simp [keyLtF]

theorem keyLtF_not {f : Nat → Rat} {a b : Nat} : ¬ keyLtF f a b = true ↔ f b ≤ f a := by
  simp [keyLtF, not_lt]

theorem swapList_length (t : List Nat) (i j : Nat) : (swapList t i j).length = t.length := by
  rw [swapList]; split <;> simp

theorem getD_swapList_fst (t : List Nat) (i j : Nat) (hi : i < t.length) (hj : j < t.length) :
    (swapList t i j).getD i 0 = t.getD j 0 := by
  rw [swapList, if_pos (by simp [hi, hj])]
  simp only [List.getD_eq_getElem?_getD]
  by_cases hij : j = i
  · subst hij
    rw [List.getElem?_set_self (by simpa using hj)]
    rfl
  · rw [List.getElem?_set_ne hij, List.getElem?_set_self hi]
    rfl

theorem getD_swapList_snd (t : List Nat) (i j : Nat) (hi : i < t.length) (hj : j < t.length) :
    (swapList t i j).getD j 0 = t.getD i 0 := by
  rw [swapList, if_pos (by simp [hi, hj])]
  simp only [List.getD_eq_getElem?_getD]
  rw [List.getElem?_set_self (by simpa using hj)]
  rfl

theorem getD_swapList_other (t : List Nat) (i j p : Nat) (hpi : p ≠ i) (hpj : p ≠ j) :
    (swapList t i j).getD p 0 = t.getD p 0 := by
  rw [swapList]
  split
  · simp only [List.getD_eq_getElem?_getD]
    rw [List.getElem?_set_ne (Ne.symm hpj), List.getElem?_set_ne (Ne.symm hpi)]
  · rfl

theorem segOf_length (t : List Nat) (pl pr : Nat) (hpr : pr < t.length) :
    (segOf t pl pr).length = pr + 1 - pl := by
  rw [segOf]
  simp only [List.length_take, List.length_drop]
  omega

theorem segOf_getD (t : List Nat) (pl pr k : Nat) (hk : k < pr + 1 - pl) :
    (segOf t pl pr).getD k 0 = t.getD (pl + k) 0 := by
  rw [segOf]
  simp only [List.getD_eq_getElem?_getD, List.getElem?_take, if_pos hk, List.getElem?_drop]

theorem seg_decomp (t : List Nat) (pl pr : Nat) (hpl : pl ≤ pr + 1) :
    t = t.take pl ++ segOf t pl pr ++ t.drop (pr + 1) := by
  rw [segOf, List.append_assoc]
  conv_lhs => rw [← List.take_append_drop pl t]
  congr 1
  conv_lhs => rw [← List.take_append_drop (pr + 1 - pl) (t.drop pl)]
  congr 1
  rw [List.drop_drop]
  congr 1
  omega

theorem getD_middle (pre mid suf : List Nat) (p : Nat) (h1 : pre.length ≤ p)
    (h2 : p - pre.length < mid.length) :
    (pre ++ mid ++ suf).getD p 0 = mid.getD (p - pre.length) 0 := by
  rw [List.append_assoc]
  simp only [List.getD_eq_getElem?_getD]
  rw [List.getElem?_append_right h1, List.getElem?_append, if_pos h2]

theorem getD_outside_left (pre mid suf : List Nat) (p : Nat) (h : p < pre.length) :
    (pre ++ mid ++ suf).getD p 0 = pre.getD p 0 := by
  simp only [List.getD_eq_getElem?_getD]
  rw [List.getElem?_append, if_pos (by rw [List.length_append]; omega)]
  rw [List.getElem?_append, if_pos h]

theorem getD_outside_right (pre mid suf : List Nat) (p : Nat)
    (h : pre.length + mid.length ≤ p) :
    (pre ++ mid ++ suf).getD p 0 = suf.getD (p - pre.length - mid.length) 0 := by
  rw [List.append_assoc]
  simp only [List.getD_eq_getElem?_getD]
  rw [List.getElem?_append_right (by omega), List.getElem?_append_right (by omega)]

theorem take_eq_of_outside (t t' : List Nat) (pl : Nat)
    (hlen : t'.length = t.length) (hple : pl ≤ t.length)
    (hout : ∀ p, p < t.length → p < pl → t'.getD p 0 = t.getD p 0) :
    t'.take pl = t.take pl := by
  apply List.ext_getElem
  · rw [List.length_take, List.length_take, hlen]
  · intro k hk1 hk2
    have hkpl : k < pl := by
      rw [List.length_take] at hk1
      omega
    have hkt : k < t.length := by omega
    have h1 : (t'.take pl)[k] = t'.getD k 0 := by
      rw [List.getD_eq_getElem?_getD, List.getElem?_eq_getElem (by omega)]
      rw [List.getElem_take]
      rfl
    have h2 : (t.take pl)[k] = t.getD k 0 := by
      rw [List.getD_eq_getElem?_getD, List.getElem?_eq_getElem (by omega)]
      rw [List.getElem_take]
      rfl
    rw [h1, h2]
    exact hout k hkt hkpl

theorem drop_eq_of_outside (t t' : List Nat) (pr : Nat)
    (hlen : t'.length = t.length)
    (hout : ∀ p, p < t.length → pr < p → t'.getD p 0 = t.getD p 0) :
    t'.drop (pr + 1) = t.drop (pr + 1) := by
  apply List.ext_getElem
  · rw [List.length_drop, List.length_drop, hlen]
  · intro k hk1 hk2
    have hkt : pr + 1 + k < t.length := by
      rw [List.length_drop] at hk2
      omega
    have h1 : (t'.drop (pr + 1))[k] = t'.getD (pr + 1 + k) 0 := by
      rw [List.getD_eq_getElem?_getD, ← List.getElem?_drop, List.getElem?_eq_getElem hk1]
      rfl
    have h2 : (t.drop (pr + 1))[k] = t.getD (pr + 1 + k) 0 := by
      rw [List.getD_eq_getElem?_getD, ← List.getElem?_drop, List.getElem?_eq_getElem hk2]
      rfl
    rw [h1, h2]
    exact hout (pr + 1 + k) hkt (by omega)

/-- Permutation confined to a segment: the outside parts are pointwise
untouched and the whole list is a permutation, so the in-segment parts
are permutations of each other. -/
theorem segOf_perm (t t' : List Nat) (pl pr : Nat)
    (hperm : t'.Perm t)
    (hout : ∀ p, p < t.length → p < pl ∨ pr < p → t'.getD p 0 = t.getD p 0)
    (hpl : pl ≤ pr) (hpr : pr < t.length) :
    (segOf t' pl pr).Perm (segOf t pl pr) := by
  have hlen : t'.length = t.length := hperm.length_eq
  have hd1 : t' = t'.take pl ++ segOf t' pl pr ++ t'.drop (pr + 1) :=
    seg_decomp t' pl pr (by omega)
  have hd2 : t = t.take pl ++ segOf t pl pr ++ t.drop (pr + 1) :=
    seg_decomp t pl pr (by omega)
  have htake : t'.take pl = t.take pl :=
    take_eq_of_outside t t' pl hlen (by omega) (fun p h1 h2 => hout p h1 (Or.inl h2))
  have hdrop : t'.drop (pr + 1) = t.drop (pr + 1) :=
    drop_eq_of_outside t t' pr hlen (fun p h1 h2 => hout p h1 (Or.inr h2))
  have e1 : t.take pl ++ segOf t' pl pr ++ t.drop (pr + 1) = t' := by
    rw [← htake, ← hdrop]
    exact hd1.symm
  have e2 : t.take pl ++ segOf t pl pr ++ t.drop (pr + 1) = t := hd2.symm
  have hp2 : (t.take pl ++ segOf t' pl pr ++ t.drop (pr + 1)).Perm
      (t.take pl ++ segOf t pl pr ++ t.drop (pr + 1)) := by
    rw [e1, e2]
    exact hperm
  rw [List.append_assoc, List.append_assoc] at hp2
  rw [List.perm_append_left_iff] at hp2
  rw [List.perm_append_right_iff] at hp2
  exact hp2

theorem seg_value_origin (t t' : List Nat) (pl pr : Nat)
    (hperm : t'.Perm t)
    (hout : ∀ p, p < t.length → p < pl ∨ pr < p → t'.getD p 0 = t.getD p 0)
    (hpl : pl ≤ pr) (hpr : pr < t.length) :
    ∀ p, pl ≤ p → p ≤ pr → ∃ q, pl ≤ q ∧ q ≤ pr ∧ t'.getD p 0 = t.getD q 0 := by
  intro p hp1 hp2
  have hlen : t'.length = t.length := hperm.length_eq
  have hsp := segOf_perm t t' pl pr hperm hout hpl hpr
  have hmidlen : (segOf t' pl pr).length = pr + 1 - pl := segOf_length t' pl pr (by omega)
  have hv : t'.getD p 0 = (segOf t' pl pr).getD (p - pl) 0 := by
    rw [segOf_getD t' pl pr (p - pl) (by omega)]
    congr 1
    omega
  have hmem : (segOf t' pl pr).getD (p - pl) 0 ∈ segOf t' pl pr := by
    rw [List.getD_eq_getElem?_getD, List.getElem?_eq_getElem (by omega)]
    exact List.getElem_mem _
  have hmem2 : (segOf t' pl pr).getD (p - pl) 0 ∈ segOf t pl pr := hsp.mem_iff.mp hmem
  obtain ⟨k, hk, hkv⟩ := List.mem_iff_getElem.mp hmem2
  have hklen : k < pr + 1 - pl := by
    rw [segOf_length t pl pr hpr] at hk
    exact hk
  refine ⟨pl + k, by omega, by omega, ?_⟩
  rw [hv, ← segOf_getD t pl pr k hklen]
  rw [List.getD_eq_getElem?_getD (segOf t pl pr) k, List.getElem?_eq_getElem hk]
  exact hkv.symm

theorem insertAfterEq_sortedBy (f : Nat → Rat) (i : Nat) :
    ∀ acc : List Nat, acc.Pairwise (fun a b => f a ≤ f b) →
    (insertAfterEq (keyLtF f) i acc).Pairwise (fun a b => f a ≤ f b) := by
  intro acc
  induction acc with
  | nil => intro _; simp [insertAfterEq]
  | cons j rest ih =>
      intro hacc
      rw [insertAfterEq]
      split
      case isTrue hd =>
          have hij : f i < f j := keyLtF_true.mp hd
          rw [List.pairwise_cons]
          refine ⟨?_, hacc⟩
          intro x hx
          rcases List.mem_cons.mp hx with hxj | hxr
          · rw [hxj]; exact le_of_lt hij
          · exact le_trans (le_of_lt hij) ((List.pairwise_cons.mp hacc).1 x hxr)
      case isFalse hd =>
          have hji : f j ≤ f i := keyLtF_not.mp hd
          obtain ⟨hjall, hrest⟩ := List.pairwise_cons.mp hacc
          rw [List.pairwise_cons]
          refine ⟨?_, ih hrest⟩
          intro x hx
          have hx2 := (insertAfterEq_perm _ i rest).mem_iff.mp hx
          rcases List.mem_cons.mp hx2 with hxi | hxr
          · rw [hxi]; exact hji
          · exact hjall x hxr

theorem insertionArgsort_sortedBy (f : Nat → Rat) (l : List Nat) :
    (insertionArgsort (keyLtF f) l).Pairwise (fun a b => f a ≤ f b) := by
  rw [insertionArgsort]
  suffices h : ∀ acc, acc.Pairwise (fun a b => f a ≤ f b) →
      (l.foldl (fun acc i => insertAfterEq (keyLtF f) i acc) acc).Pairwise
        (fun a b => f a ≤ f b) by
    exact h [] List.Pairwise.nil
  induction l with
  | nil => intro acc h; simpa using h
  | cons i l ih => intro acc h; exact ih _ (insertAfterEq_sortedBy f i acc h)

theorem insSortSeg_eq (lt : Nat → Nat → Bool) (t : List Nat) (pl pr : Nat)
    (hpl : pl ≤ pr + 1) :
    insSortSeg lt t pl pr
      = t.take pl ++ insertionArgsort lt (segOf t pl pr) ++ t.drop (pr + 1) := by
  rw [insSortSeg, segOf]
  congr 1
  rw [List.drop_drop]
  congr 1
  omega

theorem insSortSeg_outside (lt : Nat → Nat → Bool) (t : List Nat) (pl pr : Nat)
    (hpl : pl ≤ pr) (hpr : pr < t.length) :
    ∀ p, p < t.length → p < pl ∨ pr < p → (insSortSeg lt t pl pr).getD p 0 = t.getD p 0 := by
  intro p hp hcase
  rw [insSortSeg_eq lt t pl pr (by omega)]
  have hpre : (t.take pl).length = pl := by
    rw [List.length_take]
    omega
  have hmid : (insertionArgsort lt (segOf t pl pr)).length = pr + 1 - pl := by
    rw [(insertionArgsort_perm lt (segOf t pl pr)).length_eq, segOf_length t pl pr hpr]
  rcases hcase with h1 | h1
  · rw [getD_outside_left _ _ _ p (by omega)]
    simp only [List.getD_eq_getElem?_getD, List.getElem?_take, if_pos h1]
  · rw [getD_outside_right _ _ _ p (by omega)]
    rw [List.getD_eq_getElem?_getD, List.getElem?_drop, List.getD_eq_getElem?_getD]
    congr 2
    rw [hpre, hmid]
    omega

theorem insSortSeg_sorted_seg (f : Nat → Rat) (t : List Nat) (pl pr : Nat)
    (hpl : pl ≤ pr) (hpr : pr < t.length) :
    ∀ p q, pl ≤ p → p < q → q ≤ pr →
      f ((insSortSeg (keyLtF f) t pl pr).getD p 0)
        ≤ f ((insSortSeg (keyLtF f) t pl pr).getD q 0) := by
  intro p q hp hpq hq
  rw [insSortSeg_eq _ t pl pr (by omega)]
  have hpre : (t.take pl).length = pl := by
    rw [List.length_take]
    omega
  have hmid : (insertionArgsort (keyLtF f) (segOf t pl pr)).length = pr + 1 - pl := by
    rw [(insertionArgsort_perm _ (segOf t pl pr)).length_eq, segOf_length t pl pr hpr]
  rw [getD_middle _ _ _ p (by omega) (by rw [hpre, hmid]; omega),
    getD_middle _ _ _ q (by omega) (by rw [hpre, hmid]; omega), hpre]
  have hsorted := insertionArgsort_sortedBy f (segOf t pl pr)
  rw [List.pairwise_iff_getElem] at hsorted
  have hb1 : p - pl < (insertionArgsort (keyLtF f) (segOf t pl pr)).length := by
    rw [hmid]; omega
  have hb2 : q - pl < (insertionArgsort (keyLtF f) (segOf t pl pr)).length := by
    rw [hmid]; omega
  have key := hsorted (p - pl) (q - pl) hb1 hb2 (by omega)
  have e1 : (insertionArgsort (keyLtF f) (segOf t pl pr)).getD (p - pl) 0
      = (insertionArgsort (keyLtF f) (segOf t pl pr)).get ⟨p - pl, hb1⟩ := by
    rw [List.getD_eq_getElem?_getD, List.getElem?_eq_getElem hb1]
    rfl
  have e2 : (insertionArgsort (keyLtF f) (segOf t pl pr)).getD (q - pl) 0
      = (insertionArgsort (keyLtF f) (segOf t pl pr)).get ⟨q - pl, hb2⟩ := by
    rw [List.getD_eq_getElem?_getD, List.getElem?_eq_getElem hb2]
    rfl
  rw [e1, e2]
  exact key

theorem scanUp_spec (f : Nat → Rat) (t : List Nat) (vi : Nat) :
    ∀ (fu i stop : Nat), i < stop → stop - i ≤ fu →
    ¬ f (t.getD stop 0) < f vi →
    i < scanUp (keyLtF f) t vi i fu ∧
    scanUp (keyLtF f) t vi i fu ≤ stop ∧
    ¬ f (t.getD (scanUp (keyLtF f) t vi i fu) 0) < f vi ∧
    (∀ p, i < p → p < scanUp (keyLtF f) t vi i fu → f (t.getD p 0) < f vi) := by
  intro fu
  induction fu with
  | zero => intro i stop h1 h2 _; omega
  | succ fu ih =>
      intro i stop h1 h2 hstop
      rw [scanUp]
      split
      case isTrue hd =>
          have hlt : f (t.getD (i + 1) 0) < f vi := keyLtF_true.mp hd
          have hne : i + 1 ≠ stop := by
            intro he
            rw [he] at hlt
            exact hstop hlt
          have h3 : i + 1 < stop := by omega
          obtain ⟨c1, c2, c3, c4⟩ := ih (i + 1) stop h3 (by omega) hstop
          refine ⟨by omega, c2, c3, ?_⟩
          intro p hp1 hp2
          by_cases hp : p = i + 1
          · rw [hp]
            exact hlt
          · exact c4 p (by omega) hp2
      case isFalse hd =>
          refine ⟨by omega, by omega, fun hc => absurd (keyLtF_true.mpr hc) hd, ?_⟩
          intro p hp1 hp2
          omega

theorem scanDown_spec (f : Nat → Rat) (t : List Nat) (vi : Nat) :
    ∀ (fu j stop : Nat), stop < j → j - stop ≤ fu →
    ¬ f vi < f (t.getD stop 0) →
    stop ≤ scanDown (keyLtF f) t vi j fu ∧
    scanDown (keyLtF f) t vi j fu < j ∧
    ¬ f vi < f (t.getD (scanDown (keyLtF f) t vi j fu) 0) ∧
    (∀ q, scanDown (keyLtF f) t vi j fu < q → q < j → f vi < f (t.getD q 0)) := by
  intro fu
  induction fu with
  | zero => intro j stop h1 h2 _; omega
  | succ fu ih =>
      intro j stop h1 h2 hstop
      rw [scanDown]
      split
      case isTrue hd =>
          have hlt : f vi < f (t.getD (j - 1) 0) := keyLtF_true.mp hd
          have hne : j - 1 ≠ stop := by
            intro he
            rw [he] at hlt
            exact hstop hlt
          have h3 : stop < j - 1 := by omega
          obtain ⟨c1, c2, c3, c4⟩ := ih (j - 1) stop h3 (by omega) hstop
          refine ⟨c1, by omega, c3, ?_⟩
          intro q hq1 hq2
          by_cases hq : q = j - 1
          · rw [hq]
            exact hlt
          · exact c4 q hq1 (by omega)
      case isFalse hd =>
          refine ⟨by omega, by omega, fun hc => absurd (keyLtF_true.mpr hc) hd, ?_⟩
          intro q hq1 hq2
          omega

theorem partitionLoop_spec (f : Nat → Rat) (vi : Nat) (pl pr : Nat) :
    ∀ (fu : Nat) (t : List Nat) (pi pj : Nat),
    pr < t.length →
    pl ≤ pi → pi < pj → pj ≤ pr - 1 → pl + 2 ≤ pr →
    pr - 1 - pi ≤ fu →
    (∀ p, pl ≤ p → p ≤ pi → ¬ f vi < f (t.getD p 0)) →
    (∀ q, pj ≤ q → q ≤ pr → ¬ f (t.getD q 0) < f vi) →
    t.getD (pr - 1) 0 = vi →
    pi + 1 ≤ (partitionLoop (keyLtF f) vi fu t pi pj).2 ∧
    (partitionLoop (keyLtF f) vi fu t pi pj).2 ≤ pr - 1 ∧
    (partitionLoop (keyLtF f) vi fu t pi pj).1.Perm t ∧
    (∀ p, p < t.length → p < pl ∨ pr < p →
      (partitionLoop (keyLtF f) vi fu t pi pj).1.getD p 0 = t.getD p 0) ∧
    (∀ p, pl ≤ p → p < (partitionLoop (keyLtF f) vi fu t pi pj).2 →
      ¬ f vi < f ((partitionLoop (keyLtF f) vi fu t pi pj).1.getD p 0)) ∧
    (∀ q, (partitionLoop (keyLtF f) vi fu t pi pj).2 ≤ q → q ≤ pr →
      ¬ f ((partitionLoop (keyLtF f) vi fu t pi pj).1.getD q 0) < f vi) ∧
    (partitionLoop (keyLtF f) vi fu t pi pj).1.getD (pr - 1) 0 = vi := by
  intro fu
  induction fu with
  | zero =>
      intro t pi pj _ _ hij hj _ hfu _ _ _
      exact absurd hfu (by omega)
  | succ fu ih =>
      intro t pi pj hlen hpi hij hj hgap hfu hleft hright hpiv
      rw [partitionLoop]
      obtain ⟨u1, u2, u3, u4⟩ := scanUp_spec f t vi t.length pi pj hij (by omega)
        (hright pj le_rfl (by omega))
      obtain ⟨d1, d2, d3, d4⟩ := scanDown_spec f t vi t.length pj pi hij (by omega)
        (hleft pi hpi le_rfl)
      split
      case isTrue hexit =>
          refine ⟨by omega, by omega, List.Perm.refl t, fun p _ _ => rfl, ?_, ?_, hpiv⟩
          · intro p hp1 hp2
            by_cases hsmall : p ≤ pi
            · exact hleft p hp1 hsmall
            · intro hc
              exact absurd hc (not_lt_of_lt (u4 p (by omega) hp2))
          · intro q hq1 hq2
            by_cases hq : q = scanUp (keyLtF f) t vi pi t.length
            · rw [hq]
              exact u3
            · by_cases hbig : pj ≤ q
              · exact hright q hbig hq2
              · intro hc
                exact absurd hc (not_lt_of_lt (d4 q (by omega) (by omega)))
      case isFalse hexit =>
          set pi1 := scanUp (keyLtF f) t vi pi t.length with hpi1
          set pj1 := scanDown (keyLtF f) t vi pj t.length with hpj1
          have hord : pi1 < pj1 := by omega
          have hup_lt : pi1 < t.length := by omega
          have hdn_lt : pj1 < t.length := by omega
          have hl1 : ∀ p, pl ≤ p → p ≤ pi1 → ¬ f vi < f ((swapList t pi1 pj1).getD p 0) := by
            intro p hp1 hp2
            by_cases hp : p = pi1
            · rw [hp, getD_swapList_fst t _ _ hup_lt hdn_lt]
              exact d3
            · rw [getD_swapList_other t _ _ p hp (by omega)]
              by_cases hsmall : p ≤ pi
              · exact hleft p hp1 hsmall
              · intro hc
                exact absurd hc (not_lt_of_lt (u4 p (by omega) (by omega)))
          have hr1 : ∀ q, pj1 ≤ q → q ≤ pr → ¬ f ((swapList t pi1 pj1).getD q 0) < f vi := by
            intro q hq1 hq2
            by_cases hq : q = pj1
            · rw [hq, getD_swapList_snd t _ _ hup_lt hdn_lt]
              exact u3
            · rw [getD_swapList_other t _ _ q (by omega) hq]
              by_cases hbig : pj ≤ q
              · exact hright q hbig hq2
              · intro hc
                exact absurd hc (not_lt_of_lt (d4 q (by omega) (by omega)))
          have hv1 : (swapList t pi1 pj1).getD (pr - 1) 0 = vi := by
            rw [getD_swapList_other t _ _ (pr - 1) (by omega) (by omega)]
            exact hpiv
          obtain ⟨c1, c2, c3, c4, c5, c6, c7⟩ := ih (swapList t pi1 pj1) pi1 pj1
            (by rw [swapList_length]; exact hlen)
            (by omega) hord (by omega) hgap (by omega) hl1 hr1 hv1
          refine ⟨by omega, c2, c3.trans (swapList_perm _ _ _), ?_, c5, c6, c7⟩
          intro p hp1 hp2
          exact (c4 p (by rw [swapList_length]; exact hp1) hp2).trans
            (getD_swapList_other t _ _ p (by omega) (by omega))

theorem partitionStep_spec (f : Nat → Rat) (t : List Nat) (pl pr : Nat)
    (hlen : pr < t.length) (hgap : pl + 16 ≤ pr) :
    pl + 1 ≤ (partitionStep (keyLtF f) t pl pr).2 ∧
    (partitionStep (keyLtF f) t pl pr).2 + 1 ≤ pr ∧
    (∀ p, p < t.length → p < pl ∨ pr < p →
      (partitionStep (keyLtF f) t pl pr).1.getD p 0 = t.getD p 0) ∧
    (∀ p, pl ≤ p → p < (partitionStep (keyLtF f) t pl pr).2 →
      f ((partitionStep (keyLtF f) t pl pr).1.getD p 0)
        ≤ f ((partitionStep (keyLtF f) t pl pr).1.getD
              ((partitionStep (keyLtF f) t pl pr).2) 0)) ∧
    (∀ q, (partitionStep (keyLtF f) t pl pr).2 < q → q ≤ pr →
      f ((partitionStep (keyLtF f) t pl pr).1.getD
            ((partitionStep (keyLtF f) t pl pr).2) 0)
        ≤ f ((partitionStep (keyLtF f) t pl pr).1.getD q 0)) := by
  rw [partitionStep]
  set pm := pl + (pr - pl) / 2 with hpm
  have hplpm : pl < pm := by omega
  have hpmpr1 : pm < pr - 1 := by omega
  have hpm_lt : pm < t.length := by omega
  have hpl_lt : pl < t.length := by omega
  set t1 := if keyLtF f (t.getD pm 0) (t.getD pl 0) = true then swapList t pm pl else t
    with ht1
  have hlen1 : t1.length = t.length := by
    rw [ht1]
    split
    · rw [swapList_length]
    · rfl
  have h1le : f (t1.getD pl 0) ≤ f (t1.getD pm 0) := by
    rw [ht1]
    split
    case isTrue hc =>
        rw [getD_swapList_snd t pm pl hpm_lt hpl_lt, getD_swapList_fst t pm pl hpm_lt hpl_lt]
        exact le_of_lt (keyLtF_true.mp hc)
    case isFalse hc => exact keyLtF_not.mp hc
  have h1out : ∀ p, p ≠ pl → p ≠ pm → t1.getD p 0 = t.getD p 0 := by
    intro p hp1 hp2
    rw [ht1]
    split
    · exact getD_swapList_other t pm pl p hp2 hp1
    · rfl
  set t2 := if keyLtF f (t1.getD pr 0) (t1.getD pm 0) = true then swapList t1 pr pm else t1
    with ht2
  have hlen2 : t2.length = t.length := by
    rw [ht2]
    split
    · rw [swapList_length, hlen1]
    · exact hlen1
  have h2le : f (t2.getD pm 0) ≤ f (t2.getD pr 0) := by
    rw [ht2]
    split
    case isTrue hc =>
        rw [getD_swapList_snd t1 pr pm (by omega) (by omega),
          getD_swapList_fst t1 pr pm (by omega) (by omega)]
        exact le_of_lt (keyLtF_true.mp hc)
    case isFalse hc => exact keyLtF_not.mp hc
  have h2disj : f (t2.getD pl 0) ≤ f (t2.getD pm 0) ∨ f (t2.getD pl 0) ≤ f (t2.getD pr 0) := by
    rw [ht2]
    split
    case isTrue hc =>
        right
        rw [getD_swapList_fst t1 pr pm (by omega) (by omega),
          getD_swapList_other t1 pr pm pl (by omega) (by omega)]
        exact h1le
    case isFalse hc =>
        left
        exact h1le
  have h2out : ∀ p, p ≠ pr → p ≠ pm → t2.getD p 0 = t1.getD p 0 := by
    intro p hp1 hp2
    rw [ht2]
    split
    · exact getD_swapList_other t1 pr pm p hp1 hp2
    · rfl
  set t3 := if keyLtF f (t2.getD pm 0) (t2.getD pl 0) = true then swapList t2 pm pl else t2
    with ht3
  have hlen3 : t3.length = t.length := by
    rw [ht3]
    split
    · rw [swapList_length, hlen2]
    · exact hlen2
  have h3A : f (t3.getD pl 0) ≤ f (t3.getD pm 0) := by
    rw [ht3]
    split
    case isTrue hc =>
        rw [getD_swapList_snd t2 pm pl (by omega) (by omega),
          getD_swapList_fst t2 pm pl (by omega) (by omega)]
        exact le_of_lt (keyLtF_true.mp hc)
    case isFalse hc => exact keyLtF_not.mp hc
  have h3B : f (t3.getD pm 0) ≤ f (t3.getD pr 0) := by
    rw [ht3]
    split
    case isTrue hc =>
        rw [getD_swapList_fst t2 pm pl (by omega) (by omega),
          getD_swapList_other t2 pm pl pr (by omega) (by omega)]
        have hc2 := keyLtF_true.mp hc
        rcases h2disj with hd | hd
        · linarith
        · exact hd
    case isFalse hc => exact h2le
  have h3out : ∀ p, p ≠ pm → p ≠ pl → t3.getD p 0 = t2.getD p 0 := by
    intro p hp1 hp2
    rw [ht3]
    split
    · exact getD_swapList_other t2 pm pl p hp1 hp2
    · rfl
  have hCout : ∀ p, p ≠ pl → p ≠ pm → p ≠ pr → t3.getD p 0 = t.getD p 0 := by
    intro p hp1 hp2 hp3
    rw [h3out p hp2 hp1, h2out p hp3 hp2, h1out p hp1 hp2]
  set vi := t3.getD pm 0 with hvi
  set t4 := swapList t3 pm (pr - 1) with ht4
  have hlen4 : t4.length = t.length := by
    rw [ht4, swapList_length, hlen3]
  have h4piv : t4.getD (pr - 1) 0 = vi := by
    rw [ht4, getD_swapList_snd t3 pm (pr - 1) (by omega) (by omega), hvi]
  have h4pl : t4.getD pl 0 = t3.getD pl 0 := by
    rw [ht4]
    exact getD_swapList_other t3 pm (pr - 1) pl (by omega) (by omega)
  have h4pr : t4.getD pr 0 = t3.getD pr 0 := by
    rw [ht4]
    exact getD_swapList_other t3 pm (pr - 1) pr (by omega) (by omega)
  have h4out : ∀ p, p ≠ pm → p ≠ pr - 1 → t4.getD p 0 = t3.getD p 0 := by
    intro p hp1 hp2
    rw [ht4]
    exact getD_swapList_other t3 pm (pr - 1) p hp1 hp2
  obtain ⟨c1, c2, c3, c4, c5, c6, c7⟩ := partitionLoop_spec f vi pl pr (pr + 2) t4 pl (pr - 1)
    (by omega) le_rfl (by omega) le_rfl (by omega) (by omega)
    (by
      intro p hp1 hp2
      have hppl : p = pl := by omega
      rw [hppl, h4pl]
      intro hc
      exact absurd hc (not_lt_of_le h3A))
    (by
      intro q hq1 hq2
      by_cases hq : q = pr - 1
      · rw [hq, h4piv]
        exact lt_irrefl _
      · have hqpr : q = pr := by omega
        rw [hqpr, h4pr]
        intro hc
        exact absurd hc (not_lt_of_le h3B))
    h4piv
  set tp := partitionLoop (keyLtF f) vi (pr + 2) t4 pl (pr - 1) with htp
  have htplen : tp.1.length = t.length := by
    rw [c3.length_eq, hlen4]
  have hfin_piv : (swapList tp.1 tp.2 (pr - 1)).getD tp.2 0 = vi := by
    rw [getD_swapList_fst tp.1 tp.2 (pr - 1) (by omega) (by omega)]
    exact c7
  refine ⟨c1, by omega, ?_, ?_, ?_⟩
  · intro p hp hcase
    have e1 : (swapList tp.1 tp.2 (pr - 1)).getD p 0 = tp.1.getD p 0 :=
      getD_swapList_other tp.1 tp.2 (pr - 1) p (by omega) (by omega)
    rw [e1, c4 p (by omega) hcase, h4out p (by omega) (by omega),
      hCout p (by omega) (by omega) (by omega)]
  · intro p hp1 hp2
    rw [hfin_piv]
    have e1 : (swapList tp.1 tp.2 (pr - 1)).getD p 0 = tp.1.getD p 0 :=
      getD_swapList_other tp.1 tp.2 (pr - 1) p (by omega) (by omega)
    rw [e1]
    exact not_lt.mp (c5 p hp1 hp2)
  · intro q hq1 hq2
    rw [hfin_piv]
    by_cases hq : q = pr - 1
    · rw [hq, getD_swapList_snd tp.1 tp.2 (pr - 1) (by omega) (by omega)]
      exact not_lt.mp (c6 tp.2 le_rfl (by omega))
    · have e1 : (swapList tp.1 tp.2 (pr - 1)).getD q 0 = tp.1.getD q 0 :=
        getD_swapList_other tp.1 tp.2 (pr - 1) q (by omega) hq
      rw [e1]
      exact not_lt.mp (c6 q (by omega) hq2)

theorem inSubtree_self (r : Nat) : inSubtree r r := ⟨0, by simp⟩

theorem inSubtree_le {r j : Nat} (h : inSubtree r j) : r ≤ j := by
  obtain ⟨c, hc⟩ := h
  rw [← hc]
  exact Nat.div_le_self j (2 ^ c)

theorem inSubtree_trans {r s j : Nat} (h1 : inSubtree s j) (h2 : inSubtree r s) :
    inSubtree r j := by
  obtain ⟨c1, hc1⟩ := h1
  obtain ⟨c2, hc2⟩ := h2
  refine ⟨c1 + c2, ?_⟩
  rw [pow_add, ← Nat.div_div_eq_div_mul, hc1, hc2]

theorem inSubtree_parent {r j : Nat} (h : inSubtree r j) (hne : j ≠ r) :
    inSubtree r (j / 2) := by
  obtain ⟨c, hc⟩ := h
  cases c with
  | zero =>
      rw [pow_zero, Nat.div_one] at hc
      exact absurd hc hne
  | succ c =>
      refine ⟨c, ?_⟩
      rw [Nat.div_div_eq_div_mul, ← hc]
      congr 1
      rw [pow_succ]
      ring

theorem inSubtree_of_parent {r j : Nat} (h : inSubtree r (j / 2)) : inSubtree r j := by
  obtain ⟨c, hc⟩ := h
  refine ⟨c + 1, ?_⟩
  rw [pow_succ, Nat.mul_comm (2 ^ c) 2, ← Nat.div_div_eq_div_mul, hc]

theorem inSubtree_cases (r : Nat) :
    ∀ j, inSubtree r j → j = r ∨ inSubtree (2 * r) j ∨ inSubtree (2 * r + 1) j := by
  intro j
  induction j using Nat.strong_induction_on with
  | _ j ih =>
      intro h
      by_cases hjr : j = r
      · exact Or.inl hjr
      · have hpar := inSubtree_parent h hjr
        have hrj : r ≤ j := inSubtree_le h
        have hj2 : j / 2 < j := by omega
        rcases ih (j / 2) hj2 hpar with h1 | h2 | h3
        · have hj : j = 2 * r ∨ j = 2 * r + 1 := by omega
          rcases hj with he | he
          · exact Or.inr (Or.inl (he ▸ inSubtree_self _))
          · exact Or.inr (Or.inr (he ▸ inSubtree_self _))
        · exact Or.inr (Or.inl (inSubtree_of_parent h2))
        · exact Or.inr (Or.inr (inSubtree_of_parent h3))

theorem inSubtree_overlap {r s x : Nat} (h1 : inSubtree r x) (h2 : inSubtree s x) :
    inSubtree r s ∨ inSubtree s r := by
  obtain ⟨c1, hc1⟩ := h1
  obtain ⟨c2, hc2⟩ := h2
  rcases le_total c1 c2 with hle | hle
  · right
    refine ⟨c2 - c1, ?_⟩
    rw [← hc1, Nat.div_div_eq_div_mul, ← pow_add]
    have he : c1 + (c2 - c1) = c2 := by omega
    rw [he, hc2]
  · left
    refine ⟨c1 - c2, ?_⟩
    rw [← hc2, Nat.div_div_eq_div_mul, ← pow_add]
    have he : c2 + (c1 - c2) = c1 := by omega
    rw [he, hc1]

theorem inSubtree_one : ∀ j, 1 ≤ j → inSubtree 1 j := by
  intro j
  induction j using Nat.strong_induction_on with
  | _ j ih =>
      intro hj
      by_cases h1 : j = 1
      · exact h1 ▸ inSubtree_self 1
      · exact inSubtree_of_parent (ih (j / 2) (by omega) (by omega))

theorem sibling_not_subtree {r j : Nat} (hr : 1 ≤ r) (hj : j = 2 * r ∨ j = 2 * r + 1) :
    ∀ x, inSubtree j x → x = r ∨ ¬ inSubtree (2 * r + 1 - (j - 2 * r)) x := by
  intro x hx
  right
  intro hx2
  set s := 2 * r + 1 - (j - 2 * r) with hs
  have hsj : s ≠ j := by omega
  rcases inSubtree_overlap hx hx2 with h1 | h1
  · have := inSubtree_le h1
    have hj2 : j / 2 = r := by omega
    have hs2 : s / 2 = r := by omega
    rcases inSubtree_cases j s h1 with he | h2 | h3
    · exact hsj he
    · have := inSubtree_le h2
      omega
    · have := inSubtree_le h3
      omega
  · rcases inSubtree_cases s j h1 with he | h2 | h3
    · exact hsj he.symm
    · have := inSubtree_le h2
      omega
    · have := inSubtree_le h3
      omega

theorem heap_chain_le (f : Nat → Rat) (t : List Nat) (pl m r : Nat)
    (hedges : ∀ j, 2 ≤ j → j ≤ m → inSubtree r (j / 2) → heapEdge f t pl j) :
    ∀ x, inSubtree r x → x ≤ m → 1 ≤ r →
    f (t.getD (pl + x - 1) 0) ≤ f (t.getD (pl + r - 1) 0) := by
  intro x
  induction x using Nat.strong_induction_on with
  | _ x ih =>
      intro hx hxm hr
      by_cases hxr : x = r
      · exact le_of_eq (by rw [hxr])
      · have hrx : r ≤ x := inSubtree_le hx
        have hx2 : 2 ≤ x := by omega
        have hpar := inSubtree_parent hx hxr
        exact le_trans (hedges x hx2 hxm hpar) (ih (x / 2) (by omega) hpar (by omega) hr)

theorem siftDown_spec (f : Nat → Rat) (pl m : Nat) :
    ∀ (fu : Nat) (t : List Nat) (i : Nat),
    1 ≤ i → i ≤ m → pl + m ≤ t.length → m + 1 ≤ fu + i →
    (∀ j, 2 ≤ j → j ≤ m → inSubtree i (j / 2) → j / 2 ≠ i → heapEdge f t pl j) →
    (∀ p, (∀ j, 1 ≤ j → j ≤ m → inSubtree i j → p ≠ pl + j - 1) →
      (siftDown (keyLtF f) pl fu t m i).getD p 0 = t.getD p 0) ∧
    (∀ j, 2 ≤ j → j ≤ m → inSubtree i (j / 2) →
      heapEdge f (siftDown (keyLtF f) pl fu t m i) pl j) ∧
    (∀ x, inSubtree i x → x ≤ m → ∃ y, inSubtree i y ∧ y ≤ m ∧
      (siftDown (keyLtF f) pl fu t m i).getD (pl + x - 1) 0 = t.getD (pl + y - 1) 0) := by
  intro fu
  induction fu with
  | zero =>
      intro t i hi1 him _ hfu _
      exact absurd hfu (by omega)
  | succ fu ih =>
      intro t i hi1 him hlen hfu hpre
      rw [siftDown]
      split
      case isFalse hbound =>
          refine ⟨fun p _ => rfl, ?_, fun x hx hxm => ⟨x, hx, hxm, rfl⟩⟩
          intro j hj2 hjm hsub
          have := inSubtree_le hsub
          omega
      case isTrue hbound =>
          dsimp only
          set j1 := if (decide (2 * i < m) && keyLtF f (t.getD (pl + 2 * i - 1) 0)
              (t.getD (pl + 2 * i) 0)) = true then 2 * i + 1 else 2 * i with hj1
          have hj1cases : j1 = 2 * i ∨ j1 = 2 * i + 1 := by
            rw [hj1]
            split
            · right; rfl
            · left; rfl
          have hj1m : j1 ≤ m := by
            rw [hj1]
            split
            case isTrue hc =>
                rw [Bool.and_eq_true, decide_eq_true_eq] at hc
                omega
            case isFalse hc => omega
          have hj1div : j1 / 2 = i := by omega
          have hj1max : ∀ c, (c = 2 * i ∨ c = 2 * i + 1) → c ≤ m →
              f (t.getD (pl + c - 1) 0) ≤ f (t.getD (pl + j1 - 1) 0) := by
            intro c hc hcm
            rw [hj1]
            split
            case isTrue hcond =>
                rw [Bool.and_eq_true, decide_eq_true_eq] at hcond
                have hltc := keyLtF_true.mp hcond.2
                rcases hc with he | he
                · rw [he]
                  have e : pl + (2 * i + 1) - 1 = pl + 2 * i := by omega
                  rw [e]
                  exact le_of_lt hltc
                · rw [he]
            case isFalse hcond =>
                rcases hc with he | he
                · rw [he]
                · rw [he]
                  have hc1 : 2 * i < m := by omega
                  have hc2 : ¬ keyLtF f (t.getD (pl + 2 * i - 1) 0)
                      (t.getD (pl + 2 * i) 0) = true := by
                    intro hk
                    exact hcond (by rw [Bool.and_eq_true, decide_eq_true_eq]; exact ⟨hc1, hk⟩)
                  have hle2 := keyLtF_not.mp hc2
                  have e : pl + (2 * i + 1) - 1 = pl + 2 * i := by omega
                  rw [e]
                  exact hle2
          have hij1 : i < j1 := by omega
          have hsubj1 : inSubtree i j1 := by
            apply inSubtree_of_parent
            rw [hj1div]
            exact inSubtree_self i
          split
          case isFalse hswap =>
              have hple := keyLtF_not.mp hswap
              refine ⟨fun p _ => rfl, ?_, fun x hx hxm => ⟨x, hx, hxm, rfl⟩⟩
              intro j hj2 hjm hsub
              by_cases hpi : j / 2 = i
              · rw [heapEdge, hpi]
                have hj : j = 2 * i ∨ j = 2 * i + 1 := by omega
                exact le_trans (hj1max j hj hjm) hple
              · exact hpre j hj2 hjm hsub hpi
          case isTrue hswap =>
              have hlt := keyLtF_true.mp hswap
              have hpre2 : ∀ j, 2 ≤ j → j ≤ m → inSubtree j1 (j / 2) → j / 2 ≠ j1 →
                  heapEdge f (swapList t (pl + i - 1) (pl + j1 - 1)) pl j := by
                intro j hj2 hjm hsub hne
                have hp_gt : j1 ≤ j / 2 := inSubtree_le hsub
                have hp_gt2 : j1 < j / 2 := by omega
                rw [heapEdge,
                  getD_swapList_other t (pl + i - 1) (pl + j1 - 1) (pl + j - 1) (by omega) (by omega),
                  getD_swapList_other t (pl + i - 1) (pl + j1 - 1) (pl + j / 2 - 1) (by omega) (by omega)]
                exact hpre j hj2 hjm (inSubtree_trans hsub hsubj1) (by omega)
              obtain ⟨r1, r2, r3⟩ := ih (swapList t (pl + i - 1) (pl + j1 - 1)) j1
                (by omega) hj1m (by rw [swapList_length]; exact hlen) (by omega) hpre2
              have hchain : ∀ y, inSubtree j1 y → y ≤ m →
                  f (t.getD (pl + y - 1) 0) ≤ f (t.getD (pl + j1 - 1) 0) := by
                intro y hy hym
                refine heap_chain_le f t pl m j1 ?_ y hy hym (by omega)
                intro j hj2 hjm hsub
                have hple2 : j1 ≤ j / 2 := inSubtree_le hsub
                exact hpre j hj2 hjm (inSubtree_trans hsub hsubj1) (by omega)
              have hposi_lt : pl + i - 1 < t.length := by omega
              have hposj1_lt : pl + j1 - 1 < t.length := by omega
              have hresi : (siftDown (keyLtF f) pl fu
                  (swapList t (pl + i - 1) (pl + j1 - 1)) m j1).getD (pl + i - 1) 0
                  = t.getD (pl + j1 - 1) 0 := by
                have e := r1 (pl + i - 1) (by
                  intro y hy1 hym hysub
                  have := inSubtree_le hysub
                  omega)
                rw [e]
                exact getD_swapList_fst t (pl + i - 1) (pl + j1 - 1) hposi_lt hposj1_lt
              refine ⟨?_, ?_, ?_⟩
              · intro p havoid
                have e := r1 p (by
                  intro y hy1 hym hysub
                  exact havoid y hy1 hym (inSubtree_trans hysub hsubj1))
                rw [e]
                exact getD_swapList_other t (pl + i - 1) (pl + j1 - 1) p
                  (havoid i hi1 him (inSubtree_self i))
                  (havoid j1 (by omega) hj1m hsubj1)
              · intro j hj2 hjm hsub
                by_cases hj1sub : inSubtree j1 (j / 2)
                · exact r2 j hj2 hjm hj1sub
                · by_cases hpi : j / 2 = i
                  · have hjc : j = 2 * i ∨ j = 2 * i + 1 := by omega
                    rw [heapEdge, hpi, hresi]
                    by_cases hjj1 : j = j1
                    · obtain ⟨y, hysub, hym, hyval⟩ := r3 j1 (inSubtree_self j1) hj1m
                      rw [hjj1, hyval]
                      have hyge := inSubtree_le hysub
                      by_cases hyj1 : y = j1
                      · rw [hyj1, getD_swapList_snd t (pl + i - 1) (pl + j1 - 1) hposi_lt hposj1_lt]
                        exact le_of_lt hlt
                      · rw [getD_swapList_other t (pl + i - 1) (pl + j1 - 1) (pl + y - 1) (by omega) (by omega)]
                        exact hchain y hysub hym
                    · have hjnot : ¬ inSubtree j1 j := by
                        intro hc
                        rcases inSubtree_cases j1 j hc with he | h2 | h3
                        · exact hjj1 he
                        · have := inSubtree_le h2
                          omega
                        · have := inSubtree_le h3
                          omega
                      have e := r1 (pl + j - 1) (by
                        intro y hy1 hym hysub
                        intro hpe
                        have hyj : y = j := by omega
                        exact hjnot (hyj ▸ hysub))
                      rw [e, getD_swapList_other t (pl + i - 1) (pl + j1 - 1) (pl + j - 1)
                        (by omega) (by omega)]
                      exact hj1max j hjc hjm
                  · have hjnot : ¬ inSubtree j1 j := by
                      intro hc
                      have hjj1ne : j ≠ j1 := by
                        intro he
                        rw [he, hj1div] at hpi
                        exact hpi rfl
                      exact hj1sub (inSubtree_parent hc hjj1ne)
                    have e1 := r1 (pl + j - 1) (by
                      intro y hy1 hym hysub
                      intro hpe
                      have hyj : y = j := by omega
                      exact hjnot (hyj ▸ hysub))
                    have e2 := r1 (pl + j / 2 - 1) (by
                      intro y hy1 hym hysub
                      intro hpe
                      have hyj : y = j / 2 := by omega
                      exact hj1sub (hyj ▸ hysub))
                    have hi_le := inSubtree_le hsub
                    have hjne : j ≠ j1 := fun he => hjnot (he ▸ inSubtree_self j1)
                    have hj2ne : j / 2 ≠ j1 := fun he => hj1sub (he ▸ inSubtree_self j1)
                    rw [heapEdge, e1, e2,
                      getD_swapList_other t (pl + i - 1) (pl + j1 - 1) (pl + j - 1) (by omega) (by omega),
                      getD_swapList_other t (pl + i - 1) (pl + j1 - 1) (pl + j / 2 - 1) (by omega) (by omega)]
                    exact hpre j hj2 hjm hsub hpi
              · intro x hx hxm
                have hx1 := inSubtree_le hx
                by_cases hxj1 : inSubtree j1 x
                · obtain ⟨y, hysub, hym, hyval⟩ := r3 x hxj1 hxm
                  have hyge := inSubtree_le hysub
                  by_cases hyj1 : y = j1
                  · refine ⟨i, inSubtree_self i, him, ?_⟩
                    rw [hyval, hyj1, getD_swapList_snd t (pl + i - 1) (pl + j1 - 1) hposi_lt hposj1_lt]
                  · refine ⟨y, inSubtree_trans hysub hsubj1, hym, ?_⟩
                    rw [hyval, getD_swapList_other t (pl + i - 1) (pl + j1 - 1) (pl + y - 1) (by omega) (by omega)]
                · by_cases hxi : x = i
                  · refine ⟨j1, hsubj1, hj1m, ?_⟩
                    rw [hxi]
                    exact hresi
                  · refine ⟨x, hx, hxm, ?_⟩
                    have e := r1 (pl + x - 1) (by
                      intro y hy1 hym hysub
                      intro hpe
                      have hxy : x = y := by omega
                      exact hxj1 (hxy ▸ hysub))
                    rw [e]
                    refine getD_swapList_other t (pl + i - 1) (pl + j1 - 1) (pl + x - 1) (by omega) ?_
                    intro hpe
                    have hxeq : x = j1 := by omega
                    exact hxj1 (hxeq ▸ inSubtree_self j1)

theorem heapify_go (f : Nat → Rat) (pl m : Nat) :
    ∀ (c : Nat) (t : List Nat), c ≤ m / 2 → pl + m ≤ t.length →
    (∀ p, (p < pl ∨ pl + m ≤ p) →
      ((List.range c).foldl
        (fun t k => siftDown (keyLtF f) pl (m + 1) t m (m / 2 - k)) t).getD p 0
        = t.getD p 0) ∧
    ((List.range c).foldl
        (fun t k => siftDown (keyLtF f) pl (m + 1) t m (m / 2 - k)) t).length = t.length ∧
    (∀ j, 2 ≤ j → j ≤ m → m / 2 - c + 1 ≤ j / 2 →
      heapEdge f ((List.range c).foldl
        (fun t k => siftDown (keyLtF f) pl (m + 1) t m (m / 2 - k)) t) pl j) := by
  intro c
  induction c with
  | zero =>
      intro t _ _
      refine ⟨fun p _ => rfl, rfl, ?_⟩
      intro j hj2 hjm hpar
      omega
  | succ c ih =>
      intro t hc hlen
      obtain ⟨ih1, ih2, ih3⟩ := ih t (by omega) hlen
      rw [List.range_succ, List.foldl_append, List.foldl_cons, List.foldl_nil]
      set Tc := (List.range c).foldl
        (fun t k => siftDown (keyLtF f) pl (m + 1) t m (m / 2 - k)) t with hTc
      have hr1 : 1 ≤ m / 2 - c := by omega
      have hrm : m / 2 - c ≤ m := by omega
      obtain ⟨s1, s2, s3⟩ := siftDown_spec f pl m (m + 1) Tc (m / 2 - c) hr1 hrm
        (by rw [ih2]; exact hlen) (by omega)
        (by
          intro j hj2 hjm hsub hne
          have hple := inSubtree_le hsub
          exact ih3 j hj2 hjm (by omega))
      refine ⟨?_, ?_, ?_⟩
      · intro p hp
        have e := s1 p (by
          intro y hy1 hym hysub
          omega)
        rw [e]
        exact ih1 p hp
      · rw [(siftDown_perm (keyLtF f) pl (m + 1) Tc m (m / 2 - c)).length_eq, ih2]
      · intro j hj2 hjm hpar
        by_cases hsub : inSubtree (m / 2 - c) (j / 2)
        · exact s2 j hj2 hjm hsub
        · have hne : j / 2 ≠ m / 2 - c := by
            intro he
            exact hsub (he ▸ inSubtree_self _)
          have hjnot : ¬ inSubtree (m / 2 - c) j := by
            intro hcsub
            have hjne : j ≠ m / 2 - c := by
              have := inSubtree_le hcsub
              omega
            exact hsub (inSubtree_parent hcsub hjne)
          have e1 := s1 (pl + j - 1) (by
            intro y hy1 hym hysub
            intro hpe
            have hyj : y = j := by omega
            exact hjnot (hyj ▸ hysub))
          have e2 := s1 (pl + j / 2 - 1) (by
            intro y hy1 hym hysub
            intro hpe
            have hyj : y = j / 2 := by omega
            exact hsub (hyj ▸ hysub))
          rw [heapEdge, e1, e2]
          exact ih3 j hj2 hjm (by omega)

theorem heapify_spec (f : Nat → Rat) (pl : Nat) (t : List Nat) (m : Nat)
    (hlen : pl + m ≤ t.length) :
    (∀ p, (p < pl ∨ pl + m ≤ p) → (heapify (keyLtF f) pl t m).getD p 0 = t.getD p 0) ∧
    (heapify (keyLtF f) pl t m).length = t.length ∧
    (∀ j, 2 ≤ j → j ≤ m → heapEdge f (heapify (keyLtF f) pl t m) pl j) := by
  obtain ⟨h1, h2, h3⟩ := heapify_go f pl m (m / 2) t le_rfl hlen
  rw [heapify]
  refine ⟨h1, h2, ?_⟩
  intro j hj2 hjm
  exact h3 j hj2 hjm (by omega)

theorem heap_root_max (f : Nat → Rat) (t : List Nat) (pl n : Nat)
    (hheap : ∀ j, 2 ≤ j → j ≤ n → heapEdge f t pl j) :
    ∀ j, 1 ≤ j → j ≤ n → f (t.getD (pl + j - 1) 0) ≤ f (t.getD pl 0) := by
  intro j
  induction j using Nat.strong_induction_on with
  | _ j ih =>
      intro hj1 hjn
      by_cases hj : j = 1
      · have e : pl + j - 1 = pl := by omega
        exact le_of_eq (by rw [e])
      · have h2 : 2 ≤ j := by omega
        exact le_trans (hheap j h2 hjn) (ih (j / 2) (by omega) (by omega) (by omega))

theorem heapExtract_spec (f : Nat → Rat) (pl m : Nat) :
    ∀ (fu : Nat) (t : List Nat) (n : Nat),
    n ≤ m → pl + m ≤ t.length → n ≤ fu →
    (∀ j, 2 ≤ j → j ≤ n → heapEdge f t pl j) →
    (∀ j k, 1 ≤ j → j ≤ n → n < k → k ≤ m →
      f (t.getD (pl + j - 1) 0) ≤ f (t.getD (pl + k - 1) 0)) →
    (∀ j k, n < j → j < k → k ≤ m →
      f (t.getD (pl + j - 1) 0) ≤ f (t.getD (pl + k - 1) 0)) →
    (∀ p, (p < pl ∨ pl + n ≤ p) → (heapExtract (keyLtF f) pl fu t n).getD p 0 = t.getD p 0) ∧
    (∀ j k, 1 ≤ j → j < k → k ≤ m →
      f ((heapExtract (keyLtF f) pl fu t n).getD (pl + j - 1) 0)
        ≤ f ((heapExtract (keyLtF f) pl fu t n).getD (pl + k - 1) 0)) := by
  intro fu
  induction fu with
  | zero =>
      intro t n hnm hlen hfu hheap hdom htail
      have hn0 : n = 0 := by omega
      rw [heapExtract]
      refine ⟨fun p _ => rfl, ?_⟩
      intro j k hj1 hjk hkm
      exact htail j k (by omega) hjk hkm
  | succ fu ih =>
      intro t n hnm hlen hfu hheap hdom htail
      rw [heapExtract]
      split
      case isTrue hn1 =>
          refine ⟨fun p _ => rfl, ?_⟩
          intro j k hj1 hjk hkm
          by_cases hjn : j ≤ n
          · exact hdom j k hj1 hjn (by omega) hkm
          · exact htail j k (by omega) hjk hkm
      case isFalse hn1 =>
          have hn2 : 2 ≤ n := by omega
          have hposn : pl + n - 1 < t.length := by omega
          have hpl_lt : pl < t.length := by omega
          have hmax := heap_root_max f t pl n hheap
          set t1 := swapList t pl (pl + n - 1) with ht1
          have h1root : t1.getD pl 0 = t.getD (pl + n - 1) 0 :=
            getD_swapList_fst t pl (pl + n - 1) hpl_lt hposn
          have h1last : t1.getD (pl + n - 1) 0 = t.getD pl 0 :=
            getD_swapList_snd t pl (pl + n - 1) hpl_lt hposn
          have h1other : ∀ p, p ≠ pl → p ≠ pl + n - 1 → t1.getD p 0 = t.getD p 0 :=
            fun p hp1 hp2 => getD_swapList_other t pl (pl + n - 1) p hp1 hp2
          have hlen1 : t1.length = t.length := by
            rw [ht1, swapList_length]
          obtain ⟨s1, s2, s3⟩ := siftDown_spec f pl (n - 1) n t1 1 le_rfl (by omega)
            (by omega) (by omega)
            (by
              intro j hj2 hjm hsub hne
              have hj2ge : 2 ≤ j / 2 := by
                have := inSubtree_le hsub
                omega
              rw [heapEdge, h1other (pl + j - 1) (by omega) (by omega),
                h1other (pl + j / 2 - 1) (by omega) (by omega)]
              exact hheap j hj2 (by omega))
          set t2 := siftDown (keyLtF f) pl n t1 (n - 1) 1 with ht2
          have hlen2 : t2.length = t.length := by
            rw [ht2, (siftDown_perm (keyLtF f) pl n t1 (n - 1) 1).length_eq, hlen1]
          have h2tail : ∀ k, n ≤ k → k ≤ m → t2.getD (pl + k - 1) 0 = t1.getD (pl + k - 1) 0 := by
            intro k hk1 hk2
            apply s1
            intro y hy1 hym hysub
            omega
          have h2orig : ∀ j, 1 ≤ j → j ≤ n - 1 → ∃ y, 1 ≤ y ∧ y ≤ n ∧
              t2.getD (pl + j - 1) 0 = t.getD (pl + y - 1) 0 := by
            intro j hj1 hjn
            obtain ⟨y, hysub, hym, hyval⟩ := s3 j (inSubtree_one j hj1) hjn
            have hy1 : 1 ≤ y := by
              have := inSubtree_le hysub
              omega
            by_cases hy : y = 1
            · refine ⟨n, by omega, le_rfl, ?_⟩
              rw [hyval, hy]
              have e : pl + 1 - 1 = pl := by omega
              rw [e, h1root]
            · refine ⟨y, hy1, by omega, ?_⟩
              rw [hyval, h1other (pl + y - 1) (by omega) (by omega)]
          obtain ⟨R1, R2⟩ := ih t2 (n - 1) (by omega) (by omega) (by omega)
            (by
              intro j hj2 hjn
              exact s2 j hj2 hjn (inSubtree_one (j / 2) (by omega)))
            (by
              intro j k hj1 hjn hkn hkm
              obtain ⟨y, hy1, hyn, hyval⟩ := h2orig j hj1 hjn
              rw [hyval]
              by_cases hk : k = n
              · rw [hk, h2tail n le_rfl hnm, h1last]
                exact hmax y hy1 hyn
              · rw [h2tail k (by omega) hkm,
                  h1other (pl + k - 1) (by omega) (by omega)]
                exact hdom y k hy1 hyn (by omega) hkm)
            (by
              intro j k hjn hjk hkm
              rw [h2tail j (by omega) (by omega), h2tail k (by omega) hkm]
              by_cases hj : j = n
              · rw [hj, h1last]
                rw [h1other (pl + k - 1) (by omega) (by omega)]
                have e : pl + 1 - 1 = pl := by omega
                have := hdom 1 k (by omega) (by omega) (by omega) hkm
                rw [e] at this
                exact this
              · rw [h1other (pl + j - 1) (by omega) (by omega),
                  h1other (pl + k - 1) (by omega) (by omega)]
                exact htail j k (by omega) hjk hkm)
          refine ⟨?_, R2⟩
          intro p hp
          have e1 := R1 p (by omega)
          have e2 := s1 p (by
            intro y hy1 hym hysub
            omega)
          rw [e1, e2]
          exact h1other p (by omega) (by omega)

theorem heapsortSeg_spec (f : Nat → Rat) (t : List Nat) (pl pr : Nat)
    (hpl : pl ≤ pr) (hpr : pr < t.length) :
    (∀ p, p < pl ∨ pr < p → (heapsortSeg (keyLtF f) t pl pr).getD p 0 = t.getD p 0) ∧
    (∀ p q, pl ≤ p → p < q → q ≤ pr →
      f ((heapsortSeg (keyLtF f) t pl pr).getD p 0)
        ≤ f ((heapsortSeg (keyLtF f) t pl pr).getD q 0)) := by
  rw [heapsortSeg]
  set m := pr + 1 - pl with hm
  obtain ⟨hh1, hh2, hh3⟩ := heapify_spec f pl t m (by omega)
  obtain ⟨he1, he2⟩ := heapExtract_spec f pl m (m + 1) (heapify (keyLtF f) pl t m) m
    le_rfl (by omega) (by omega) hh3
    (by
      intro j k _ _ hk1 hk2
      omega)
    (by
      intro j k hj1 hjk hkm
      omega)
  refine ⟨?_, ?_⟩
  · intro p hp
    have e1 := he1 p (by omega)
    rw [e1]
    exact hh1 p (by omega)
  · intro p q hp hpq hq
    have ep : pl + (p - pl + 1) - 1 = p := by omega
    have eq2 : pl + (q - pl + 1) - 1 = q := by omega
    have key := he2 (p - pl + 1) (q - pl + 1) (by omega) (by omega) (by omega)
    rw [ep, eq2] at key
    exact key

theorem stackMeasure_cons (s : Nat × Nat) (l : List (Nat × Nat)) :
    stackMeasure (s :: l) = segWeight s + stackMeasure l := by
  rw [stackMeasure, stackMeasure, List.map_cons, List.sum_cons]

theorem sortedPos_of_crossSorted_nil (f : Nat → Rat) (t : List Nat)
    (h : crossSorted f t []) : sortedPos f t := by
  intro p q hpq hq
  refine h p q hpq hq ?_
  intro s hs
  simp at hs

theorem not_inSeg_head {pl pr a b : Nat} (h : a < pl ∨ pr < a ∨ b < pl ∨ pr < b) :
    ¬ (inSeg (pl, pr) a ∧ inSeg (pl, pr) b) := by
  intro hco
  have h1 : pl ≤ a := hco.1.1
  have h2 : a ≤ pr := hco.1.2
  have h3 : pl ≤ b := hco.2.1
  have h4 : b ≤ pr := hco.2.2
  omega

theorem not_inSeg_of_disjoint {s : Nat × Nat} {pl pr a b : Nat}
    (hd : pr < s.1 ∨ s.2 < pl) (ha : pl ≤ a) (ha2 : a ≤ pr) :
    ¬ (inSeg s a ∧ inSeg s b) := by
  intro hco
  have h1 : s.1 ≤ a := hco.1.1
  have h2 : a ≤ s.2 := hco.1.2
  omega

/-- Finishing the current segment (sorting it in place) removes it from
the pending-segment invariant. -/
theorem crossSorted_finish (f : Nat → Rat) (t t' : List Nat) (pl pr : Nat)
    (stack : List (Nat × Nat))
    (hWF : segsWF t.length ((pl, pr) :: stack))
    (hcross : crossSorted f t ((pl, pr) :: stack))
    (hperm : t'.Perm t)
    (hout : ∀ p, p < t.length → p < pl ∨ pr < p → t'.getD p 0 = t.getD p 0)
    (hsorted : ∀ p q, pl ≤ p → p < q → q ≤ pr →
      f (t'.getD p 0) ≤ f (t'.getD q 0)) :
    segsWF t'.length stack ∧ crossSorted f t' stack := by
  have hlen : t'.length = t.length := hperm.length_eq
  have hplpr : pl ≤ pr := (hWF.1 (pl, pr) (by simp)).1
  have hprn : pr < t.length := (hWF.1 (pl, pr) (by simp)).2
  have hdisj : ∀ s ∈ stack, pr < s.1 ∨ s.2 < pl :=
    fun s hs => (List.pairwise_cons.mp hWF.2).1 s hs
  have horigin := seg_value_origin t t' pl pr hperm hout hplpr hprn
  refine ⟨⟨fun s hs => hlen ▸ hWF.1 s (List.mem_cons_of_mem _ hs),
    (List.pairwise_cons.mp hWF.2).2⟩, ?_⟩
  intro p q hpq hq hnot
  rw [hlen] at hq
  by_cases hpin : pl ≤ p ∧ p ≤ pr
  · by_cases hqin : pl ≤ q ∧ q ≤ pr
    · exact hsorted p q hpin.1 hpq hqin.2
    · have hqgt : pr < q := by omega
      obtain ⟨p2, hp21, hp22, hp2v⟩ := horigin p hpin.1 hpin.2
      rw [hp2v, hout q hq (Or.inr hqgt)]
      refine hcross p2 q (by omega) hq ?_
      intro s hs
      rcases List.mem_cons.mp hs with he | hmem
      · rw [he]
        exact not_inSeg_head (by omega)
      · exact not_inSeg_of_disjoint (hdisj s hmem) hp21 hp22
  · by_cases hqin : pl ≤ q ∧ q ≤ pr
    · have hplt : p < pl := by omega
      obtain ⟨q2, hq21, hq22, hq2v⟩ := horigin q hqin.1 hqin.2
      rw [hq2v, hout p (by omega) (Or.inl hplt)]
      refine hcross p q2 (by omega) (by omega) ?_
      intro s hs
      rcases List.mem_cons.mp hs with he | hmem
      · rw [he]
        exact not_inSeg_head (by omega)
      · intro hco
        have h1 : s.1 ≤ q2 := hco.2.1
        have h2 : q2 ≤ s.2 := hco.2.2
        have := hdisj s hmem
        omega
    · rw [hout p (by omega) (by omega), hout q hq (by omega)]
      refine hcross p q hpq hq ?_
      intro s hs
      rcases List.mem_cons.mp hs with he | hmem
      · rw [he]
        exact not_inSeg_head (by omega)
      · exact hnot s hmem

/-- A partition step replaces the current segment by the two
sub-segments on either side of the settled pivot. -/
theorem crossSorted_partition (f : Nat → Rat) (t t' : List Nat) (pl pr pi : Nat)
    (stack : List (Nat × Nat))
    (hWF : segsWF t.length ((pl, pr) :: stack))
    (hcross : crossSorted f t ((pl, pr) :: stack))
    (hperm : t'.Perm t)
    (hout : ∀ p, p < t.length → p < pl ∨ pr < p → t'.getD p 0 = t.getD p 0)
    (hpi1 : pl + 1 ≤ pi) (hpi2 : pi + 1 ≤ pr)
    (hlow : ∀ p, pl ≤ p → p < pi → f (t'.getD p 0) ≤ f (t'.getD pi 0))
    (hhigh : ∀ q, pi < q → q ≤ pr → f (t'.getD pi 0) ≤ f (t'.getD q 0)) :
    ∀ segs' : List (Nat × Nat),
      segs' = (pl, pi - 1) :: (pi + 1, pr) :: stack ∨
      segs' = (pi + 1, pr) :: (pl, pi - 1) :: stack →
      segsWF t'.length segs' ∧ crossSorted f t' segs' := by
  have hlen : t'.length = t.length := hperm.length_eq
  have hplpr : pl ≤ pr := (hWF.1 (pl, pr) (by simp)).1
  have hprn : pr < t.length := (hWF.1 (pl, pr) (by simp)).2
  have hdisj : ∀ s ∈ stack, pr < s.1 ∨ s.2 < pl :=
    fun s hs => (List.pairwise_cons.mp hWF.2).1 s hs
  have hpairstack : stack.Pairwise (fun s s' => s.2 < s'.1 ∨ s'.2 < s.1) :=
    (List.pairwise_cons.mp hWF.2).2
  have horigin := seg_value_origin t t' pl pr hperm hout hplpr hprn
  intro segs' hshape
  have hmemchar : ∀ s, s ∈ segs' → (s = (pl, pi - 1) ∨ s = (pi + 1, pr) ∨ s ∈ stack) := by
    intro s hs
    rcases hshape with he | he <;> rw [he] at hs <;> simp at hs <;> tauto
  have hmem1 : (pl, pi - 1) ∈ segs' := by
    rcases hshape with he | he <;> rw [he] <;> simp
  have hmem2 : (pi + 1, pr) ∈ segs' := by
    rcases hshape with he | he <;> rw [he] <;> simp
  constructor
  · constructor
    · intro s hs
      rcases hmemchar s hs with he | he | hmem
      · rw [he, hlen]
        exact ⟨by omega, by omega⟩
      · rw [he, hlen]
        exact ⟨by omega, hprn⟩
      · rw [hlen]
        exact hWF.1 s (List.mem_cons_of_mem _ hmem)
    · have hd1 : ∀ s ∈ stack, (pl, pi - 1).2 < s.1 ∨ s.2 < (pl, pi - 1).1 := by
        intro s hs
        have := hdisj s hs
        dsimp only
        omega
      have hd2 : ∀ s ∈ stack, (pi + 1, pr).2 < s.1 ∨ s.2 < (pi + 1, pr).1 := by
        intro s hs
        have := hdisj s hs
        dsimp only
        omega
      rcases hshape with he | he <;> rw [he]
      · refine List.Pairwise.cons ?_ (List.Pairwise.cons hd2 hpairstack)
        intro s hs
        rcases List.mem_cons.mp hs with he2 | hmem
        · rw [he2]
          left
          dsimp only
          omega
        · exact hd1 s hmem
      · refine List.Pairwise.cons ?_ (List.Pairwise.cons hd1 hpairstack)
        intro s hs
        rcases List.mem_cons.mp hs with he2 | hmem
        · rw [he2]
          right
          dsimp only
          omega
        · exact hd2 s hmem
  · intro p q hpq hq hnot
    rw [hlen] at hq
    have hnotstack : ∀ s ∈ stack, ¬ (inSeg s p ∧ inSeg s q) := by
      intro s hs
      refine hnot s ?_
      rcases hshape with he | he <;> rw [he] <;> simp [hs]
    by_cases hpin : pl ≤ p ∧ p ≤ pr
    · by_cases hqin : pl ≤ q ∧ q ≤ pr
      · by_cases hpleft : p ≤ pi - 1
        · by_cases hqleft : q ≤ pi - 1
          · exact absurd ⟨⟨by omega, by omega⟩, ⟨by omega, by omega⟩⟩ (hnot (pl, pi - 1) hmem1)
          · by_cases hqpiv : q = pi
            · rw [hqpiv]
              exact hlow p hpin.1 (by omega)
            · exact le_trans (hlow p hpin.1 (by omega)) (hhigh q (by omega) hqin.2)
        · by_cases hppiv : p = pi
          · rw [hppiv]
            exact hhigh q (by omega) hqin.2
          · exact absurd ⟨⟨by omega, by omega⟩, ⟨by omega, by omega⟩⟩ (hnot (pi + 1, pr) hmem2)
      · have hqgt : pr < q := by omega
        obtain ⟨p2, hp21, hp22, hp2v⟩ := horigin p hpin.1 hpin.2
        rw [hp2v, hout q hq (Or.inr hqgt)]
        refine hcross p2 q (by omega) hq ?_
        intro s hs
        rcases List.mem_cons.mp hs with he | hmem
        · rw [he]
          exact not_inSeg_head (by omega)
        · exact not_inSeg_of_disjoint (hdisj s hmem) hp21 hp22
    · by_cases hqin : pl ≤ q ∧ q ≤ pr
      · have hplt : p < pl := by omega
        obtain ⟨q2, hq21, hq22, hq2v⟩ := horigin q hqin.1 hqin.2
        rw [hq2v, hout p (by omega) (Or.inl hplt)]
        refine hcross p q2 (by omega) (by omega) ?_
        intro s hs
        rcases List.mem_cons.mp hs with he | hmem
        · rw [he]
          exact not_inSeg_head (by omega)
        · intro hco
          have h1 : s.1 ≤ q2 := hco.2.1
          have h2 : q2 ≤ s.2 := hco.2.2
          have := hdisj s hmem
          omega
      · rw [hout p (by omega) (by omega), hout q hq (by omega)]
        refine hcross p q hpq hq ?_
        intro s hs
        rcases List.mem_cons.mp hs with he | hmem
        · rw [he]
          exact not_inSeg_head (by omega)
        · exact hnotstack s hmem

/-- Main invariant argument: with enough fuel (the segment measure), the
introsort loop leaves the index array key-sorted. -/
theorem argsortLoop_sorted (f : Nat → Rat) :
    ∀ (fuel : Nat) (t : List Nat) (stack : List (Nat × Nat)) (pl pr : Nat) (depth : Int),
    segsWF t.length ((pl, pr) :: stack) →
    crossSorted f t ((pl, pr) :: stack) →
    stackMeasure ((pl, pr) :: stack) ≤ fuel →
    sortedPos f (argsortLoop (keyLtF f) fuel t stack pl pr depth) := by
  intro fuel
  induction fuel with
  | zero =>
      intro t stack pl pr depth _ _ hM
      rw [stackMeasure_cons] at hM
      have hw : segWeight (pl, pr) = 2 * (pr + 1 - pl) + 1 := rfl
      exact absurd hM (by omega)
  | succ fuel ih =>
      intro t stack pl pr depth hWF hcross hM
      have hplpr : pl ≤ pr := (hWF.1 (pl, pr) (by simp)).1
      have hprn : pr < t.length := (hWF.1 (pl, pr) (by simp)).2
      rw [argsortLoop]
      split
      case isTrue hbig =>
          split
          case isTrue hdepth =>
              dsimp only
              obtain ⟨hs_out, hs_sorted⟩ := heapsortSeg_spec f t pl pr hplpr hprn
              obtain ⟨hWF2, hcross2⟩ := crossSorted_finish f t
                (heapsortSeg (keyLtF f) t pl pr) pl pr stack hWF hcross
                (heapsortSeg_perm (keyLtF f) t pl pr)
                (fun p h1 h2 => hs_out p h2) hs_sorted
              rcases stack with _ | ⟨⟨pl2, pr2⟩, rest⟩
              · exact sortedPos_of_crossSorted_nil f _ hcross2
              · refine ih _ _ _ _ _ hWF2 hcross2 ?_
                rw [stackMeasure_cons] at hM
                have hw : segWeight (pl, pr) = 2 * (pr + 1 - pl) + 1 := rfl
                omega
          case isFalse hdepth =>
              dsimp only
              obtain ⟨p1, p2, pout, plow, phigh⟩ := partitionStep_spec f t pl pr hprn (by omega)
              have hperm2 := partitionStep_perm (keyLtF f) t pl pr
              have hparts := crossSorted_partition f t (partitionStep (keyLtF f) t pl pr).1
                pl pr (partitionStep (keyLtF f) t pl pr).2 stack hWF hcross hperm2 pout p1 p2
                plow phigh
              rw [stackMeasure_cons] at hM
              have hw : segWeight (pl, pr) = 2 * (pr + 1 - pl) + 1 := rfl
              split
              case isTrue hcmp =>
                  obtain ⟨hWF2, hcross2⟩ := hparts
                    ((pl, (partitionStep (keyLtF f) t pl pr).2 - 1) ::
                      ((partitionStep (keyLtF f) t pl pr).2 + 1, pr) :: stack) (Or.inl rfl)
                  refine ih _ _ _ _ _ hWF2 hcross2 ?_
                  rw [stackMeasure_cons, stackMeasure_cons]
                  have hw1 : segWeight (pl, (partitionStep (keyLtF f) t pl pr).2 - 1)
                      = 2 * ((partitionStep (keyLtF f) t pl pr).2 - 1 + 1 - pl) + 1 := rfl
                  have hw2 : segWeight ((partitionStep (keyLtF f) t pl pr).2 + 1, pr)
                      = 2 * (pr + 1 - ((partitionStep (keyLtF f) t pl pr).2 + 1)) + 1 := rfl
                  omega
              case isFalse hcmp =>
                  obtain ⟨hWF2, hcross2⟩ := hparts
                    (((partitionStep (keyLtF f) t pl pr).2 + 1, pr) ::
                      (pl, (partitionStep (keyLtF f) t pl pr).2 - 1) :: stack) (Or.inr rfl)
                  refine ih _ _ _ _ _ hWF2 hcross2 ?_
                  rw [stackMeasure_cons, stackMeasure_cons]
                  have hw1 : segWeight (pl, (partitionStep (keyLtF f) t pl pr).2 - 1)
                      = 2 * ((partitionStep (keyLtF f) t pl pr).2 - 1 + 1 - pl) + 1 := rfl
                  have hw2 : segWeight ((partitionStep (keyLtF f) t pl pr).2 + 1, pr)
                      = 2 * (pr + 1 - ((partitionStep (keyLtF f) t pl pr).2 + 1)) + 1 := rfl
                  omega
      case isFalse hbig =>
          dsimp only
          obtain ⟨hWF2, hcross2⟩ := crossSorted_finish f t
            (insSortSeg (keyLtF f) t pl pr) pl pr stack hWF hcross
            (insSortSeg_perm (keyLtF f) t pl pr)
            (insSortSeg_outside (keyLtF f) t pl pr hplpr hprn)
            (insSortSeg_sorted_seg f t pl pr hplpr hprn)
          rcases stack with _ | ⟨⟨pl2, pr2⟩, rest⟩
          · exact sortedPos_of_crossSorted_nil f _ hcross2
          · refine ih _ _ _ _ _ hWF2 hcross2 ?_
            rw [stackMeasure_cons] at hM
            have hw : segWeight (pl, pr) = 2 * (pr + 1 - pl) + 1 := rfl
            omega

theorem getD_eq_get_of_lt (l : List Nat) (i : Nat) (h : i < l.length) :
    l.getD i 0 = l.get ⟨i, h⟩ := by
  rw [List.getD_eq_getElem?_getD, List.getElem?_eq_getElem h]
  rfl

/-- The full `np.argsort` produces a key-sorted index list for every
input, small or large. -/
theorem argsortCore_sortedPos (f : Nat → Rat) (n : Nat) :
    sortedPos f (argsortCore (keyLtF f) n) := by
  by_cases hn : n ≤ 16
  · rw [argsortCore_small _ n hn]
    have hp := insertionArgsort_sortedBy f (List.range n)
    rw [List.pairwise_iff_getElem] at hp
    intro p q hpq hq
    have hp2 : p < (insertionArgsort (keyLtF f) (List.range n)).length := by omega
    rw [getD_eq_get_of_lt _ p hp2, getD_eq_get_of_lt _ q hq]
    exact hp p q hp2 hq hpq
  · rw [argsortCore]
    refine argsortLoop_sorted f (2 * n + 4) (List.range n) [] 0 (n - 1) _ ?_ ?_ ?_
    · constructor
      · intro s hs
        rw [List.mem_singleton] at hs
        rw [hs, List.length_range]
        exact ⟨by omega, by omega⟩
      · exact List.pairwise_singleton _ _
    · intro p q hpq hq hnot
      exfalso
      rw [List.length_range] at hq
      refine hnot (0, n - 1) (by simp) ⟨⟨by omega, by omega⟩, by omega, by omega⟩
    · rw [stackMeasure_cons]
      have hw : segWeight (0, n - 1) = 2 * (n - 1 + 1 - 0) + 1 := rfl
      rw [stackMeasure]
      simp only [List.map_nil, List.sum_nil]
      omega

/-- `np.argsort`'s output permutation applied to its own key list yields
an ascending list, for keys of any length. -/
theorem argsortRat_applyPerm_sorted (keys : List Rat) :
    (applyPerm (argsortRat keys) keys 0).Pairwise (· ≤ ·) := by
  have hs : sortedPos (fun i => keys.getD i 0) (argsortRat keys) :=
    argsortCore_sortedPos (fun i => keys.getD i 0) keys.length
  rw [applyPerm, List.pairwise_map]
  rw [List.pairwise_iff_getElem]
  intro i j hi hj hij
  have h1 := hs i j hij hj
  rw [getD_eq_get_of_lt _ i hi, getD_eq_get_of_lt _ j hj] at h1
  exact h1

theorem sortSeriesA_lens (s : SeriesData) :
    lensOf (sortSeriesA s) = List.replicate 7 s.compression_levels.length := by
  simp only [lensOf, sortSeriesA, applyPerm, List.length_map, argsortRat, argsortCore_length]
  rfl

theorem foldl_min_cons (l : List Rat) : ∀ (a b : Rat),
    l.foldl min (min a b) = min a (l.foldl min b) := by
  induction l with
  | nil => intro a b; rfl
  | cons c l ih =>
      intro a b
      simp only [List.foldl_cons]
      rw [min_assoc, ih]

theorem pyMinList_cons (x : Rat) (xs : List Rat) :
    pyMinList (x :: xs) = optMin (some x) (pyMinList xs) := by
  cases xs with
  | nil => rfl
  | cons y ys =>
      simp only [pyMinList, optMin, List.foldl_cons]
      rw [foldl_min_cons]

theorem optMin_assoc (a b c : Option Rat) :
    optMin (optMin a b) c = optMin a (optMin b c) := by
  cases a <;> cases b <;> cases c <;> simp [optMin, min_assoc]

theorem pyMinList_append (l1 l2 : List Rat) :
    pyMinList (l1 ++ l2) = optMin (pyMinList l1) (pyMinList l2) := by
  induction l1 with
  | nil => cases l2 <;> rfl
  | cons a l1 ih =>
      rw [List.cons_append, pyMinList_cons, ih, pyMinList_cons, optMin_assoc]

theorem mapM_pyMinList (ls : List (List Rat)) (h : ∀ l ∈ ls, l ≠ []) :
    ls.mapM pyMinList = some (ls.map (fun l => (pyMinList l).getD 0)) := by
  induction ls with
  | nil => rfl
  | cons l ls ih =>
      have hl : l ≠ [] := h l (by simp)
      obtain ⟨x, xs, rfl⟩ := List.exists_cons_of_ne_nil hl
      rw [List.mapM_cons, ih (fun l hm => h l (by simp [hm]))]
      rfl

theorem pyMinList_map_getD (ls : List (List Rat)) (h : ∀ l ∈ ls, l ≠ []) :
    pyMinList (ls.map (fun l => (pyMinList l).getD 0)) = pyMinList ls.flatten := by
  induction ls with
  | nil => rfl
  | cons l ls ih =>
      have hl : l ≠ [] := h l (by simp)
      obtain ⟨x, xs, rfl⟩ := List.exists_cons_of_ne_nil hl
      rw [List.map_cons, pyMinList_cons, ih (fun l hm => h l (by simp [hm])),
        List.flatten_cons, pyMinList_append]
      rfl

/-- The characterization of `min(min(S) for S if min(S) > 0)`: it is the
minimum over the concatenation of exactly those series whose own minimum
is strictly positive. -/
theorem minOfMinsPos_flatten (ls : List (List Rat)) (h : ∀ l ∈ ls, l ≠ []) :
    minOfMinsPos ls = pyMinList (posMinSeries ls).flatten := by
  rw [minOfMinsPos, mapM_pyMinList ls h]
  show pyMinList ((ls.map (fun l => (pyMinList l).getD 0)).filter (fun m => decide (0 < m)))
      = pyMinList (posMinSeries ls).flatten
  have hfil : (ls.map (fun l => (pyMinList l).getD 0)).filter (fun m => decide (0 < m))
      = (posMinSeries ls).map (fun l => (pyMinList l).getD 0) := by
    rw [List.filter_map]
    congr 1
    apply List.filter_congr
    intro l hm
    have hl : l ≠ [] := h l hm
    obtain ⟨x, xs, rfl⟩ := List.exists_cons_of_ne_nil hl
    rfl
  rw [hfil]
  apply pyMinList_map_getD
  intro l hm
  exact h l (List.mem_filter.mp hm).1

/-! ## Characterization of `process_data`: the last occurrence wins -/

theorem tablesInAlgos_cons (al : String × LevelTable) (algos : AlgoTable) (a : String) :
    tablesInAlgos (al :: algos) a
      = (if al.1 = a then [al.2] else []) ++ tablesInAlgos algos a := by
  by_cases h : al.1 = a <;> simp [tablesInAlgos, h]

theorem elim_getLast_append {α β : Type} (xs ys : List α) (d : β) (g : α → β) :
    ((xs ++ ys).getLast?).elim d g = (ys.getLast?).elim ((xs.getLast?).elim d g) g := by
  rw [List.getLast?_append]
  cases ys.getLast? <;> simp [Option.or]

theorem jAlgoFold_char : ∀ (algos : AlgoTable) (ft0 ft : Table JSeriesData),
    algos.foldlM jAlgoStep ft0 = some ft →
    ∀ a, getA ft a = ((tablesInAlgos algos a).getLast?).elim (getA ft0 a) processAlgoJ := by
  intro algos
  induction algos with
  | nil =>
      intro ft0 ft h a
      simp only [List.foldlM_nil] at h
      cases h
      rfl
  | cons al algos ih =>
      intro ft0 ft h a
      rw [List.foldlM_cons] at h
      cases hstep : jAlgoStep ft0 al with
      | none => rw [hstep] at h; simp at h
      | some ft1 =>
          rw [hstep] at h
          simp only [Option.bind_eq_bind, Option.some_bind] at h
          rw [jAlgoStep] at hstep
          cases hpj : processAlgoJ al.2 with
          | none => rw [hpj] at hstep; simp at hstep
          | some s1 =>
              rw [hpj] at hstep
              simp only [Option.bind_eq_bind, Option.some_bind, Option.pure_def,
                Option.some_inj] at hstep
              have h2 := ih ft1 ft h a
              rw [tablesInAlgos_cons]
              by_cases ha : al.1 = a
              · rw [if_pos ha, elim_getLast_append]
                rw [h2]
                congr 1
                show getA ft1 a = processAlgoJ al.2
                rw [hpj, ← hstep, ← ha, getA_setA_self]
              · rw [if_neg ha, List.nil_append, h2]
                congr 1
                rw [← hstep, getA_setA_ne _ _ _ _ (Ne.symm ha)]

theorem processFileJ_char (algos : AlgoTable) (ftab : Table JSeriesData)
    (h : processFileJ algos = some ftab) (a : String) :
    getA ftab a = ((tablesInAlgos algos a).getLast?).elim none processAlgoJ := by
  have h2 := jAlgoFold_char algos [] ftab h a
  simpa using h2

theorem algosInEntry_cons (fd : String × AlgoTable) (entry : Entry) (f : String) :
    algosInEntry (fd :: entry) f
      = (if fd.1 = f then [fd.2] else []) ++ algosInEntry entry f := rfl

theorem jEntryFold_char : ∀ (entry : Entry) (res0 res : Table (Table JSeriesData)),
    jEntryFold res0 entry = some res →
    ∀ f, getA res f = ((algosInEntry entry f).getLast?).elim (getA res0 f)
      (fun algos => processFileJ algos) := by
  intro entry
  induction entry with
  | nil =>
      intro res0 res h f
      rw [jEntryFold, List.foldlM_nil] at h
      cases h
      rfl
  | cons fd entry ih =>
      intro res0 res h f
      rw [jEntryFold, List.foldlM_cons] at h
      cases hstep : jFileStep res0 fd with
      | none => rw [hstep] at h; simp at h
      | some res1 =>
          rw [hstep] at h
          simp only [Option.bind_eq_bind, Option.some_bind] at h
          rw [jFileStep] at hstep
          cases hpf : processFileJ fd.2 with
          | none => rw [hpf] at hstep; simp at hstep
          | some ft =>
              rw [hpf] at hstep
              simp only [Option.bind_eq_bind, Option.some_bind, Option.pure_def,
                Option.some_inj] at hstep
              have h2 := ih res1 res h f
              rw [algosInEntry_cons]
              by_cases hf : fd.1 = f
              · rw [if_pos hf, elim_getLast_append]
                rw [h2]
                congr 1
                show getA res1 f = processFileJ fd.2
                rw [hpf, ← hstep, ← hf, getA_setA_self]
              · rw [if_neg hf, List.nil_append, h2]
                congr 1
                rw [← hstep, getA_setA_ne _ _ _ _ (Ne.symm hf)]

theorem algosFor_cons (entry : Entry) (input : InputDoc) (f : String) :
    algosFor (entry :: input) f = algosInEntry entry f ++ algosFor input f := rfl

theorem processDataGo_char : ∀ (input : InputDoc) (res0 res : Table (Table JSeriesData)),
    input.foldlM jEntryFold res0 = some res →
    ∀ f, getA res f = ((algosFor input f).getLast?).elim (getA res0 f)
      (fun algos => processFileJ algos) := by
  intro input
  induction input with
  | nil =>
      intro res0 res h f
      simp only [List.foldlM_nil] at h
      cases h
      rfl
  | cons entry input ih =>
      intro res0 res h f
      rw [List.foldlM_cons] at h
      cases hentry : jEntryFold res0 entry with
      | none => rw [hentry] at h; simp at h
      | some res1 =>
          rw [hentry] at h
          simp only [Option.bind_eq_bind, Option.some_bind] at h
          rw [algosFor_cons, elim_getLast_append]
          rw [ih res1 res h f]
          congr 1
          exact jEntryFold_char entry res0 res1 hentry f

theorem process_data_char (input : InputDoc) (resJ : Table (Table JSeriesData))
    (h : process_data input = some resJ) (f : String) :
    getA resJ f = ((algosFor input f).getLast?).elim none
      (fun algos => processFileJ algos) := by
  have h2 := processDataGo_char input [] resJ h f
  simpa using h2

/-! ## Occurrence bookkeeping under uniqueness hypotheses -/

theorem foldr_tables_append (a : String) : ∀ (xs : List AlgoTable) (Y : List LevelTable),
    (xs.foldr (fun al acc => tablesInAlgos al a ++ acc) []) ++ Y
      = xs.foldr (fun al acc => tablesInAlgos al a ++ acc) Y := by
  intro xs
  induction xs with
  | nil => intro Y; rfl
  | cons x xs ih => intro Y; simp [List.append_assoc, ih]

theorem tablesInEntry_eq (entry : Entry) (f a : String) :
    tablesInEntry entry f a
      = (algosInEntry entry f).foldr (fun algos acc => tablesInAlgos algos a ++ acc) [] := by
  induction entry with
  | nil => rfl
  | cons fd entry ih =>
      by_cases h : fd.1 = f
      · simp [tablesInEntry_cons, algosInEntry_cons, h, ih, foldr_tables_append]
      · simp [tablesInEntry_cons, algosInEntry_cons, h, ih]

theorem levelTablesFor_eq (input : InputDoc) (f a : String) :
    levelTablesFor input f a
      = (algosFor input f).foldr (fun algos acc => tablesInAlgos algos a ++ acc) [] := by
  induction input with
  | nil => rfl
  | cons e input ih =>
      rw [levelTablesFor_cons, algosFor_cons, List.foldr_append, ih, tablesInEntry_eq,
        foldr_tables_append]

theorem algosInEntry_length (entry : Entry) (f : String) :
    (algosInEntry entry f).length = (entry.map Prod.fst).count f := by
  induction entry with
  | nil => rfl
  | cons fd entry ih =>
      rw [algosInEntry_cons]
      by_cases h : fd.1 = f <;> simp [h, ih, List.count_cons]

theorem algosFor_length (input : InputDoc) (f : String) :
    (algosFor input f).length = ((input.map (fun e => e.map Prod.fst)).flatten).count f := by
  induction input with
  | nil => rfl
  | cons e input ih =>
      rw [algosFor_cons]
      simp [List.count_append, algosInEntry_length, ih]

theorem algosFor_of_nodup (input : InputDoc) (f : String)
    (hd : ((input.map (fun e => e.map Prod.fst)).flatten).Nodup) :
    algosFor input f = [] ∨ ∃ algos, algosFor input f = [algos] := by
  have hlen := algosFor_length input f
  have hcount := List.nodup_iff_count_le_one.mp hd f
  cases halg : algosFor input f with
  | nil => exact Or.inl rfl
  | cons x xs =>
      cases xs with
      | nil => exact Or.inr ⟨x, rfl⟩
      | cons y ys =>
          exfalso
          rw [halg] at hlen
          simp at hlen
          omega

theorem tablesInAlgos_length (algos : AlgoTable) (a : String) :
    (tablesInAlgos algos a).length = (algos.map Prod.fst).count a := by
  induction algos with
  | nil => rfl
  | cons al algos ih =>
      rw [tablesInAlgos_cons]
      by_cases h : al.1 = a <;> simp [h, ih, List.count_cons]

theorem tablesInAlgos_of_nodup (algos : AlgoTable) (a : String)
    (hd : (algos.map Prod.fst).Nodup) :
    tablesInAlgos algos a = [] ∨ ∃ lvls, tablesInAlgos algos a = [lvls] := by
  have hlen := tablesInAlgos_length algos a
  have hcount := List.nodup_iff_count_le_one.mp hd a
  cases htab : tablesInAlgos algos a with
  | nil => exact Or.inl rfl
  | cons x xs =>
      cases xs with
      | nil => exact Or.inr ⟨x, rfl⟩
      | cons y ys =>
          exfalso
          rw [htab] at hlen
          simp at hlen
          omega

theorem algosInEntry_mem : ∀ (entry : Entry) (f : String) (algos : AlgoTable),
    algos ∈ algosInEntry entry f → ∃ fd ∈ entry, fd.1 = f ∧ fd.2 = algos := by
  intro entry
  induction entry with
  | nil => intro f algos h; simp [algosInEntry] at h
  | cons fd entry ih =>
      intro f algos h
      rw [algosInEntry_cons] at h
      rcases List.mem_append.mp h with h1 | h2
      · by_cases hf : fd.1 = f
        · rw [if_pos hf] at h1
          simp at h1
          exact ⟨fd, by simp, hf, h1.symm⟩
        · rw [if_neg hf] at h1
          simp at h1
      · obtain ⟨fd2, hm, hf, ha⟩ := ih f algos h2
        exact ⟨fd2, by simp [hm], hf, ha⟩

theorem algosFor_mem : ∀ (input : InputDoc) (f : String) (algos : AlgoTable),
    algos ∈ algosFor input f → ∃ e ∈ input, ∃ fd ∈ e, fd.1 = f ∧ fd.2 = algos := by
  intro input
  induction input with
  | nil => intro f algos h; simp [algosFor] at h
  | cons e input ih =>
      intro f algos h
      rw [algosFor_cons] at h
      rcases List.mem_append.mp h with h1 | h2
      · obtain ⟨fd, hm, hf, ha⟩ := algosInEntry_mem e f algos h1
        exact ⟨e, by simp, fd, hm, hf, ha⟩
      · obtain ⟨e2, he, fd, hm, hf, ha⟩ := ih f algos h2
        exact ⟨e2, by simp [he], fd, hm, hf, ha⟩

theorem tablesInAlgos_mem : ∀ (algos : AlgoTable) (a : String) (lvls : LevelTable),
    lvls ∈ tablesInAlgos algos a → ∃ al ∈ algos, al.1 = a ∧ al.2 = lvls := by
  intro algos
  induction algos with
  | nil => intro a lvls h; simp [tablesInAlgos] at h
  | cons al algos ih =>
      intro a lvls h
      rw [tablesInAlgos_cons] at h
      rcases List.mem_append.mp h with h1 | h2
      · by_cases ha : al.1 = a
        · rw [if_pos ha] at h1
          simp at h1
          exact ⟨al, by simp, ha, h1.symm⟩
        · rw [if_neg ha] at h1
          simp at h1
      · obtain ⟨al2, hm, ha, hl⟩ := ih a lvls h2
        exact ⟨al2, by simp [hm], ha, hl⟩

theorem processFileJ_algo_some : ∀ (algos : AlgoTable) (ft0 ftab : Table JSeriesData),
    algos.foldlM jAlgoStep ft0 = some ftab →
    ∀ al ∈ algos, (processAlgoJ al.2).isSome := by
  intro algos
  induction algos with
  | nil => intro ft0 ftab _ al h; simp at h
  | cons al0 algos ih =>
      intro ft0 ftab h al hm
      rw [List.foldlM_cons] at h
      cases hstep : jAlgoStep ft0 al0 with
      | none => rw [hstep] at h; simp at h
      | some ft1 =>
          rw [hstep] at h
          simp only [Option.bind_eq_bind, Option.some_bind] at h
          rcases List.mem_cons.mp hm with h1 | h2
          · rw [h1]
            rw [jAlgoStep] at hstep
            cases hpj : processAlgoJ al0.2 with
            | none => rw [hpj] at hstep; simp at hstep
            | some s1 => rfl
          · exact ih ft1 ftab h al h2

theorem procTables_single (lvls : LevelTable) :
    procTables none [lvls] = (processAlgoA none lvls).map some := by
  rw [procTables]
  cases processAlgoA none lvls <;> rfl

/-! ## Record-level correspondence between the two normalizers -/

theorem processLevelsJ_map : ∀ (lvls : LevelTable) (s : JSeriesData),
    processLevelsJ s lvls
      = (lvls.mapM (fun lm => parseRecordJ lm.1 lm.2)).map
          (fun recs => recs.foldl appendRecJ s) := by
  intro lvls
  induction lvls with
  | nil => intro s; rfl
  | cons lm rest ih =>
      intro s
      obtain ⟨lvl, m⟩ := lm
      rw [processLevelsJ, List.mapM_cons]
      cases hp : parseRecordJ lvl m with
      | none => rfl
      | some r =>
          simp only [Option.bind_eq_bind, Option.some_bind, ih]
          cases hr : rest.mapM (fun lm => parseRecordJ lm.1 lm.2) with
          | none => rfl
          | some recs => simp

theorem foldl_appendRecJ_eq : ∀ (recs : List RecordJ) (s : JSeriesData),
    recs.foldl appendRecJ s =
      ⟨s.levels ++ recs.map (fun r => r.level),
       s.ratios ++ recs.map (fun r => r.ratioVal),
       s.compressed_sizes ++ recs.map (fun r => r.csize),
       s.compression_times ++ recs.map (fun r => r.ctime),
       s.decompression_times ++ recs.map (fun r => r.dtime),
       s.memory_usage ++ recs.map (fun r => r.mem),
       s.original_size⟩ := by
  intro recs
  induction recs with
  | nil => intro s; cases s; simp
  | cons r recs ih =>
      intro s
      rw [List.foldl_cons, ih]
      simp [appendRecJ]

theorem processAlgoJ_char (lvls : LevelTable) (sJ : JSeriesData)
    (h : processAlgoJ lvls = some sJ) :
    ∃ fl sJraw, lvls.head? = some fl ∧
      processLevelsJ { emptyJSeries with
        original_size := some fl.2.compression.originalSize } lvls = some sJraw ∧
      sJ = sortSeriesJ sJraw := by
  rw [processAlgoJ] at h
  cases hh : lvls.head? with
  | none => rw [hh] at h; simp at h
  | some fl =>
      rw [hh] at h
      simp only [Option.bind_eq_bind, Option.some_bind, Option.pure_def] at h
      rw [Option.bind_eq_some] at h
      obtain ⟨sJraw, hpl, hsort⟩ := h
      simp only [Option.some_inj] at hsort
      exact ⟨fl, sJraw, rfl, hpl, hsort.symm⟩

theorem parseRecord_corr (lvl : String) (m : LevelMetrics) (rA : RecordA) (rJ : RecordJ)
    (hA : parseRecordA lvl m = some rA) (hJ : parseRecordJ lvl m = some rJ) :
    rA.level = (rJ.level : Rat) ∧ rA.ratioVal = rJ.ratioVal ∧ rA.ctime = rJ.ctime ∧
    rA.dtime = rJ.dtime ∧ rA.csize = rJ.csize ∧ rA.mem = rJ.mem := by
  rw [parseRecordJ] at hJ
  simp only [Option.bind_eq_bind] at hJ
  rw [Option.bind_eq_some] at hJ
  obtain ⟨n, hn, hJ⟩ := hJ
  rw [Option.bind_eq_some] at hJ
  obtain ⟨ct, hct, hJ⟩ := hJ
  rw [Option.bind_eq_some] at hJ
  obtain ⟨dt, hdt, hJ⟩ := hJ
  simp only [Option.pure_def, Option.some_inj] at hJ
  have hlevA : parseLevelA lvl = some ((n : Int) : Rat) := by
    rw [parseLevelV] at hn
    simp [parseLevelA, hn]
  rw [parseRecordA] at hA
  simp only [Option.bind_eq_bind] at hA
  rw [Option.bind_eq_some] at hA
  obtain ⟨L, hL, hA⟩ := hA
  rw [Option.bind_eq_some] at hA
  obtain ⟨ct2, hct2, hA⟩ := hA
  rw [Option.bind_eq_some] at hA
  obtain ⟨dt2, hdt2, hA⟩ := hA
  simp only [Option.pure_def, Option.some_inj] at hA
  have hLn : L = ((n : Int) : Rat) := by
    rw [hlevA] at hL
    exact (Option.some.inj hL).symm
  have hcteq : ct2 = ct := by
    rw [hct] at hct2
    exact (Option.some.inj hct2).symm
  have hdteq : dt2 = dt := by
    rw [hdt] at hdt2
    exact (Option.some.inj hdt2).symm
  rw [← hA, ← hJ]
  exact ⟨by simp [hLn], rfl, by simp [hcteq], by simp [hdteq], rfl, rfl⟩

theorem mapM_records_corr : ∀ (lvls : LevelTable) (recsA : List RecordA)
    (recsJ : List RecordJ),
    lvls.mapM (fun lm => parseRecordA lm.1 lm.2) = some recsA →
    lvls.mapM (fun lm => parseRecordJ lm.1 lm.2) = some recsJ →
    recsA.map (fun r => r.level)
        = (recsJ.map (fun r => r.level)).map (fun n : Int => (n : Rat)) ∧
    recsA.map (fun r => r.ratioVal) = recsJ.map (fun r => r.ratioVal) ∧
    recsA.map (fun r => r.ctime) = recsJ.map (fun r => r.ctime) ∧
    recsA.map (fun r => r.dtime) = recsJ.map (fun r => r.dtime) ∧
    recsA.map (fun r => r.csize) = recsJ.map (fun r => r.csize) ∧
    recsA.map (fun r => r.mem) = recsJ.map (fun r => r.mem) := by
  intro lvls
  induction lvls with
  | nil =>
      intro recsA recsJ hA hJ
      simp only [List.mapM_nil, Option.pure_def, Option.some_inj] at hA hJ
      rw [← hA, ← hJ]
      simp
  | cons lm rest ih =>
      intro recsA recsJ hA hJ
      rw [List.mapM_cons] at hA hJ
      cases hpA : parseRecordA lm.1 lm.2 with
      | none => rw [hpA] at hA; simp at hA
      | some rA =>
          rw [hpA] at hA
          cases hmA : rest.mapM (fun lm => parseRecordA lm.1 lm.2) with
          | none => rw [hmA] at hA; simp at hA
          | some restA =>
              rw [hmA] at hA
              simp only [Option.bind_eq_bind, Option.some_bind, Option.map_some',
                Option.pure_def, Option.some_inj] at hA
              cases hpJ : parseRecordJ lm.1 lm.2 with
              | none => rw [hpJ] at hJ; simp at hJ
              | some rJ =>
                  rw [hpJ] at hJ
                  cases hmJ : rest.mapM (fun lm => parseRecordJ lm.1 lm.2) with
                  | none => rw [hmJ] at hJ; simp at hJ
                  | some restJ =>
                      rw [hmJ] at hJ
                      simp only [Option.bind_eq_bind, Option.some_bind, Option.map_some',
                        Option.pure_def, Option.some_inj] at hJ
                      obtain ⟨h1, h2, h3, h4, h5, h6⟩ := ih restA restJ hmA hmJ
                      obtain ⟨c1, c2, c3, c4, c5, c6⟩ :=
                        parseRecord_corr lm.1 lm.2 rA rJ hpA hpJ
                      rw [← hA, ← hJ]
                      simp only [List.map_cons]
                      exact ⟨by rw [c1, h1], by rw [c2, h2], by rw [c3, h3],
                        by rw [c4, h4], by rw [c5, h5], by rw [c6, h6]⟩

theorem getD_map_ratCast : ∀ (ks : List Int) (i : Nat),
    (ks.map (fun n : Int => (n : Rat))).getD i 0 = ((ks.getD i 0 : Int) : Rat) := by
  intro ks
  induction ks with
  | nil => intro i; simp
  | cons k ks ih =>
      intro i
      cases i with
      | zero => rfl
      | succ i => simpa using ih i

theorem argsortRat_int_cast (ks : List Int) :
    argsortRat (ks.map (fun n : Int => (n : Rat))) = argsortInt ks := by
  rw [argsortRat, argsortInt, List.length_map]
  congr 1
  funext a b
  rw [getD_map_ratCast, getD_map_ratCast]
  apply decide_eq_decide.mpr
  exact Int.cast_lt

theorem applyPerm_map_ratCast (idx : List Nat) (ks : List Int) :
    applyPerm idx (ks.map (fun n : Int => (n : Rat))) 0
      = (applyPerm idx ks 0).map (fun n : Int => (n : Rat)) := by
  rw [applyPerm, applyPerm, List.map_map]
  refine List.map_congr_left ?_
  intro a _
  exact getD_map_ratCast ks a

/-- If `process_data`'s per-entry fold succeeds, every file's
`processFileJ` call inside that entry succeeded. -/
theorem jEntryFold_file_some : ∀ (entry : Entry) (res0 res : Table (Table JSeriesData)),
    jEntryFold res0 entry = some res →
    ∀ fd ∈ entry, (processFileJ fd.2).isSome := by
  intro entry
  induction entry with
  | nil => intro res0 res _ fd h; simp at h
  | cons fd0 entry ih =>
      intro res0 res h fd hm
      rw [jEntryFold, List.foldlM_cons] at h
      cases hstep : jFileStep res0 fd0 with
      | none => rw [hstep] at h; simp at h
      | some res1 =>
          rw [hstep] at h
          simp only [Option.bind_eq_bind, Option.some_bind] at h
          rcases List.mem_cons.mp hm with h1 | h2
          · rw [h1]
            rw [jFileStep] at hstep
            cases hpf : processFileJ fd0.2 with
            | none => rw [hpf] at hstep; simp at hstep
            | some ft => rfl
          · exact ih res1 res h fd h2

/-- If `process_data` succeeds, every `processFileJ` call it made
succeeded. -/
theorem process_data_file_some : ∀ (input : InputDoc) (res0 res : Table (Table JSeriesData)),
    input.foldlM jEntryFold res0 = some res →
    ∀ e ∈ input, ∀ fd ∈ e, (processFileJ fd.2).isSome := by
  intro input
  induction input with
  | nil => intro res0 res _ e h; simp at h
  | cons e0 input ih =>
      intro res0 res h e hm fd hfd
      rw [List.foldlM_cons] at h
      cases hentry : jEntryFold res0 e0 with
      | none => rw [hentry] at h; simp at h
      | some res1 =>
          rw [hentry] at h
          simp only [Option.bind_eq_bind, Option.some_bind] at h
          rcases List.mem_cons.mp hm with h1 | h2
          · exact jEntryFold_file_some e0 res0 res1 hentry fd (h1 ▸ hfd)
          · exact ih res1 res h e h2 fd hfd

/-- Per-algorithm correspondence: when both normalizers succeed on the
same levels object, the sorted `extract_data` series and the
`process_data` series carry the same level keys (up to the int→float
cast), ratios, times, sizes, memory and original size. -/
theorem algoAJ_corr (lvls : LevelTable) (sAraw : SeriesData) (sJv : JSeriesData)
    (hA : processAlgoA none lvls = some sAraw)
    (hJ : processAlgoJ lvls = some sJv) :
    (sortSeriesA sAraw).compression_levels = sJv.levels.map (fun n : Int => (n : Rat)) ∧
    (sortSeriesA sAraw).compression_ratios = sJv.ratios ∧
    (sortSeriesA sAraw).compression_time = sJv.compression_times ∧
    (sortSeriesA sAraw).decompression_time = sJv.decompression_times ∧
    (sortSeriesA sAraw).compressed_size = sJv.compressed_sizes ∧
    (sortSeriesA sAraw).memory_usage = sJv.memory_usage ∧
    (sortSeriesA sAraw).original_size = sJv.original_size := by
  obtain ⟨fl, hhd, hpl⟩ := processAlgoA_none_char lvls sAraw hA
  obtain ⟨fl2, sJraw, hhd2, hplJ, hsJ⟩ := processAlgoJ_char lvls sJv hJ
  rw [hhd, Option.some_inj] at hhd2
  subst hhd2
  rw [processLevels_map] at hpl
  rw [processLevelsJ_map] at hplJ
  cases hmA : lvls.mapM (fun lm => parseRecordA lm.1 lm.2) with
  | none => rw [hmA] at hpl; simp at hpl
  | some recsA =>
  cases hmJ : lvls.mapM (fun lm => parseRecordJ lm.1 lm.2) with
  | none => rw [hmJ] at hplJ; simp at hplJ
  | some recsJ =>
  rw [hmA, Option.map_some', Option.some_inj] at hpl
  rw [hmJ, Option.map_some', Option.some_inj] at hplJ
  obtain ⟨e1, e2, e3, e4, e5, e6⟩ := mapM_records_corr lvls recsA recsJ hmA hmJ
  have hsA : sAraw = ⟨recsA.map (fun r => r.level), recsA.map (fun r => r.ratioVal),
      recsA.map (fun r => r.pct), recsA.map (fun r => r.ctime),
      recsA.map (fun r => r.dtime), some fl.2.compression.originalSize,
      recsA.map (fun r => r.csize), recsA.map (fun r => r.mem)⟩ := by
    rw [← hpl, foldl_appendRec_eq]
    simp [emptySeries]
  have hsJr : sJraw = ⟨recsJ.map (fun r => r.level), recsJ.map (fun r => r.ratioVal),
      recsJ.map (fun r => r.csize), recsJ.map (fun r => r.ctime),
      recsJ.map (fun r => r.dtime), recsJ.map (fun r => r.mem),
      some fl.2.compression.originalSize⟩ := by
    rw [← hplJ, foldl_appendRecJ_eq]
    simp [emptyJSeries]
  subst hsJr
  subst hsJ
  subst hsA
  rw [sortSeriesA, sortSeriesJ]
  dsimp only
  rw [e1, argsortRat_int_cast]
  refine ⟨?_, ?_, ?_, ?_, ?_, ?_, ?_⟩
  · rw [applyPerm_map_ratCast]
  · rw [e2]
  · rw [e3]
  · rw [e4]
  · rw [e5]
  · rw [e6]
  · rfl

/-! ## Claim theorems -/

/-- C4 (amended): `parse_time` returns `0.0` for `None` and for the empty
string; an input splitting on `':'` into exactly 2 numeric parts `MM:SS`
returns `60*MM + SS`; 3 numeric parts `HH:MM:SS` return
`3600*HH + 60*MM + SS`; and *every* other part count — including the
single-part `SS` form, which the claim said was computed — falls through
to the legacy `0.0` fallback (a part count of 0 is impossible, since
splitting a nonempty string yields at least one part). -/
theorem c4_parse_time_shape :
    parse_time none = some 0 ∧
    parse_time (some "") = some 0 ∧
    (∀ s m sec, s ≠ "" → (pySplit ':' s).length = 2 →
      pyFloat ((pySplit ':' s).getD 0 "") = some m →
      pyFloat ((pySplit ':' s).getD 1 "") = some sec →
      parse_time (some s) = some (m * 60 + sec)) ∧
    (∀ s hq m sec, s ≠ "" → (pySplit ':' s).length = 3 →
      pyFloat ((pySplit ':' s).getD 0 "") = some hq →
      pyFloat ((pySplit ':' s).getD 1 "") = some m →
      pyFloat ((pySplit ':' s).getD 2 "") = some sec →
      parse_time (some s) = some (hq * 3600 + m * 60 + sec)) ∧
    (∀ s, s ≠ "" → (pySplit ':' s).length ≠ 2 → (pySplit ':' s).length ≠ 3 →
      parse_time (some s) = some 0) := by
  refine ⟨rfl, rfl, ?_, ?_, ?_⟩
  · intro s m sec hne h2 f0 f1
    obtain ⟨a, b, hab⟩ := List.length_eq_two.mp h2
    rw [hab] at f0 f1
    simp only [List.getD_cons_zero, List.getD_cons_succ] at f0 f1
    simp [parse_time, hne, hab, f0, f1]
  · intro s hq m sec hne h3 f0 f1 f2
    obtain ⟨a, b, c, habc⟩ := List.length_eq_three.mp h3
    rw [habc] at f0 f1 f2
    simp only [List.getD_cons_zero, List.getD_cons_succ] at f0 f1 f2
    simp [parse_time, hne, habc, f0, f1, f2]
  · intro s hne h2 h3
    simp [parse_time, hne, h2, h3]

/-- Witness for C4's theorem at `"1:02"`, `"1:02:03"` and `"5"`. -/
theorem c4_parse_time_shape_witness :
    parse_time (some "1:02") = some 62 ∧
    parse_time (some "1:02:03") = some 3723 ∧
    parse_time (some "5") = some 0 := by
  refine ⟨?_, ?_, ?_⟩
  · have h := c4_parse_time_shape.2.2.1 "1:02" 1 2 (by decide) (by rfl)
      (by with_unfolding_all rfl) (by with_unfolding_all rfl)
    rw [h]; norm_num
  · have h := c4_parse_time_shape.2.2.2.1 "1:02:03" 1 2 3 (by decide) (by rfl)
      (by with_unfolding_all rfl) (by with_unfolding_all rfl) (by with_unfolding_all rfl)
    rw [h]; norm_num
  · exact c4_parse_time_shape.2.2.2.2 "5" (by decide) (by decide) (by decide)

/-- C4 counterexample: `"5"` splits into exactly one numeric part (the
`SS` form, `float("5") == 5.0`), yet `parse_time` returns `0.0`, not
`5.0` — the claim's reference definition demands `5.0` here and reserves
the fallback for part counts 0 and ≥ 4. -/
theorem c4_counterexample :
    parse_time (some "5") = some 0 ∧ pyFloat "5" = some 5 ∧ (0 : Rat) ≠ 5 := by
  exact ⟨by rfl, by with_unfolding_all rfl, by norm_num⟩

/-- C6 (amended): in `analyze_compression.extract_data` the level parse
tries `int`, falls back to `float`, and an uncaught `ValueError`
(modelled `none`) results when both fail — never a substituted zero (a
zero result can only come from an actual parse of zero).  In
`visualize.extract_data` and `visualize_json.process_data`, however, the
parse is `int(level)` alone: there is no floating-point fallback. -/
theorem c6_level_parse :
    (∀ s n, pyInt s = some n → parseLevelA s = some (n : Rat)) ∧
    (∀ s, pyInt s = none → parseLevelA s = pyFloat s) ∧
    (∀ s, pyInt s = none → pyFloat s = none → parseLevelA s = none) ∧
    (∀ s q, parseLevelA s = some q → q = 0 → pyInt s = some 0 ∨ pyFloat s = some 0) ∧
    (∀ s, parseLevelV s = pyInt s) := by
  refine ⟨?_, ?_, ?_, ?_, fun _ => rfl⟩
  · intro s n h; simp [parseLevelA, h]
  · intro s h; simp [parseLevelA, h]
  · intro s h1 h2; simp [parseLevelA, h1, h2]
  · intro s q hq h0
    subst h0
    cases hpi : pyInt s with
    | some n =>
        left
        simp [parseLevelA, hpi] at hq
        have hn : n = 0 := by exact_mod_cast hq
        simp [hpi, hn]
    | none =>
        right
        simp [parseLevelA, hpi] at hq
        exact hq

/-- Witness for C6's theorem at `"7"` (integer parse) and `"x"` (both
parses fail, uncaught error, no zero substituted). -/
theorem c6_level_parse_witness :
    parseLevelA "7" = some 7 ∧ parseLevelA "x" = none := by
  constructor
  · have h := c6_level_parse.1 "7" 7 (by decide)
    simpa using h
  · exact c6_level_parse.2.2.1 "x" (by decide) (by rfl)

/-- C6 counterexample: on the decimal level identifier `"1.5"`,
`visualize.extract_data`'s `int(level)` raises (no float attempt is
made), although `float("1.5")` would succeed — contradicting the claimed
int-then-float contract for that cited code; `analyze_compression`'s
parse does fall back to `1.5`. -/
theorem c6_counterexample :
    parseLevelV "1.5" = none ∧ pyFloat "1.5" = some (3 / 2) ∧
    parseLevelA "1.5" = some (3 / 2) := by
  exact ⟨by rfl, by with_unfolding_all rfl, by with_unfolding_all rfl⟩

/-- C7: each derived efficiency entry equals
`compression_ratio / (compression_time + 0.001)` with the smoothing
constant exactly `0.001 = 1/1000`; at `ratio = 4.0`, `time = 0.0` the
value is exactly `4000` and no division fault can occur (see the
witness).  The IEEE-754 double computation `4.0 / (0.0 + 0.001)` also
rounds to exactly `4000.0`, so the rational model agrees with Python
here. -/
theorem c7_efficiency_formula :
    ∀ (m : SeriesData) (i : Nat), i < m.compression_ratios.length →
      i < m.compression_time.length →
      (efficiencyA m).getD i 0 =
        m.compression_ratios.getD i 0 / (m.compression_time.getD i 0 + 1 / 1000) := by
  intro m i h1 h2
  exact getD_map_zip _ _ _ i h1 h2

/-- Witness for C7's theorem: `ratio = 4.0`, `time = 0.0` gives exactly
`4000`. -/
theorem c7_efficiency_formula_witness :
    (efficiencyA ⟨[1], [4], [50], [0], [0], none, [500], [100]⟩).getD 0 0 = 4000 := by
  have h := c7_efficiency_formula ⟨[1], [4], [50], [0], [0], none, [500], [100]⟩ 0
    (by decide) (by decide)
  rw [h]; norm_num

/-- C9: the derived `percent_saved` is the complement of the supplied
`compressed_percentage`, at both code sites: the detailed table of
`generate_summary_table` (`100 - float(...[i])`) and the overview row of
`visualize.create_overview_table` (`100 - ...[argmax ratio]`). -/
theorem c9_percent_saved_complement :
    (∀ (s : SeriesData) (i : Nat),
      detailPercA s i + s.compressed_percentage.getD i 0 = 100) ∧
    (∀ (s : SeriesData) (idx : Nat) (p : Rat),
      npArgmax s.compression_ratios = some idx →
      overviewPercV s = some p →
      p + s.compressed_percentage.getD idx 0 = 100) := by
  constructor
  · intro s i; simp [detailPercA]
  · intro s idx p h1 h2
    rw [overviewPercV, h1] at h2
    simp only [Option.map_some'] at h2
    have hp := Option.some.inj h2
    linarith [hp]

/-- Witness for C9's theorem: `compressed_percentage = 30.0` gives
`percent_saved = 70.0` at both sites. -/
theorem c9_percent_saved_complement_witness :
    detailPercA ⟨[1], [4], [30], [0], [0], none, [500], [100]⟩ 0 = 70 ∧
    overviewPercV ⟨[1], [4], [30], [0], [0], none, [500], [100]⟩ = some 70 := by
  constructor
  · have h := c9_percent_saved_complement.1 ⟨[1], [4], [30], [0], [0], none, [500], [100]⟩ 0
    have h30 : (List.getD [(30 : Rat)] 0 0) = 30 := rfl
    rw [h30] at h
    linarith
  · with_unfolding_all rfl

/-- C3: on a file whose algorithms have only zero durations (every
`real` is `"0:00"`), `generate_summary_table`'s
`min(... if min(...) > 0)` is a `min()` over an empty generator — a
`ValueError` that aborts the script (modelled `some none`: the file is
found, the best-value computation raises).  The code does not produce a
`NoPositiveSample` summary state; it fails. -/
theorem c3_all_zero_summary_raises :
    ((extract_data c3Input).bind (fun r => getA r "f")).map bestCompTimeA = some none ∧
    ((extract_data c3Input).bind (fun r => getA r "f")).map bestDecompTimeA = some none := by
  exact ⟨by with_unfolding_all rfl, by with_unfolding_all rfl⟩

/-- C2 (amended): in `analyze_compression.generate_summary_table`, the
fastest compression/decompression value is the minimum over the
concatenated durations of exactly those algorithms whose *own* minimum
duration is strictly positive (whole-series exclusion).  On the claim's
example this gives `0.3` from `B`.  Note this equals "the minimum
duration strictly greater than zero over all (algorithm, level) pairs"
only when no series mixes zero and positive durations, and the other
cited site, `visualize_json.create_html_summary`, performs *no*
exclusion at all (see the counterexample). -/
theorem c2_fastest_excludes_zero_min_series :
    ∀ (ftab : Table SeriesData),
      (∀ al ∈ ftab, al.2.compression_time ≠ []) →
      (∀ al ∈ ftab, al.2.decompression_time ≠ []) →
      bestCompTimeA ftab
        = pyMinList (posMinSeries (ftab.map (fun al => al.2.compression_time))).flatten ∧
      bestDecompTimeA ftab
        = pyMinList (posMinSeries (ftab.map (fun al => al.2.decompression_time))).flatten := by
  intro ftab h1 h2
  constructor
  · apply minOfMinsPos_flatten
    intro l hm
    obtain ⟨al, hal, rfl⟩ := List.mem_map.mp hm
    exact h1 al hal
  · apply minOfMinsPos_flatten
    intro l hm
    obtain ⟨al, hal, rfl⟩ := List.mem_map.mp hm
    exact h2 al hal

/-- Witness for C2's theorem on the claim's example: the fastest
compression is `0.3` (from `B`), never `0.0` (from `A`), in
`generate_summary_table`'s computation. -/
theorem c2_fastest_excludes_zero_min_series_witness :
    bestCompTimeA c2Ftab = some (3 / 10) ∧ bestDecompTimeA c2Ftab = some (1 / 10) := by
  have h := c2_fastest_excludes_zero_min_series c2Ftab (by decide) (by decide)
  exact ⟨h.1.trans (by with_unfolding_all rfl), h.2.trans (by with_unfolding_all rfl)⟩

/-- C2 counterexample: on the claim's own example — algorithm `A` with
compression durations `[0.0, 0.0]`, algorithm `B` with `[0.5, 0.3]` —
the cited `visualize_json.create_html_summary` computation (a plain
minimum with no positivity exclusion) reports `0.0` from `A`, which the
claim says can never happen (it demands `0.3`). -/
theorem c2_counterexample :
    ((process_data c2Input).bind (fun r => getA r "f")).map bestCompTimeJ = some (some 0) ∧
    (0 : Rat) ≠ 3 / 10 := by
  exact ⟨by with_unfolding_all rfl, by norm_num⟩

/-- C5 (amended): `extract_data` records `original_size` from the first
level of the first occurrence of each `(file, algorithm)` pair and never
overwrites it — every later level's (possibly different)
`compression.originalSize` is ignored *silently*: no mismatch is
detected, surfaced or logged (the counterexample shows the output is
identical to that of an input with no mismatch). -/
theorem c5_first_seen_kept :
    ∀ (input : InputDoc) (res : Table (Table SeriesData)) (f a : String) (s : SeriesData),
    extract_data input = some res → getA2 res f a = some s →
    s.original_size = ((levelTablesFor input f a).head?.bind (fun t => t.head?)).map
      (fun fl => fl.2.compression.originalSize) := by
  intro input res f a s hex hget
  rw [extract_data] at hex
  cases hraw : extractRaw input with
  | none => rw [hraw] at hex; simp at hex
  | some resR =>
      rw [hraw] at hex
      simp only [Option.map_some', Option.some_inj] at hex
      subst hex
      rw [getA2_sortResults] at hget
      cases hgR : getA2 resR f a with
      | none => rw [hgR] at hget; simp at hget
      | some sR =>
          rw [hgR] at hget
          simp only [Option.map_some', Option.some_inj] at hget
          subst hget
          show sR.original_size = _
          have hm := extractRaw_char input resR hraw f a
          rw [hgR] at hm
          exact procTables_none_orig _ _ hm

/-- Witness for C5's theorem on the mismatching input: the kept value is
the first level's `1000`, not the second level's divergent `2000`. -/
theorem c5_first_seen_kept_witness :
    ((getA2 ((extract_data (c5Input 2000)).getD []) "fileA" "zstd").getD
      emptySeries).original_size = some 1000 := by
  have h := c5_first_seen_kept (c5Input 2000) ((extract_data (c5Input 2000)).getD [])
    "fileA" "zstd"
    ((getA2 ((extract_data (c5Input 2000)).getD []) "fileA" "zstd").getD emptySeries)
    (by with_unfolding_all rfl) (by with_unfolding_all rfl)
  rw [h]
  with_unfolding_all rfl

/-- C5 counterexample: two inputs that differ *only* in the second
level's `compression.originalSize` (1000 vs 2000) produce *identical*
`extract_data` output — the mismatch is not flagged or surfaced
anywhere; the kept value is the first-seen `1000`. -/
theorem c5_counterexample :
    extract_data (c5Input 1000) = extract_data (c5Input 2000) ∧
    ((extractRaw (c5Input 2000)).bind (fun r => getA2 r "fileA" "zstd")).map
      (fun s => s.original_size) = some (some 1000) := by
  exact ⟨by with_unfolding_all rfl, by with_unfolding_all rfl⟩

/-- C8 (amended): for every `(file, algorithm)` series in `extract_data`
output, all seven per-level lists (levels, ratios, percentages, the two
times, sizes, memory) have equal length, and that length equals the
*total* number of level records encountered for that pair in the input —
nothing is dropped, and duplicate level keys are each kept as their own
record (so the length equals the number of *distinct* keys only when no
key repeats). -/
theorem c8_record_counts :
    ∀ (input : InputDoc) (res : Table (Table SeriesData)) (f a : String) (s : SeriesData),
    extract_data input = some res → getA2 res f a = some s →
    lensOf s = List.replicate 7 (countRecs input f a) := by
  intro input res f a s hex hget
  rw [extract_data] at hex
  cases hraw : extractRaw input with
  | none => rw [hraw] at hex; simp at hex
  | some resR =>
      rw [hraw] at hex
      simp only [Option.map_some', Option.some_inj] at hex
      subst hex
      rw [getA2_sortResults] at hget
      cases hgR : getA2 resR f a with
      | none => rw [hgR] at hget; simp at hget
      | some sR =>
          rw [hgR] at hget
          simp only [Option.map_some', Option.some_inj] at hget
          subst hget
          have hmaster := extractRaw_char input resR hraw f a
          rw [hgR] at hmaster
          have hlenR := procTables_lens _ none sR hmaster
          have hcnt : lensOf sR = List.replicate 7 (countRecs input f a) := by
            rw [hlenR]
            simp [lensOf, emptySeries, countRecs, List.replicate]
          have hfirst : sR.compression_levels.length = countRecs input f a := by
            have hc := congrArg (fun l => l.getD 0 0) hcnt
            simpa [lensOf, List.replicate] using hc
          rw [sortSeriesA_lens, hfirst]

/-- Witness for C8's theorem at the two-level sample input: all seven
lists have length 2, and 2 is the number of records supplied. -/
theorem c8_record_counts_witness :
    lensOf ((getA2 ((extract_data sampleInput).getD []) "fileA" "zstd").getD emptySeries)
      = List.replicate 7 2 ∧ countRecs sampleInput "fileA" "zstd" = 2 := by
  constructor
  · have h := c8_record_counts sampleInput ((extract_data sampleInput).getD [])
      "fileA" "zstd"
      ((getA2 ((extract_data sampleInput).getD []) "fileA" "zstd").getD emptySeries)
      (by with_unfolding_all rfl) (by with_unfolding_all rfl)
    rw [h]
    rfl
  · rfl

/-- C8 counterexample: when the level key `"1"` is supplied twice for
`("f","gz")` (two top-level entries), the series keeps both records —
all lists have length 2 — while the number of *distinct* level keys is
1, so "length = number of distinct level keys" fails. -/
theorem c8_counterexample :
    ((extract_data c8Input).bind (fun r => getA2 r "f" "gz")).map
      (fun s => s.compression_levels) = some [1, 1] ∧
    ((extract_data c8Input).bind (fun r => getA2 r "f" "gz")).map
      (fun s => s.compression_ratios) = some [1, 2] ∧
    ([(1 : Rat), 1].dedup.length = 1) := by
  refine ⟨by with_unfolding_all rfl, by with_unfolding_all rfl, by with_unfolding_all rfl⟩

/-- C10 counterexample: when the same file name occurs in two top-level
entries, `extract_data` merges the two series (levels `[1, 2]`, two
records) while `process_data` resets `results[test_name]` and keeps only
the last entry (levels `[2]`, one record) — the two routines do not
produce the same normalized model on this valid input. -/
theorem c10_counterexample :
    ((extract_data c10Input).bind (fun r => getA2 r "f" "gz")).map
      (fun s => s.compression_levels) = some [1, 2] ∧
    ((process_data c10Input).bind (fun r => getA2 r "f" "gz")).map
      (fun s => s.levels) = some [2] ∧
    ((extract_data c10Input).bind (fun r => getA2 r "f" "gz")).map
      (fun s => s.compression_levels.length) = some 2 ∧
    ((process_data c10Input).bind (fun r => getA2 r "f" "gz")).map
      (fun s => s.levels.length) = some 1 := by
  refine ⟨by with_unfolding_all rfl, by with_unfolding_all rfl,
    by with_unfolding_all rfl, by with_unfolding_all rfl⟩

/-- C10 (amended): `analyze_compression.extract_data` and
`visualize_json.process_data` are interchangeable only on documents
where every file name occurs in a single top-level entry and, within
each file's object, every algorithm name is unique (so neither the
merge-vs-overwrite nor the duplicate-key difference can fire); on such
documents, when both succeed, the two results are defined for exactly
the same `(file, algorithm)` pairs and agree on every shared field —
levels (`process_data`'s `Int` keys cast to `extract_data`'s floats),
ratios, compression and decompression times, compressed sizes, memory
usage and original size.  Without those uniqueness hypotheses the
routines genuinely diverge (see the counterexample, where a file name
repeated across entries makes `extract_data` merge records that
`process_data` discards). -/
theorem c10_restricted_equivalence
    (input : InputDoc) (resA : Table (Table SeriesData)) (resJ : Table (Table JSeriesData))
    (hA : extract_data input = some resA)
    (hJ : process_data input = some resJ)
    (hF : ((input.map (fun e => e.map Prod.fst)).flatten).Nodup)
    (hAlg : ∀ e ∈ input, ∀ fd ∈ e, (fd.2.map Prod.fst).Nodup) :
    ∀ f a,
      (getA2 resA f a = none ↔ getA2 resJ f a = none) ∧
      ∀ sA sJv, getA2 resA f a = some sA → getA2 resJ f a = some sJv →
        sA.compression_levels = sJv.levels.map (fun n : Int => (n : Rat)) ∧
        sA.compression_ratios = sJv.ratios ∧
        sA.compression_time = sJv.compression_times ∧
        sA.decompression_time = sJv.decompression_times ∧
        sA.compressed_size = sJv.compressed_sizes ∧
        sA.memory_usage = sJv.memory_usage ∧
        sA.original_size = sJv.original_size := by
  intro f a
  rw [extract_data] at hA
  cases hraw : extractRaw input with
  | none => rw [hraw] at hA; simp at hA
  | some resRaw =>
  rw [hraw, Option.map_some', Option.some_inj] at hA
  have hA2 : getA2 resA f a = (getA2 resRaw f a).map sortSeriesA := by
    rw [← hA, getA2_sortResults]
  have hchar := extractRaw_char input resRaw hraw f a
  rw [levelTablesFor_eq] at hchar
  have hjchar := process_data_char input resJ hJ f
  rcases algosFor_of_nodup input f hF with hemp | ⟨algos, halg⟩
  · rw [hemp] at hchar hjchar
    simp only [List.foldr_nil] at hchar
    rw [procTables, Option.some_inj] at hchar
    have hAn : getA2 resA f a = none := by rw [hA2, ← hchar]; rfl
    have hJn : getA2 resJ f a = none := by
      rw [getA2]
      simp only [List.getLast?_nil, Option.elim_none] at hjchar
      rw [hjchar]
      rfl
    refine ⟨iff_of_true hAn hJn, ?_⟩
    intro sA sJv hsA _
    rw [hAn] at hsA
    exact absurd hsA (by simp)
  · obtain ⟨e, he, fd, hfd, hf1, hf2⟩ :=
      algosFor_mem input f algos (by rw [halg]; exact List.mem_singleton.mpr rfl)
    have hnd : (algos.map Prod.fst).Nodup := by
      rw [← hf2]; exact hAlg e he fd hfd
    rw [halg] at hchar hjchar
    simp only [List.foldr_cons, List.foldr_nil, List.append_nil] at hchar
    simp only [List.getLast?_singleton, Option.elim_some] at hjchar
    have hpfsome : (processFileJ algos).isSome := by
      rw [← hf2]
      exact process_data_file_some input [] resJ hJ e he fd hfd
    obtain ⟨ftab, hpf⟩ := Option.isSome_iff_exists.mp hpfsome
    rw [hpf] at hjchar
    have hfchar := processFileJ_char algos ftab hpf a
    have hJ2 : getA2 resJ f a = getA ftab a := by
      rw [getA2, hjchar]
      rfl
    rcases tablesInAlgos_of_nodup algos a hnd with htemp | ⟨lvls, htab⟩
    · rw [htemp] at hchar hfchar
      rw [procTables, Option.some_inj] at hchar
      have hAn : getA2 resA f a = none := by rw [hA2, ← hchar]; rfl
      have hJn : getA2 resJ f a = none := by
        rw [hJ2, hfchar]
        rfl
      refine ⟨iff_of_true hAn hJn, ?_⟩
      intro sA sJv hsA _
      rw [hAn] at hsA
      exact absurd hsA (by simp)
    · rw [htab, procTables_single] at hchar
      cases hpa : processAlgoA none lvls with
      | none => rw [hpa] at hchar; simp at hchar
      | some sAraw =>
          rw [hpa, Option.map_some', Option.some_inj] at hchar
          have hAs : getA2 resA f a = some (sortSeriesA sAraw) := by
            rw [hA2, ← hchar]
            rfl
          rw [htab] at hfchar
          simp only [List.getLast?_singleton, Option.elim_some] at hfchar
          obtain ⟨al, hal, ha1, ha2⟩ := tablesInAlgos_mem algos a lvls
            (by rw [htab]; exact List.mem_singleton.mpr rfl)
          have hpjsome : (processAlgoJ lvls).isSome := by
            rw [← ha2]
            rw [processFileJ] at hpf
            exact processFileJ_algo_some algos [] ftab hpf al hal
          obtain ⟨sJv0, hpj⟩ := Option.isSome_iff_exists.mp hpjsome
          have hJs : getA2 resJ f a = some sJv0 := by
            rw [hJ2, hfchar, hpj]
          refine ⟨iff_of_false (by rw [hAs]; simp) (by rw [hJs]; simp), ?_⟩
          intro sA sJv hsA hsJv
          rw [hAs, Option.some_inj] at hsA
          rw [hJs, Option.some_inj] at hsJv
          rw [← hsA, ← hsJv]
          exact algoAJ_corr lvls sAraw sJv0 hpa hpj

/-- The restricted-equivalence theorem applied to a concrete document:
one entry, one file, one algorithm, two integer levels. -/
theorem c10_restricted_equivalence_witness :
    extract_data sampleInput = some ((extract_data sampleInput).getD []) ∧
    process_data sampleInput = some ((process_data sampleInput).getD []) ∧
    ((sampleInput.map (fun e => e.map Prod.fst)).flatten).Nodup ∧
    (∀ f a,
      (getA2 ((extract_data sampleInput).getD []) f a = none ↔
       getA2 ((process_data sampleInput).getD []) f a = none) ∧
      ∀ sA sJv, getA2 ((extract_data sampleInput).getD []) f a = some sA →
        getA2 ((process_data sampleInput).getD []) f a = some sJv →
        sA.compression_levels = sJv.levels.map (fun n : Int => (n : Rat)) ∧
        sA.compression_ratios = sJv.ratios ∧
        sA.compression_time = sJv.compression_times ∧
        sA.decompression_time = sJv.decompression_times ∧
        sA.compressed_size = sJv.compressed_sizes ∧
        sA.memory_usage = sJv.memory_usage ∧
        sA.original_size = sJv.original_size) :=
  ⟨by with_unfolding_all rfl, by with_unfolding_all rfl, by decide,
   c10_restricted_equivalence sampleInput _ _
     (by with_unfolding_all rfl) (by with_unfolding_all rfl) (by decide)
     (by decide)⟩

/-- C1 (amended): every series emitted by `extract_data` is the raw
series with *each* list field permuted by the single
`np.argsort(compression_levels)` permutation, and its level keys come
out sorted ascending — for series of every length, since the introsort
(median-of-3 quicksort, insertion sort for segments of at most 16
elements, heapsort at the depth limit) always key-sorts its input.  The
*stability* part — records with equal level keys keeping their input
encounter order — holds for series of at most 16 records, where numpy
runs its stable insertion-sort small-array path; at 17 or more records
the quicksort gives no stability guarantee and does reorder equal keys
(see the counterexample). -/
theorem c1_sorted_and_stability :
    ∀ (input : InputDoc) (resR res : Table (Table SeriesData)) (f a : String)
      (sR s : SeriesData),
    extractRaw input = some resR → getA2 resR f a = some sR →
    extract_data input = some res → getA2 res f a = some s →
    s = sortSeriesA sR ∧
    s.compression_levels.Pairwise (· ≤ ·) ∧
    (sR.compression_levels.length ≤ 16 →
      (argsortRat sR.compression_levels).Pairwise (lexLtKeys sR.compression_levels)) := by
  intro input resR res f a sR s hraw hgR hex hget
  have hres : res = sortResults resR := by
    rw [extract_data, hraw] at hex
    simpa using hex.symm
  subst hres
  rw [getA2_sortResults, hgR] at hget
  simp only [Option.map_some', Option.some_inj] at hget
  have hs : s = sortSeriesA sR := hget.symm
  refine ⟨hs, ?_, fun hlen => argsortRat_small_pairwise _ hlen⟩
  rw [hs]
  show (applyPerm (argsortRat sR.compression_levels) sR.compression_levels 0).Pairwise _
  exact argsortRat_applyPerm_sorted sR.compression_levels

/-- Witness for C1's theorem on a two-level input supplied out of order:
the produced series is the argsort-permuted raw series, sorted
ascending, and (being small) stably so. -/
theorem c1_sorted_and_stability_witness :
    ((getA2 ((extract_data c1SmallInput).getD []) "f" "gz").getD emptySeries)
      = sortSeriesA ((getA2 ((extractRaw c1SmallInput).getD []) "f" "gz").getD
          emptySeries) ∧
    ((getA2 ((extract_data c1SmallInput).getD []) "f" "gz").getD
      emptySeries).compression_levels.Pairwise (· ≤ ·) ∧
    (((getA2 ((extractRaw c1SmallInput).getD []) "f" "gz").getD
        emptySeries).compression_levels.length ≤ 16 →
      (argsortRat ((getA2 ((extractRaw c1SmallInput).getD []) "f" "gz").getD
        emptySeries).compression_levels).Pairwise
        (lexLtKeys ((getA2 ((extractRaw c1SmallInput).getD []) "f" "gz").getD
          emptySeries).compression_levels)) :=
  c1_sorted_and_stability c1SmallInput ((extractRaw c1SmallInput).getD [])
    ((extract_data c1SmallInput).getD []) "f" "gz"
    ((getA2 ((extractRaw c1SmallInput).getD []) "f" "gz").getD emptySeries)
    ((getA2 ((extract_data c1SmallInput).getD []) "f" "gz").getD emptySeries)
    (by with_unfolding_all rfl) (by with_unfolding_all rfl)
    (by with_unfolding_all rfl) (by with_unfolding_all rfl)

/-- C1 counterexample: 17 records with the *same* level key `0` for
`("f","gz")`, with compressionRatio values `0, 1, …, 16` marking the
input encounter order.  numpy's default argsort partitions once (17 > 16
elements) and the median-of-3 quicksort swaps reorder the equal-keyed
records: the output ratio order is not the input order, so the sort is
not stable on this valid input. -/
theorem c1_counterexample :
    ((extract_data c1Input).bind (fun r => getA2 r "f" "gz")).map
      (fun s => s.compression_ratios)
      = some [0, 14, 13, 12, 11, 10, 9, 15, 8, 6, 5, 4, 3, 2, 1, 7, 16] ∧
    ((extract_data c1Input).bind (fun r => getA2 r "f" "gz")).map
      (fun s => s.compression_levels) = some (List.replicate 17 0) ∧
    ([0, 14, 13, 12, 11, 10, 9, 15, 8, 6, 5, 4, 3, 2, 1, 7, 16] : List Rat)
      ≠ [0, 1, 2, 3, 4, 5, 6, 7, 8, 9, 10, 11, 12, 13, 14, 15, 16] := by
  refine ⟨by with_unfolding_all rfl, by with_unfolding_all rfl, ?_⟩
  intro h
  have := congrArg (fun l => List.getD l 1 0) h
  norm_num at this

/-! ## Sanity checks of the parsing layer -/
